import Mathlib

/-!
# A static site generator: paths, titles, the content walk and the asset mirror

Shallow embedding of `main.go`.  Go strings are byte sequences; the functions of
`path/filepath` that the program calls are modelled for the Unix build
(separator `/`, empty volume name): `Ext` and `Base` byte by byte, `Clean`,
`Join`, `Dir` and `Rel` on the elements of a path, `Walk` and `WalkDir` as the
recursions of the library over a tree of entries.

The directories that the program reads are trees given as values; the file
system that it writes maps resolved paths to files and directories.  There are
no symbolic links.  The operations of `os` and `ioutil` take the path as the
program passes it: the kernel follows it element by element, and a `..` element
can only be followed out of a directory that exists.  `os.MkdirAll` is the
recursion of the library on the bytes of the path, `ioutil.WriteFile` opens the
file with `O_TRUNC` before it writes, so that a write that fails leaves the file
with the bytes written so far.  What the program cannot decide itself is a
parameter of the run: the umask, the paths where creating, removing or writing
fails, the converter, the template set and the outcome of the listener.
Definitions come first, then the lemmas, then the theorems of the claims.
-/

namespace StaticSite

/-! ## Go strings -/

/-- Go strings are immutable byte sequences. -/
abbrev GoString := List UInt8

/-- The bytes of an ASCII literal. -/
def str (s : String) : GoString := s.toList.map (fun c => c.toNat.toUInt8)

/-- The path separator, the byte of `/`. -/
def sep : UInt8 := 47

/-- The byte of `.`. -/
def dot : UInt8 := 46

/-- The slice expression `s[:hi]` with a signed bound: it panics (`none`) when
`hi` is negative or exceeds `len(s)`. -/
def slicePrefix (s : GoString) (hi : Int) : Option GoString :=
  if 0 ≤ hi ∧ hi ≤ (s.length : Int) then some (s.take hi.toNat) else none

/-! ## `path/filepath`: `Ext` and `Base` -/

/-- The loop of `filepath.Ext`: the bytes are visited from the last one towards
the first (`rev` holds `path[i], path[i-1], ...`, `acc` holds `path[i+1:]`); the
scan stops at a separator and returns `path[i:]` at the first dot. -/
def filepath.extScan : List UInt8 → List UInt8 → GoString
  | [], _ => []
  | c :: rev, acc =>
    if c = sep then []
    else if c = dot then c :: acc
    else filepath.extScan rev (c :: acc)

/-- The extension of a path: the suffix beginning at the final dot in the final
element of the path, empty if there is no dot. -/
def filepath.Ext (path : GoString) : GoString :=
  filepath.extScan path.reverse []

/-- Strip trailing slashes (`for len(path) > 0 && path[len(path)-1] == '/'`). -/
def filepath.stripTrailingSeps (path : GoString) : GoString :=
  (path.reverse.dropWhile (fun c => c == sep)).reverse

/-- The bytes after the last separator (the whole string when there is none). -/
def filepath.lastElement (path : GoString) : GoString :=
  (path.reverse.takeWhile (fun c => c != sep)).reverse

/-- The last element of a path: trailing separators are removed first, the empty
path gives `.`, a path of separators only gives `/`. -/
def filepath.Base (path : GoString) : GoString :=
  if path = [] then [dot]
  else
    let path := filepath.stripTrailingSeps path
    let path := filepath.lastElement path
    if path = [] then [sep] else path

/-! ## `path/filepath`: `Clean`, `Join`, `Dir` and `Rel`

These are modelled on the elements of a path (the runs of bytes between
separators), following the four rewriting rules documented for `Clean`. -/

/-- The function `strings.Split(s, "/")`: the runs between separators, empty runs
included. -/
def strings.Split : GoString → List GoString
  | [] => [[]]
  | c :: s =>
    if c = sep then [] :: strings.Split s
    else match strings.Split s with
      | [] => [[c]]
      | e :: es => (c :: e) :: es

/-- The function `strings.Join(elems, "/")`. -/
def strings.Join (elems : List GoString) : GoString := [sep].intercalate elems

/-- A file name: a non-empty element other than `.` and `..`. -/
def isName (e : GoString) : Prop := e ≠ [] ∧ sep ∉ e ∧ e ≠ [dot] ∧ e ≠ [dot, dot]

instance (e : GoString) : Decidable (isName e) := by unfold isName; infer_instance

/-- A path is rooted when it begins with a separator. -/
def filepath.isRooted (path : GoString) : Bool := path.head? == some sep

/-- One round of the loop of `Clean`, on one path element.  The state is the
stack of elements written so far (last one first) and `dotdot`, the number of
elements below which the loop cannot backtrack. -/
def filepath.cleanStep (rooted : Bool) (st : List GoString × Nat) (e : GoString) :
    List GoString × Nat :=
  if e = [] then st
  else if e = [dot] then st
  else if e = [dot, dot] then
    if st.1.length > st.2 then (st.1.tail, st.2)
    else if !rooted then (e :: st.1, st.1.length + 1)
    else st
  else (e :: st.1, st.2)

/-- The elements of the cleaned path. -/
def filepath.cleanElems (path : GoString) : List GoString :=
  ((strings.Split path).foldl (filepath.cleanStep (filepath.isRooted path)) ([], 0)).1.reverse

/-- Write a cleaned path: the root separator if any, the elements separated by
one separator each, and `.` when nothing was written. -/
def filepath.render (rooted : Bool) (elems : List GoString) : GoString :=
  let s := (if rooted then [sep] else []) ++ strings.Join elems
  if s = [] then [dot] else s

/-- The shortest path name equivalent to `path` by lexical processing. -/
def filepath.Clean (path : GoString) : GoString :=
  filepath.render (filepath.isRooted path) (filepath.cleanElems path)

/-- Join the elements from the first non-empty one on with separators and clean
the result; the empty string when every element is empty. -/
def filepath.Join : List GoString → GoString
  | [] => []
  | e :: es =>
    if e ≠ [] then filepath.Clean (strings.Join (e :: es)) else filepath.Join es

/-- All but the last element of a path, cleaned. -/
def filepath.Dir (path : GoString) : GoString :=
  filepath.Clean (path.take (path.length - (filepath.lastElement path).length))

/-- The elements that the comparison loop of `Rel` sees in a cleaned path: a
rooted path starts with an empty element, the empty path has none. -/
def filepath.relElems (s : GoString) : List GoString :=
  if s = [] then [] else if s = [sep] then [[]] else strings.Split s

/-- Skip the elements that two paths share at their start. -/
def filepath.stripCommon : List GoString → List GoString → List GoString × List GoString
  | b :: bs, t :: ts => if t = b then filepath.stripCommon bs ts else (b :: bs, t :: ts)
  | bs, ts => (bs, ts)

/-- A relative path that is lexically equivalent to `targpath` when joined to
`basepath`, or `none` when `targpath` cannot be made relative to `basepath`. -/
def filepath.Rel (basepath targpath : GoString) : Option GoString :=
  let base := filepath.Clean basepath
  let targ := filepath.Clean targpath
  if targ = base then some [dot]
  else
    let base := if base = [dot] then [] else base
    if filepath.isRooted base != filepath.isRooted targ then none
    else
      match filepath.stripCommon (filepath.relElems base) (filepath.relElems targ) with
      | (b :: bs, t :: ts) =>
        if b = [dot, dot] then none
        else some (strings.Join (List.replicate (bs.length + 1) [dot, dot] ++ [strings.Join (t :: ts)]))
      | (_ :: bs, []) => some (strings.Join (List.replicate (bs.length + 1) [dot, dot]))
      | ([], ts) => some (strings.Join ts)

/-! ## `main.go`: title and slug -/

/-- The function `deriveTitle` (main.go, lines 119-123); `none` is the panic of
the slice expression. -/
def deriveTitle (path : GoString) : Option GoString :=
  let name := filepath.Base path
  let title := slicePrefix name ((name.length : Int) - ((filepath.Ext name).length : Int))
  title

/-- The slug of line 89, `rel[:len(rel)-len(filepath.Ext(rel))] + ".html"`. -/
def slug (rel : GoString) : Option GoString :=
  (slicePrefix rel ((rel.length : Int) - ((filepath.Ext rel).length : Int))).map
    (fun s => s ++ str ".html")

/-- The bytes of a name before its last dot, and the whole name when it has no
dot: a file name with its extension stripped, in the words of the specification. -/
def beforeLastDot (name : GoString) : GoString :=
  if dot ∈ name then ((name.reverse.dropWhile (fun c => c != dot)).drop 1).reverse else name

/-- The output path of lines 89-90: `filepath.Join(*outDir, slug)`. -/
def outPathOf (outDir rel : GoString) : Option GoString :=
  (slug rel).map (fun s => filepath.Join [outDir, s])

/-! ## Errors -/

/-- Error values.  `SkipDir` and `SkipAll` are the two sentinel values that the
walkers of `path/filepath` treat specially; the other values stand for the
errors of the operating system and of the libraries; `panic` marks a run-time
panic that unwinds through the walk. -/
inductive Err where
  | SkipDir
  | SkipAll
  | lstat
  | readDir
  | readFile
  | convert
  | rel
  | notExist
  | exist
  | notDir
  | isDir
  | permission
  | invalid
  | write
  | execute
  | listen
  | panic
  deriving DecidableEq, Repr

/-- Errors other than the two sentinels of the walkers. -/
def Err.plain (e : Err) : Prop := e ≠ Err.SkipDir ∧ e ≠ Err.SkipAll

instance (e : Err) : Decidable e.plain := by unfold Err.plain; infer_instance

/-! ## Source trees

The directories that the program reads (content, static assets) are values: a
run that the model covers keeps them apart from the output directory. -/

/-- A node of a source tree.  A file has permission bits and the bytes that
`ioutil.ReadFile` returns (`none`: the read fails); a directory has its entries
in the order in which the directory is listed, and may be unreadable. -/
inductive Node where
  | file (mode : Nat) (content : Option (List UInt8))
  | dir (mode : Nat) (readable : Bool) (entries : List (GoString × Node))

/-- What a walk callback observes of an entry: `IsDir()`, `Mode()` and the
result of reading the file at its path. -/
structure FileInfo where
  isDir : Bool
  mode : Nat
  content : Option (List UInt8)
  deriving DecidableEq

/-- The information of a node. -/
def Node.info : Node → FileInfo
  | .file mode content => ⟨false, mode, content⟩
  | .dir mode _ _ => ⟨true, mode, none⟩

/-- The callbacks of `filepath.WalkDir` and `filepath.Walk` over a state. -/
abbrev WalkFn (σ : Type) := GoString → Option FileInfo → Option Err → σ → Option Err × σ

/-! ## `path/filepath`: the walkers -/

mutual
/-- The function `walkDir` of `path/filepath`: the callback is called on the
entry; a directory is then listed, the callback is called a second time when
the listing fails, and the entries are walked in order. -/
def filepath.walkDir {σ : Type} (fn : WalkFn σ) (path : GoString) (d : Node) (s : σ) :
    Option Err × σ :=
  match d with
  | .file mode content => fn path (some ⟨false, mode, content⟩) none s
  | .dir mode readable entries =>
    match fn path (some ⟨true, mode, none⟩) none s with
    | (some err, s1) => (if err = Err.SkipDir then none else some err, s1)
    | (none, s1) =>
      if readable then filepath.walkDirEntries fn path entries s1
      else
        match fn path (some ⟨true, mode, none⟩) (some Err.readDir) s1 with
        | (some err, s2) => (if err = Err.SkipDir then none else some err, s2)
        | (none, s2) => (none, s2)
/-- The loop of `walkDir` over the entries of a directory. -/
def filepath.walkDirEntries {σ : Type} (fn : WalkFn σ) (path : GoString) :
    List (GoString × Node) → σ → Option Err × σ
  | [], s => (none, s)
  | (name, d1) :: rest, s =>
    match filepath.walkDir fn (filepath.Join [path, name]) d1 s with
    | (some err, s1) => if err = Err.SkipDir then (none, s1) else (some err, s1)
    | (none, s1) => filepath.walkDirEntries fn path rest s1
end

/-- The function `filepath.WalkDir`; `root` is `none` when `os.Lstat` fails on
the root path. -/
def filepath.WalkDir {σ : Type} (rootPath : GoString) (root : Option Node) (fn : WalkFn σ)
    (s : σ) : Option Err × σ :=
  let r := match root with
    | none => fn rootPath none (some Err.lstat) s
    | some d => filepath.walkDir fn rootPath d s
  (if r.1 = some Err.SkipDir ∨ r.1 = some Err.SkipAll then none else r.1, r.2)

mutual
/-- The function `walk` of `path/filepath`: a directory is listed first, the
callback is called with the error of the listing, and the walk returns when
either failed; the entries are then walked in order. -/
def filepath.walk {σ : Type} (fn : WalkFn σ) (path : GoString) (info : Node) (s : σ) :
    Option Err × σ :=
  match info with
  | .file mode content => fn path (some ⟨false, mode, content⟩) none s
  | .dir mode readable entries =>
    let err := if readable then none else some Err.readDir
    match fn path (some ⟨true, mode, none⟩) err s with
    | (some err1, s1) => (some err1, s1)
    | (none, s1) =>
      if readable then filepath.walkEntries fn path entries s1 else (none, s1)
/-- The loop of `walk` over the names of a directory. -/
def filepath.walkEntries {σ : Type} (fn : WalkFn σ) (path : GoString) :
    List (GoString × Node) → σ → Option Err × σ
  | [], s => (none, s)
  | (name, fileInfo) :: rest, s =>
    match filepath.walk fn (filepath.Join [path, name]) fileInfo s with
    | (some err, s1) =>
      if !fileInfo.info.isDir || err != Err.SkipDir then (some err, s1)
      else filepath.walkEntries fn path rest s1
    | (none, s1) => filepath.walkEntries fn path rest s1
end

/-- The function `filepath.Walk`. -/
def filepath.Walk {σ : Type} (rootPath : GoString) (root : Option Node) (fn : WalkFn σ)
    (s : σ) : Option Err × σ :=
  let r := match root with
    | none => fn rootPath none (some Err.lstat) s
    | some info => filepath.walk fn rootPath info s
  (if r.1 = some Err.SkipDir ∨ r.1 = some Err.SkipAll then none else r.1, r.2)

/-! ## The file system that the program writes

There are no symbolic links: the entry that a path names lies at the elements
of the cleaned path, when the directories that the path passes through exist.
The kernel follows a path element by element; a `..` element leaves the
directory reached so far, which must exist.  Whether the directory that holds
the last element exists is checked by each operation. -/

/-- A resolved path. -/
structure Key where
  rooted : Bool
  elems : List GoString
  deriving DecidableEq

/-- Lexical resolution of a path. -/
def resolve (path : GoString) : Key := ⟨filepath.isRooted path, filepath.cleanElems path⟩

/-- The keys `/`, `.`, `..`, `../..` and so on: directories that always exist. -/
def Key.isBase (k : Key) : Bool := k.elems.all (fun e => e == [dot, dot])

/-- The directory that holds an entry. -/
def Key.parent (k : Key) : Key := ⟨k.rooted, k.elems.dropLast⟩

/-- The entry `x` lies at `k` or below it. -/
def Key.within (k x : Key) : Bool := k.rooted == x.rooted && k.elems.isPrefixOf x.elems

/-- An entry of the file system: a regular file with permission bits and bytes,
or a directory with permission bits. -/
inductive Entry where
  | file (perm : Nat) (data : List UInt8)
  | dir (perm : Nat)
  deriving DecidableEq, Repr

/-- A file system maps resolved paths to entries. -/
abbrev FS := Key → Option Entry

/-- What exists at a path. -/
inductive Kind where
  | absent
  | file
  | dir
  deriving DecidableEq, Repr

/-- The kind of the entry at a key. -/
def FS.kind (fs : FS) (k : Key) : Kind :=
  if k.isBase then Kind.dir
  else match fs k with
    | none => Kind.absent
    | some (Entry.file _ _) => Kind.file
    | some (Entry.dir _) => Kind.dir

/-- The file system with the entry at `k` replaced. -/
def FS.set (fs : FS) (k : Key) (e : Entry) : FS := fun x => if x = k then some e else fs x

/-- The file system without the entry at `K` and everything below it. -/
def FS.without (fs : FS) (K : Key) : FS := fun x => if K.within x then none else fs x

/-- The permission bits of a new file or directory: the nine permission bits
that were requested, without the bits of the process umask. -/
def applyUmask (umask perm : Nat) : Nat := perm % 512 - ((perm % 512) &&& umask)

/-- The constant `os.ModePerm`, 0777. -/
def ModePerm : Nat := 511

/-- Titles and contents of pages. -/
structure Page where
  Title : GoString
  Content : List UInt8
  deriving DecidableEq

/-- A parsed template set: executing a named template on a page writes bytes to
the output file and may then fail. -/
structure Template where
  execute : GoString → Page → List UInt8 × Bool

/-- How the call of `http.ListenAndServe` ends. -/
inductive ServeOutcome where
  | blocks
  | returns (err : Option Err)

/-- The environment of a run: the umask of the process, the paths that cannot
be created or opened for writing, the entries that cannot be removed, the files
on which the write or the close of `ioutil.WriteFile` fails, with the number of
bytes that reach the file before the failure, the converter of the markup
library, the template sets that `ParseGlob` returns (`none`: it fails), and the
outcome of the listener. -/
structure Env where
  umask : Nat
  denied : Key → Bool
  removeFails : Key → Bool
  writeFails : Key → Option Nat
  convert : List UInt8 → Option (List UInt8)
  parseGlob : GoString → Option Template
  serve : ServeOutcome

/-- One step of the path resolution of the kernel, on one path element.  The
state is an error, or the stack of `Clean` with the directories that the path
has entered; a `..` element leaves the directory on top of the stack, which
must exist and be a directory. -/
def os.lookupStep (fs : FS) (rooted : Bool) (st : Option Err × (List GoString × Nat))
    (e : GoString) : Option Err × (List GoString × Nat) :=
  match st.1 with
  | some err => (some err, st.2)
  | none =>
    if e = [dot, dot] ∧ st.2.1.length > st.2.2 then
      match fs.kind ⟨rooted, st.2.1.reverse⟩ with
      | Kind.dir => (none, filepath.cleanStep rooted st.2 e)
      | Kind.file => (some Err.notDir, st.2)
      | Kind.absent => (some Err.notExist, st.2)
    else (none, filepath.cleanStep rooted st.2 e)

/-- The resolved path of the entry that a path names for the kernel, or the
error of the resolution: the empty path names nothing, and a path through a
missing directory names nothing. -/
def os.lookup (fs : FS) (path : GoString) : Except Err Key :=
  if path = [] then Except.error Err.notExist
  else
    match (strings.Split path).foldl (os.lookupStep fs (filepath.isRooted path))
        (none, ([], 0)) with
    | (some err, _) => Except.error err
    | (none, st) => Except.ok ⟨filepath.isRooted path, st.1.reverse⟩

/-- The functions `os.Stat` and `os.Lstat`: `IsDir()` of the entry at a path, or
the error. -/
def os.Stat (fs : FS) (path : GoString) : Except Err Bool :=
  match os.lookup fs path with
  | Except.error err => Except.error err
  | Except.ok k =>
    match fs.kind k with
    | Kind.absent => Except.error Err.notExist
    | Kind.file => Except.ok false
    | Kind.dir => Except.ok true

/-- The system call `mkdir` at a resolved path. -/
def os.mkdirAt (env : Env) (k : Key) (perm : Nat) (fs : FS) : Option Err × FS :=
  if fs.kind k ≠ Kind.absent then (some Err.exist, fs)
  else if fs.kind k.parent ≠ Kind.dir then (some Err.notExist, fs)
  else if env.denied k then (some Err.permission, fs)
  else (none, fs.set k (Entry.dir (applyUmask env.umask perm)))

/-- The last element of a path, trailing separators aside. -/
def os.lastName (path : GoString) : GoString :=
  filepath.lastElement (filepath.stripTrailingSeps path)

/-- The function `os.Mkdir`: a path whose last element is `.` or `..` names a
directory that exists or that cannot be made under this name. -/
def os.Mkdir (env : Env) (path : GoString) (perm : Nat) (fs : FS) : Option Err × FS :=
  match os.lookup fs path with
  | Except.error err => (some err, fs)
  | Except.ok k =>
    if os.lastName path = [dot] ∨ os.lastName path = [dot, dot] then
      (some (if fs.kind k = Kind.absent then Err.notExist else Err.exist), fs)
    else os.mkdirAt env k perm fs

/-- The recursion of `os.MkdirAll`, with a bound on its depth: an existing
directory is success, an existing file is an error; otherwise the trailing
separators and the last element are skipped (`i`, `j`), the parent `path[:j-1]`
is made when `j > 1`, and `Mkdir` is called on the path, where an error counts
only if the path is no directory afterwards. -/
def os.mkdirAllLoop (env : Env) (perm : Nat) : Nat → GoString → FS → Option Err × FS
  | 0, _, fs => (some Err.invalid, fs)
  | fuel + 1, path, fs =>
    match os.Stat fs path with
    | Except.ok true => (none, fs)
    | Except.ok false => (some Err.notDir, fs)
    | Except.error _ =>
      let i := (filepath.stripTrailingSeps path).length
      let j := i - (os.lastName path).length
      match (if j > 1 then os.mkdirAllLoop env perm fuel (path.take (j - 1)) fs
          else (none, fs)) with
      | (some err, fs1) => (some err, fs1)
      | (none, fs1) =>
        match os.Mkdir env path perm fs1 with
        | (none, fs2) => (none, fs2)
        | (some err, fs2) =>
          match os.Stat fs2 path with
          | Except.ok true => (none, fs2)
          | _ => (some err, fs2)

/-- The function `os.MkdirAll`; every recursive call is on a shorter path, so
the bound is never reached. -/
def os.MkdirAll (env : Env) (path : GoString) (perm : Nat) (fs : FS) : Option Err × FS :=
  os.mkdirAllLoop env perm (path.length + 1) path fs

/-- The system call `open` with `O_WRONLY|O_CREATE|O_TRUNC` at a resolved path:
an existing file is truncated and keeps its permission bits, a new file gets
`perm` without the bits of the umask. -/
def os.openAt (env : Env) (k : Key) (perm : Nat) (fs : FS) : Option Err × FS :=
  match fs.kind k with
  | Kind.dir => (some Err.isDir, fs)
  | Kind.file =>
    if env.denied k then (some Err.permission, fs)
    else
      match fs k with
      | some (Entry.file old _) => (none, fs.set k (Entry.file old []))
      | _ => (none, fs.set k (Entry.file (applyUmask env.umask perm) []))
  | Kind.absent =>
    if fs.kind k.parent ≠ Kind.dir then (some Err.notExist, fs)
    else if env.denied k then (some Err.permission, fs)
    else (none, fs.set k (Entry.file (applyUmask env.umask perm) []))

/-- The function `os.OpenFile` with the flags `O_WRONLY|O_CREATE|O_TRUNC`; a
path that ends in a separator, in `.` or in `..` names no file. -/
def os.OpenFile (env : Env) (path : GoString) (perm : Nat) (fs : FS) : Option Err × FS :=
  match os.lookup fs path with
  | Except.error err => (some err, fs)
  | Except.ok k =>
    if isName (filepath.lastElement path) then os.openAt env k perm fs
    else (some (if fs.kind k = Kind.dir then Err.isDir else Err.notExist), fs)

/-- The bytes of the file at a resolved path after a write through a handle
that was opened with `O_TRUNC`. -/
def os.writeKey (k : Key) (data : List UInt8) (fs : FS) : FS :=
  match fs k with
  | some (Entry.file perm _) => fs.set k (Entry.file perm data)
  | _ => fs

/-- Writing through the handle that `os.OpenFile` returned for a path. -/
def os.writeHandle (path : GoString) (data : List UInt8) (fs : FS) : FS :=
  os.writeKey (resolve path) data fs

/-- The function `ioutil.WriteFile`: the file is opened with
`O_WRONLY|O_CREATE|O_TRUNC`, the bytes are written and the file is closed.  When
the write or the close fails, the file keeps the bytes that were written before
the failure. -/
def ioutil.WriteFile (env : Env) (path : GoString) (data : List UInt8) (perm : Nat)
    (fs : FS) : Option Err × FS :=
  match os.OpenFile env path perm fs with
  | (some err, fs1) => (some err, fs1)
  | (none, fs1) =>
    match env.writeFails (resolve path) with
    | some n => (some Err.write, os.writeHandle path (data.take n) fs1)
    | none => (none, os.writeHandle path data fs1)

/-- The function `os.Create`: the file is created or truncated with mode 0666. -/
def os.Create (env : Env) (path : GoString) (fs : FS) : Option Err × FS :=
  os.OpenFile env path 438 fs

/-- The test `endsWithDot` of `os.RemoveAll`. -/
def os.endsWithDot (path : GoString) : Bool :=
  path == [dot] || (path.reverse.head? == some dot && path.reverse.tail.head? == some sep)

/-- A file stands where the resolved path passes through a directory. -/
def FS.blocked (fs : FS) (k : Key) : Bool :=
  k.elems.dropLast.inits.any (fun p => fs.kind ⟨k.rooted, p⟩ == Kind.file)

/-- The file system without the entries at and below `K` that can be removed:
the entries in `stays` are kept. -/
def FS.erase (fs : FS) (stays : Key → Bool) (K : Key) : FS :=
  fun x => if K.within x && !stays x then none else fs x

/-- The function `os.RemoveAll`: the empty path is ignored and a path that ends
in a `.` element is rejected.  A path through a missing directory names nothing,
which is success; a path through a file is an error.  Otherwise the entry and
everything below it is removed.  When the entry itself cannot be removed, as
when an entry below it stays, the call removes what can be removed and fails;
so it does on the root, the working directory and the directories above it,
which lose their entries but cannot be removed themselves. -/
def os.RemoveAll (env : Env) (path : GoString) (fs : FS) : Option Err × FS :=
  if path = [] then (none, fs)
  else if os.endsWithDot path then (some Err.invalid, fs)
  else
    match os.lookup fs path with
    | Except.error Err.notExist => (none, fs)
    | Except.error err => (some err, fs)
    | Except.ok k =>
      if fs.blocked k then (some Err.notDir, fs)
      else if env.removeFails k then (some Err.permission, fs.erase env.removeFails k)
      else if k.isBase then (some Err.invalid, fs.erase env.removeFails k)
      else (none, fs.without k)

/-! ## `main.go`: the asset mirror, the content walk and `main` -/

/-- The state of a run: the file system and the lines printed so far. -/
structure World where
  fs : FS
  out : List GoString

/-- The callback of `copyStatic` (main.go, lines 127-144). -/
def copyStaticFn (env : Env) (src dstBase : GoString) : WalkFn World :=
  fun path info err w =>
    match err with
    | some e => (some e, w)
    | none =>
      match filepath.Rel src path with
      | none => (some Err.rel, w)
      | some rel =>
        let target := filepath.Join [dstBase, rel]
        match info with
        | none => (some Err.panic, w)
        | some info =>
          if info.isDir then
            let r := os.MkdirAll env target ModePerm w.fs
            (r.1, { w with fs := r.2 })
          else
            match info.content with
            | none => (some Err.readFile, w)
            | some data =>
              let r := ioutil.WriteFile env target data info.mode w.fs
              (r.1, { w with fs := r.2 })

/-- The function `copyStatic` (main.go, lines 126-145): the error of the walk
is dropped. -/
def copyStatic (env : Env) (src dstBase : GoString) (tree : Option Node) (w : World) : World :=
  (filepath.Walk src tree (copyStaticFn env src dstBase) w).2

/-- The second half of the callback of the content walk (main.go, lines
92-114): make the directory of the output path, build the page, create the
output file, execute the template into it and print the progress line. -/
def generate (env : Env) (tmpl : Template) (outPath rel : GoString) (buf : List UInt8)
    (w : World) : Option Err × World :=
  match os.MkdirAll env (filepath.Dir outPath) ModePerm w.fs with
  | (some e, fs1) => (some e, { w with fs := fs1 })
  | (none, fs1) =>
    match deriveTitle rel with
    | none => (some Err.panic, { w with fs := fs1 })
    | some title =>
      let page : Page := { Title := title, Content := buf }
      match os.Create env outPath fs1 with
      | (some e, fs2) => (some e, { w with fs := fs2 })
      | (none, fs2) =>
        let r := tmpl.execute (str "base.html") page
        let fs3 := os.writeHandle outPath r.1 fs2
        if r.2 then (some Err.execute, { w with fs := fs3 })
        else (none, { fs := fs3, out := w.out ++ [str "Generated " ++ outPath] })

/-- The callback of the content walk (main.go, lines 63-115): directories and
files without the markup extension are skipped; a document is read, converted,
its relative path and output path are computed, and the page is generated. -/
def contentFn (env : Env) (tmpl : Template) (contentDir outDir : GoString) : WalkFn World :=
  fun path d err w =>
    match err, d with
    | some e, _ => (some e, w)
    | none, none => (some Err.panic, w)
    | none, some d =>
      if d.isDir then (none, w)
      else if filepath.Ext path ≠ str ".md" then (none, w)
      else
        match d.content with
        | none => (some Err.readFile, w)
        | some input =>
          match env.convert input with
          | none => (some Err.convert, w)
          | some buf =>
            match filepath.Rel contentDir path with
            | none => (some Err.rel, w)
            | some rel =>
              match outPathOf outDir rel with
              | none => (some Err.panic, w)
              | some outPath => generate env tmpl outPath rel buf w

/-- The command-line flags. -/
structure Flags where
  content : GoString
  templates : GoString
  static : GoString
  out : GoString

/-- The default values of the flags. -/
def Flags.default : Flags := ⟨str "content", str "templates", str "static", str "public"⟩

/-- How `main` ends. -/
inductive Exit where
  | done
  | panicked
  | blocked
  deriving DecidableEq, Repr

/-- The build steps of `main` after the output directory was prepared
(main.go, lines 50-115): copy the static assets, parse the templates (a failure
panics) and walk the content directory; the error of the walk is dropped. -/
def generateAll (env : Env) (flags : Flags) (content static : Option Node) (w : World) :
    Exit × World :=
  let w1 := copyStatic env flags.static flags.out static w
  match env.parseGlob (filepath.Join [flags.templates, str "*.html"]) with
  | none => (Exit.panicked, w1)
  | some tmpl =>
    let r := filepath.WalkDir flags.content content
      (contentFn env tmpl flags.content flags.out) w1
    (if r.1 = some Err.panic then Exit.panicked else Exit.done, r.2)

/-- The build steps of `main` (main.go, lines 40-115): remove the output
directory, make it again (a failure of either panics), and generate the site. -/
def build (env : Env) (flags : Flags) (content static : Option Node) (w : World) :
    Exit × World :=
  match os.RemoveAll env flags.out w.fs with
  | (some _, fs1) => (Exit.panicked, { w with fs := fs1 })
  | (none, fs1) =>
    match os.MkdirAll env flags.out ModePerm fs1 with
    | (some _, fs2) => (Exit.panicked, { w with fs := fs2 })
    | (none, fs2) => generateAll env flags content static { w with fs := fs2 }

/-- The function `main` (main.go, lines 26-116): the listener is started first,
and the build steps follow only if `ListenAndServe` returns a nil error. -/
def main (env : Env) (flags : Flags) (content static : Option Node) (w : World) :
    Exit × World :=
  let w0 : World := { w with out := w.out ++ [str "Serving site at http://localhost:8080"] }
  match env.serve with
  | ServeOutcome.blocks => (Exit.blocked, w0)
  | ServeOutcome.returns (some _) => (Exit.panicked, w0)
  | ServeOutcome.returns none => build env flags content static w0

/-! ## Walks as sequences of callback calls -/

/-- One call of a walk callback: the path, the information of the entry and the
error that the walker passes. -/
structure Visit where
  path : GoString
  info : Option FileInfo
  err : Option Err
  deriving DecidableEq

/-- Call the callback on the visits in order and stop at the first error. -/
def runVisits {σ : Type} (fn : WalkFn σ) : List Visit → σ → Option Err × σ
  | [], s => (none, s)
  | v :: vs, s =>
    match fn v.path v.info v.err s with
    | (some e, s1) => (some e, s1)
    | (none, s1) => runVisits fn vs s1

mutual
/-- The calls that `walkDir` makes below a node when no call fails: the entry
itself, a second call on a directory that cannot be listed, then the entries. -/
def visitsDir (path : GoString) : Node → List Visit
  | .file mode content => [⟨path, some ⟨false, mode, content⟩, none⟩]
  | .dir mode readable entries =>
    ⟨path, some ⟨true, mode, none⟩, none⟩ ::
      (if readable then visitsDirEntries path entries
       else [⟨path, some ⟨true, mode, none⟩, some Err.readDir⟩])
/-- The calls of `walkDir` for the entries of a directory. -/
def visitsDirEntries (path : GoString) : List (GoString × Node) → List Visit
  | [] => []
  | (name, d) :: rest =>
    visitsDir (filepath.Join [path, name]) d ++ visitsDirEntries path rest
end

/-- The calls of `filepath.WalkDir` when no call fails. -/
def visitsWalkDir (rootPath : GoString) : Option Node → List Visit
  | none => [⟨rootPath, none, some Err.lstat⟩]
  | some d => visitsDir rootPath d

mutual
/-- The calls that `walk` makes below a node when no call fails. -/
def visitsWalk (path : GoString) : Node → List Visit
  | .file mode content => [⟨path, some ⟨false, mode, content⟩, none⟩]
  | .dir mode readable entries =>
    ⟨path, some ⟨true, mode, none⟩, if readable then none else some Err.readDir⟩ ::
      (if readable then visitsWalkEntries path entries else [])
/-- The calls of `walk` for the entries of a directory. -/
def visitsWalkEntries (path : GoString) : List (GoString × Node) → List Visit
  | [] => []
  | (name, d) :: rest =>
    visitsWalk (filepath.Join [path, name]) d ++ visitsWalkEntries path rest
end

/-- The calls of `filepath.Walk` when no call fails. -/
def visitsWalkRoot (rootPath : GoString) : Option Node → List Visit
  | none => [⟨rootPath, none, some Err.lstat⟩]
  | some d => visitsWalk rootPath d

/-- A callback that never answers with one of the two sentinels when the
walker passes it none. -/
def NoSkip {σ : Type} (fn : WalkFn σ) : Prop :=
  ∀ path info err s, (∀ x, err = some x → x.plain) →
    ∀ e, (fn path info err s).1 = some e → e.plain

/-- The file system `fs2` is `fs1` with directories added at paths where
nothing existed. -/
def DirExt (fs1 fs2 : FS) : Prop :=
  ∀ k, fs2 k = fs1 k ∨ (fs1.kind k = Kind.absent ∧ ∃ p, fs2 k = some (Entry.dir p))

/-- The markup document of a visit of the content walk, as the output path that
the callback computes for it: the visit carries no error, the entry is a file
whose path has the markup extension, and the relative path exists. -/
def docOutPath (contentDir outDir : GoString) (v : Visit) : Option GoString :=
  match v.err, v.info with
  | none, some d =>
    if d.isDir then none
    else if filepath.Ext v.path ≠ str ".md" then none
    else (filepath.Rel contentDir v.path).bind (outPathOf outDir)
  | _, _ => none

/-- The progress line that a generated document prints. -/
def docLine (contentDir outDir : GoString) (v : Visit) : List GoString :=
  match docOutPath contentDir outDir v with
  | some p => [str "Generated " ++ p]
  | none => []

/-! ## Entries of a source tree by their names -/

mutual
/-- The entries of a tree carry file names, and the names in one directory
differ from each other. -/
def Node.namesOk : Node → Bool
  | .file _ _ => true
  | .dir _ _ es => entriesOk es
/-- The same for the entries of a directory. -/
def entriesOk : List (GoString × Node) → Bool
  | [] => true
  | (name, d) :: rest =>
    decide (isName name) && !(rest.any (fun e => e.1 == name)) && d.namesOk && entriesOk rest
end

mutual
/-- The entries that a walk reaches below a node, in the order of the walk,
each with the names that lead to it from the root; the entries of a directory
that cannot be listed are not reached. -/
def listing (above : List GoString) : Node → List (List GoString × Node)
  | .file mode content => [(above, .file mode content)]
  | .dir mode readable es =>
    (above, .dir mode readable es) :: (if readable then listingEntries above es else [])
/-- The entries reached through the entries of a directory. -/
def listingEntries (above : List GoString) :
    List (GoString × Node) → List (List GoString × Node)
  | [] => []
  | (name, d) :: rest => listing (above ++ [name]) d ++ listingEntries above rest
end

/-- The path that a walk from `root` passes to its callback for the entry at
the names `ns`. -/
def pathOf (root : GoString) (ns : List GoString) : GoString :=
  if ns = [] then root
  else filepath.render (filepath.isRooted root) (filepath.cleanElems root ++ ns)

/-- The relative path of the entry at the names `ns`. -/
def relOf (ns : List GoString) : GoString :=
  if ns = [] then [dot] else strings.Join ns

/-- The resolved path of the names `ns` below the directory `base`. -/
def keyAt (base : GoString) (ns : List GoString) : Key :=
  ⟨filepath.isRooted base, filepath.cleanElems base ++ ns⟩

/-- A directory that cannot be listed. -/
def Node.unreadable : Node → Bool
  | .dir _ false _ => true
  | _ => false

/-- The call of `filepath.Walk` on an entry. -/
def walkVisit (root : GoString) (e : List GoString × Node) : Visit :=
  ⟨pathOf root e.1, some e.2.info, if e.2.unreadable then some Err.readDir else none⟩

/-- The calls of `filepath.WalkDir` on an entry. -/
def dirVisits (root : GoString) (e : List GoString × Node) : List Visit :=
  ⟨pathOf root e.1, some e.2.info, none⟩ ::
    (if e.2.unreadable then [⟨pathOf root e.1, some e.2.info, some Err.readDir⟩] else [])

/-- Run a step over a list of items on the file system and stop at the first
error. -/
def runEntries {α : Type} (step : α → FS → Option Err × FS) : List α → FS → Option Err × FS
  | [], fs => (none, fs)
  | a :: rest, fs =>
    match step a fs with
    | (some e, fs1) => (some e, fs1)
    | (none, fs1) => runEntries step rest fs1

/-- The recursion of `os.MkdirAll` on the elements of a resolved path, last
element first: an existing directory is success, an existing file is an error,
and otherwise the parent is made before the directory itself. -/
def os.mkdirAllAux (env : Env) (rooted : Bool) (perm : Nat) :
    List GoString → FS → Option Err × FS
  | [], fs => (none, fs)
  | e :: re, fs =>
    match fs.kind ⟨rooted, (e :: re).reverse⟩ with
    | Kind.dir => (none, fs)
    | Kind.file => (some Err.notDir, fs)
    | Kind.absent =>
      match os.mkdirAllAux env rooted perm re fs with
      | (some err, fs1) => (some err, fs1)
      | (none, fs1) => os.mkdirAt env ⟨rooted, (e :: re).reverse⟩ perm fs1

/-- The function `ioutil.WriteFile` at a resolved path. -/
def os.writeFileAt (env : Env) (k : Key) (data : List UInt8) (perm : Nat) (fs : FS) :
    Option Err × FS :=
  match os.openAt env k perm fs with
  | (some err, fs1) => (some err, fs1)
  | (none, fs1) =>
    match env.writeFails k with
    | some n => (some Err.write, os.writeKey k (data.take n) fs1)
    | none => (none, os.writeKey k data fs1)

/-- What the callback of `copyStatic` does for one entry, on resolved paths: a
directory that cannot be listed is an error, a directory is made with all its
parents, a file is read and written. -/
def copyEntry (env : Env) (dstBase : GoString) (e : List GoString × Node) (fs : FS) :
    Option Err × FS :=
  match e.2 with
  | .dir _ false _ => (some Err.readDir, fs)
  | .dir _ true _ =>
    os.mkdirAllAux env (keyAt dstBase e.1).rooted ModePerm (keyAt dstBase e.1).elems.reverse fs
  | .file _ none => (some Err.readFile, fs)
  | .file mode (some data) => os.writeFileAt env (keyAt dstBase e.1) data mode fs

/-- The elements of a list after its first file name are no `..` elements. -/
def Descending (es : List GoString) : Prop :=
  ((es.dropWhile (fun e => decide (¬ isName e))).all (fun e => e != [dot, dot])) = true

/-- No `..` element of the path follows a file name: the path descends from
the root, from the working directory or from a directory above it, and names
the same entry whether or not the directories on its way exist. -/
def descends (path : GoString) : Bool :=
  ((strings.Split path).dropWhile (fun e => decide (¬ isName e))).all
    (fun e => e != [dot, dot])

/-- The permission bits of a file after it was opened with `O_CREATE` and the
mode `mode`: the bits that the file had if it existed, and the mode without the
bits of the umask if it was created. -/
def permAfter (env : Env) (fs : FS) (k : Key) (mode : Nat) : Nat :=
  match fs k with
  | some (Entry.file p _) => p
  | _ => applyUmask env.umask mode

/-- A step changes the file system only by adding directories where nothing
existed and by writing at the key of its item. -/
def StepFrame {α : Type} (key : α → Key) (step : α → FS → Option Err × FS) : Prop :=
  ∀ a fs k, (step a fs).2 k = fs k ∨
    (fs.kind k = Kind.absent ∧ ∃ p, (step a fs).2 k = some (Entry.dir p)) ∨ k = key a

/-- A step keeps the directories that exist. -/
def StepKeepsDir {α : Type} (step : α → FS → Option Err × FS) : Prop :=
  ∀ a fs k, fs.kind k = Kind.dir → (step a fs).2.kind k = Kind.dir

/-- A relative path with its extension replaced by the page extension. -/
def replaceExt (rel : GoString) : GoString :=
  rel.take (rel.length - (filepath.Ext rel).length) ++ str ".html"

/-- An entry of the content tree is a markup document: a file whose relative
path has the extension `.md`. -/
def isMarkup (e : List GoString × Node) : Bool :=
  !e.2.info.isDir && (filepath.Ext (relOf e.1) == str ".md")

/-- The output path of the document at the names `ns`: the output directory
joined with the relative path in which the extension is replaced. -/
def outputOf (outDir : GoString) (e : List GoString × Node) : GoString :=
  filepath.Join [outDir, replaceExt (relOf e.1)]

/-- The file system `fs2` differs from `fs1` only at entries strictly below
the directory `K`. -/
def Confined (K : Key) (fs1 fs2 : FS) : Prop :=
  ∀ x, ¬ (K.within x = true ∧ x ≠ K) → fs2 x = fs1 x

/-- A source tree, if it exists, carries file names that differ within each
directory. -/
def treeOk : Option Node → Bool
  | none => true
  | some n => n.namesOk

/-! ## Sample inputs -/

/-- A template set whose base template writes the title, a colon and the
content. -/
def demoTemplate : Template := ⟨fun _ page => (page.Title ++ str ":" ++ page.Content, false)⟩

/-- An environment with umask 022 in which no operation of the system fails, the
converter wraps its input in a heading, and the listener returns a nil error. -/
def demoEnv : Env where
  umask := 18
  denied := fun _ => false
  removeFails := fun _ => false
  writeFails := fun _ => none
  convert := fun input => some (str "<h1>" ++ input ++ str "</h1>")
  parseGlob := fun _ => some demoTemplate
  serve := ServeOutcome.returns none

/-- The empty file system and console. -/
def emptyWorld : World := ⟨fun _ => none, []⟩

/-- A content directory with three documents, the second of which cannot be
read. -/
def brokenContent : Node :=
  .dir 493 true [(str "a.md", .file 420 (some (str "A"))), (str "b.md", .file 420 none),
    (str "c.md", .file 420 (some (str "C")))]

/-- A static directory in which the file `a/x` cannot be read and the file `b`
lies outside the directory `a`. -/
def brokenStatic : Node :=
  .dir 493 true [(str "a", .dir 493 true [(str "x", .file 420 none)]),
    (str "b", .file 420 (some (str "B")))]

/-- The calls of the content walk on `brokenContent` before the document that
fails: the root directory and `a.md`. -/
def brokenContentBefore : List Visit :=
  [⟨str "content", some ⟨true, 493, none⟩, none⟩,
   ⟨str "content/a.md", some ⟨false, 420, some (str "A")⟩, none⟩]

/-- The call of the content walk on the unreadable document `b.md`. -/
def brokenContentVisit : Visit := ⟨str "content/b.md", some ⟨false, 420, none⟩, none⟩

/-- The call of the content walk that follows the failing one. -/
def brokenContentAfter : List Visit :=
  [⟨str "content/c.md", some ⟨false, 420, some (str "C")⟩, none⟩]

/-- The calls of `copyStatic` on `brokenStatic` before the file that fails. -/
def brokenStaticBefore : List Visit :=
  [⟨str "static", some ⟨true, 493, none⟩, none⟩,
   ⟨str "static/a", some ⟨true, 493, none⟩, none⟩]

/-- The call of `copyStatic` on the unreadable file `a/x`. -/
def brokenStaticVisit : Visit := ⟨str "static/a/x", some ⟨false, 420, none⟩, none⟩

/-- The call of `copyStatic` that would follow the failing one. -/
def brokenStaticAfter : List Visit :=
  [⟨str "static/b", some ⟨false, 420, some (str "B")⟩, none⟩]

/-- The static directory of `brokenStatic` with a readable file `a/x`. -/
def repairedStatic : Node :=
  .dir 493 true [(str "a", .dir 493 true [(str "x", .file 420 (some (str "X")))]),
    (str "b", .file 420 (some (str "B")))]

/-- The environment `demoEnv` with a listener that never returns. -/
def servingEnv : Env := { demoEnv with serve := ServeOutcome.blocks }

/-- A content directory with a document, a file that is no document, and a
directory that holds a document. -/
def demoContent : Node :=
  .dir 493 true [(str "hello.md", .file 420 (some (str "Hi"))),
    (str "notes.txt", .file 420 (some (str "x"))),
    (str "posts", .dir 493 true [(str "a.md", .file 420 (some (str "A")))])]

/-- A static directory with the file `css/site.css`, mode 0666. -/
def demoStatic : Node :=
  .dir 493 true [(str "css", .dir 493 true [(str "site.css", .file 438 (some (str "body")))])]

/-- A content directory in which the directory `a.html` holds a document and
the document `a.md` lies next to it: the output file of `a.md` would have the
path of the output directory of `a.html/b.md`. -/
def collidingContent : Node :=
  .dir 493 true [(str "a.html", .dir 493 true [(str "b.md", .file 420 (some (str "B")))]),
    (str "a.md", .file 420 (some (str "A")))]

/-- The environment `demoEnv` in which the write to `out/b` fails after one
byte. -/
def shortWriteEnv : Env :=
  { demoEnv with writeFails := fun k => if k = resolve (str "out/b") then some 1 else none }

/-- A static directory with the files `a` and `b`. -/
def twoAssets : Node :=
  .dir 493 true [(str "a", .file 420 (some (str "A"))), (str "b", .file 420 (some (str "new")))]

/-- A file system in which the destination file `out/b` exists already. -/
def staleAssets : World :=
  ⟨fun k => if k = resolve (str "out") then some (Entry.dir 493)
    else if k = resolve (str "out/b") then some (Entry.file 384 (str "old")) else none, []⟩

/-- The calls of `copyStatic` on `twoAssets` before the file `b`. -/
def twoAssetsBefore : List Visit :=
  [⟨str "static", some ⟨true, 493, none⟩, none⟩,
   ⟨str "static/a", some ⟨false, 420, some (str "A")⟩, none⟩]

/-- The call of `copyStatic` on the file `b`. -/
def twoAssetsVisit : Visit := ⟨str "static/b", some ⟨false, 420, some (str "new")⟩, none⟩

/-- The flags with the output path `p/../q`. -/
def backFlags : Flags := ⟨str "content", str "templates", str "static", str "p/../q"⟩

/-- A file system in which the directory `q` holds the file `stale.html` and
the directory `p` does not exist. -/
def staleOutput : World :=
  ⟨fun k => if k = resolve (str "q") then some (Entry.dir 493)
    else if k = resolve (str "q/stale.html") then some (Entry.file 420 (str "old"))
    else none, []⟩

/-- Cleaned element lists: `..` elements first (none in a rooted path), then
file names. -/
def Canonical (rooted : Bool) (es : List GoString) : Prop :=
  ∃ k ns, es = List.replicate k [dot, dot] ++ ns ∧ (∀ n ∈ ns, isName n) ∧
    (rooted = true → k = 0)

/-- The invariant of the loop of `Clean`. -/
def CleanInv (r : Bool) (st : List GoString × Nat) : Prop :=
  ∃ nsr, st.1 = nsr ++ List.replicate st.2 [dot, dot] ∧ (∀ n ∈ nsr, isName n) ∧
    (r = true → st.2 = 0)

/-- Sample inputs of `Clean` with the results of the Go implementation. -/
def cleantests : List (String × String) := [
  ("abc", "abc"), ("abc/def", "abc/def"), ("a/b/c", "a/b/c"), (".", "."), ("..", ".."),
  ("../..", "../.."), ("../../abc", "../../abc"), ("/abc", "/abc"), ("/", "/"), ("", "."),
  ("abc/", "abc"), ("abc/def/", "abc/def"), ("a/b/c/", "a/b/c"), ("./", "."), ("../", ".."),
  ("../../", "../.."), ("/abc/", "/abc"),
  ("abc//def//ghi", "abc/def/ghi"), ("//abc", "/abc"), ("///abc", "/abc"), ("//abc//", "/abc"),
  ("abc//", "abc"),
  ("abc/./def", "abc/def"), ("/./abc/def", "/abc/def"), ("abc/.", "abc"),
  ("abc/def/ghi/../jkl", "abc/def/jkl"), ("abc/def/../ghi/../jkl", "abc/jkl"),
  ("abc/def/..", "abc"), ("abc/def/../..", "."), ("/abc/def/../..", "/"),
  ("abc/def/../../..", ".."), ("/abc/def/../../..", "/"),
  ("abc/def/../../../ghi/jkl/../../../mno", "../../mno"), ("/../abc", "/abc"),
  ("abc/./../def", "def"), ("abc//./../def", "def"), ("abc/../../././../def", "../../def")]

/-- Sample inputs of `Rel` (base, target) with the results of the Go
implementation (`err` where `Rel` fails). -/
def reltests : List (String × String × String) := [
  ("a/b", "a/b", "."), ("a/b/.", "a/b", "."), ("a/b", "a/b/.", "."), ("./a/b", "a/b", "."),
  ("a/b", "./a/b", "."), ("ab/cd", "ab/cde", "../cde"), ("ab/cd", "ab/c", "../c"),
  ("a/b", "a/b/c/d", "c/d"), ("a/b", "a/b/../c", "../c"), ("a/b/../c", "a/b", "../b"),
  ("a/b/c", "a/c/d", "../../c/d"), ("a/b", "c/d", "../../c/d"), ("a/b/c/d", "a/b", "../.."),
  ("a/b/c/d", "a/b/", "../.."), ("a/b/c/d/", "a/b", "../.."), ("a/b/c/d/", "a/b/", "../.."),
  ("../../a/b", "../../a/b/c/d", "c/d"), ("/a/b", "/a/b", "."), ("/a/b/.", "/a/b", "."),
  ("/a/b", "/a/b/.", "."), ("/ab/cd", "/ab/cde", "../cde"), ("/ab/cd", "/ab/c", "../c"),
  ("/a/b", "/a/b/c/d", "c/d"), ("/a/b", "/a/b/../c", "../c"), ("/a/b/../c", "/a/b", "../b"),
  ("/a/b/c", "/a/c/d", "../../c/d"), ("/a/b", "/c/d", "../../c/d"),
  ("/a/b/c/d", "/a/b", "../.."), ("/a/b/c/d", "/a/b/", "../.."),
  ("/a/b/c/d/", "/a/b", "../.."), ("/a/b/c/d/", "/a/b/", "../.."),
  ("/../../a/b", "/../../a/b/c/d", "c/d"), (".", "a/b", "a/b"), (".", "..", ".."),
  ("..", ".", "err"), ("..", "a", "err"), ("a", "/a", "err"), ("/a", "a", "err")]

/-! ## Lemmas on `Ext` and `Base` -/

theorem extScan_cases (rev acc : List UInt8) :
    (filepath.extScan rev acc = [] ∧ (dot ∉ rev ∨
        ∃ r1 r2, rev = r1 ++ sep :: r2 ∧ dot ∉ r1)) ∨
    ∃ r1 r2, rev = r1 ++ dot :: r2 ∧ dot ∉ r1 ∧ sep ∉ r1 ∧
      filepath.extScan rev acc = dot :: (r1.reverse ++ acc) := by
  induction rev generalizing acc with
  | nil => left; simp [filepath.extScan]
  | cons c rev ih =>
    by_cases hs : c = sep
    · left
      refine ⟨by simp [filepath.extScan, hs], Or.inr ⟨[], rev, by simp [hs], by simp⟩⟩
    · by_cases hd : c = dot
      · right
        refine ⟨[], rev, by simp [hd], by simp, by simp, ?_⟩
        simp [filepath.extScan, hd]
        decide
      · rcases ih (c :: acc) with ⟨h0, h1⟩ | ⟨r1, r2, hr, h1, h2, h3⟩
        · left
          refine ⟨by simp [filepath.extScan, hs, hd, h0], ?_⟩
          rcases h1 with h1 | ⟨r1, r2, hr, h1⟩
          · left
            simp [h1, Ne.symm hd]
          · right
            exact ⟨c :: r1, r2, by simp [hr], by simp [h1, Ne.symm hd]⟩
        · right
          refine ⟨c :: r1, r2, by simp [hr], by simp [h1, Ne.symm hd],
            by simp [h2, Ne.symm hs], ?_⟩
          simp [filepath.extScan, hs, hd, h3]

theorem extScan_append_dot (r1 r2 acc : List UInt8) (hd : dot ∉ r1) (hs : sep ∉ r1) :
    filepath.extScan (r1 ++ dot :: r2) acc = dot :: (r1.reverse ++ acc) := by
  induction r1 generalizing acc with
  | nil =>
    have : ¬ dot = sep := by decide
    simp [filepath.extScan, this]
  | cons c r1 ih =>
    simp only [List.mem_cons, not_or] at hd hs
    simp [filepath.extScan, Ne.symm hd.1, Ne.symm hs.1, ih _ hd.2 hs.2]

theorem extScan_append_sep (r1 r2 acc : List UInt8) :
    filepath.extScan (r1 ++ sep :: r2) acc = filepath.extScan r1 acc := by
  induction r1 generalizing acc with
  | nil => simp [filepath.extScan]
  | cons c r1 ih =>
    by_cases hs : c = sep
    · simp [filepath.extScan, hs]
    · by_cases hd : c = dot
      · simp [filepath.extScan, hs, hd]
      · simp [filepath.extScan, hs, hd, ih]

theorem extScan_no_dot (rev acc : List UInt8) (hd : dot ∉ rev) :
    filepath.extScan rev acc = [] := by
  induction rev generalizing acc with
  | nil => rfl
  | cons c rev ih =>
    simp only [List.mem_cons, not_or] at hd
    by_cases hs : c = sep
    · simp [filepath.extScan, hs]
    · simp [filepath.extScan, hs, Ne.symm hd.1, ih _ hd.2]

/-- The extension is empty, or the path splits at a dot that is followed by
neither a dot nor a separator and the extension starts at that dot. -/
theorem Ext_cases (path : GoString) :
    filepath.Ext path = [] ∨
    ∃ t e, path = t ++ dot :: e ∧ dot ∉ e ∧ sep ∉ e ∧ filepath.Ext path = dot :: e := by
  rcases extScan_cases path.reverse [] with ⟨h, _⟩ | ⟨r1, r2, hr, h1, h2, h3⟩
  · exact Or.inl h
  · right
    refine ⟨r2.reverse, r1.reverse, ?_, by simpa using h1, by simpa using h2, ?_⟩
    · have := congrArg List.reverse hr
      simpa using this
    · simpa [filepath.Ext] using h3

theorem Ext_append_dot (t e : GoString) (hd : dot ∉ e) (hs : sep ∉ e) :
    filepath.Ext (t ++ dot :: e) = dot :: e := by
  have := extScan_append_dot e.reverse t.reverse [] (by simpa using hd) (by simpa using hs)
  simpa [filepath.Ext] using this

theorem Ext_no_dot (s : GoString) (hd : dot ∉ s) : filepath.Ext s = [] :=
  extScan_no_dot _ _ (by simpa using hd)

theorem Ext_append_sep (d f : GoString) :
    filepath.Ext (d ++ sep :: f) = filepath.Ext f := by
  have := extScan_append_sep f.reverse d.reverse []
  simpa [filepath.Ext] using this

theorem Ext_suffix (path : GoString) : ∃ t, path = t ++ filepath.Ext path := by
  rcases Ext_cases path with h | ⟨t, e, hp, _, _, h⟩
  · exact ⟨path, by simp [h]⟩
  · exact ⟨t, by rw [h]; exact hp⟩

theorem Ext_length_le (path : GoString) : (filepath.Ext path).length ≤ path.length := by
  obtain ⟨t, ht⟩ := Ext_suffix path
  have := congrArg List.length ht
  simp at this
  omega

theorem slicePrefix_ext (s : GoString) :
    ∃ t, slicePrefix s ((s.length : Int) - ((filepath.Ext s).length : Int)) = some t ∧
      t ++ filepath.Ext s = s := by
  obtain ⟨t, ht⟩ := Ext_suffix s
  have hl := Ext_length_le s
  refine ⟨t, ?_, ht.symm⟩
  have hlen : s.length = t.length + (filepath.Ext s).length := by
    have := congrArg List.length ht
    simpa using this
  unfold slicePrefix
  rw [if_pos (by omega)]
  have : ((s.length : Int) - ((filepath.Ext s).length : Int)).toNat = t.length := by omega
  rw [this]
  conv_lhs => rw [ht]
  simp

theorem lastElement_no_sep (path : GoString) : sep ∉ filepath.lastElement path := by
  unfold filepath.lastElement
  intro h
  have h2 := List.mem_reverse.mp h
  have := List.mem_takeWhile_imp h2
  simp at this

theorem lastElement_append_sep (d f : GoString) (hs : sep ∉ f) :
    filepath.lastElement (d ++ sep :: f) = f := by
  unfold filepath.lastElement
  have : (d ++ sep :: f).reverse = f.reverse ++ sep :: d.reverse := by simp
  rw [this, List.takeWhile_append_of_pos]
  · simp [List.takeWhile]
  · intro c hc
    have : c ≠ sep := fun h => hs (h ▸ List.mem_reverse.mp hc)
    simpa using this

theorem lastElement_of_no_sep (f : GoString) (hs : sep ∉ f) :
    filepath.lastElement f = f := by
  unfold filepath.lastElement
  have : List.takeWhile (fun c => c != sep) f.reverse = f.reverse := by
    rw [List.takeWhile_eq_self_iff]
    intro c hc
    have : c ≠ sep := fun h => hs (h ▸ List.mem_reverse.mp hc)
    simpa using this
  rw [this]; simp

theorem stripTrailingSeps_of_last (s : GoString) (c : UInt8) (hc : c ≠ sep) :
    filepath.stripTrailingSeps (s ++ [c]) = s ++ [c] := by
  unfold filepath.stripTrailingSeps
  simp [List.dropWhile, hc]

theorem Base_ne_nil (path : GoString) : filepath.Base path ≠ [] := by
  unfold filepath.Base
  split
  · simp
  · simp only
    split <;> simp_all

theorem Base_cases (path : GoString) :
    filepath.Base path = [sep] ∨ sep ∉ filepath.Base path := by
  unfold filepath.Base
  split
  · right; simp; decide
  · simp only
    split
    · left; rfl
    · right; exact lastElement_no_sep _

/-- A non-empty name without separator is its own base, also behind a
directory prefix. -/
theorem Base_of_name (f : GoString) (hne : f ≠ []) (hs : sep ∉ f) :
    filepath.Base f = f := by
  obtain ⟨s, c, rfl⟩ : ∃ s c, f = s ++ [c] := by
    rcases List.eq_nil_or_concat f with h | ⟨s, c, h⟩
    · exact absurd h hne
    · exact ⟨s, c, by simpa using h⟩
  have hc : c ≠ sep := fun h => hs (by simp [h])
  unfold filepath.Base
  rw [if_neg hne]
  simp only [stripTrailingSeps_of_last s c hc, lastElement_of_no_sep _ hs, if_neg hne]

theorem Base_prefix_name (d f : GoString) (hne : f ≠ []) (hs : sep ∉ f) :
    filepath.Base (d ++ sep :: f) = f := by
  obtain ⟨s, c, rfl⟩ : ∃ s c, f = s ++ [c] := by
    rcases List.eq_nil_or_concat f with h | ⟨s, c, h⟩
    · exact absurd h hne
    · exact ⟨s, c, by simpa using h⟩
  have hc : c ≠ sep := fun h => hs (by simp [h])
  unfold filepath.Base
  rw [if_neg (by simp)]
  have h1 : d ++ sep :: (s ++ [c]) = (d ++ sep :: s) ++ [c] := by simp
  have h2 := stripTrailingSeps_of_last (d ++ sep :: s) c hc
  simp only [h1, h2]
  rw [← h1]
  simp only [lastElement_append_sep d _ hs, if_neg hne]

theorem Clean_table :
    cleantests.all (fun p => filepath.Clean (str p.1) == str p.2) = true := by decide

theorem Rel_table :
    reltests.all (fun p => filepath.Rel (str p.1) (str p.2.1) ==
      (if p.2.2 = "err" then none else some (str p.2.2))) = true := by decide

/-! ## Lemmas on path elements -/

theorem Join_nil : strings.Join [] = [] := rfl

theorem Join_singleton (e : GoString) : strings.Join [e] = e := by
  simp [strings.Join, List.intercalate, List.intersperse]

theorem Join_cons_cons (e f : GoString) (es : List GoString) :
    strings.Join (e :: f :: es) = e ++ sep :: strings.Join (f :: es) := by
  simp [strings.Join, List.intercalate, List.intersperse]

theorem Join_append_singleton (es : List GoString) (e : GoString) (hne : es ≠ []) :
    strings.Join (es ++ [e]) = strings.Join es ++ sep :: e := by
  induction es with
  | nil => exact absurd rfl hne
  | cons a es ih =>
    cases es with
    | nil => simp [Join_cons_cons, Join_singleton]
    | cons b es =>
      have := ih (by simp)
      simp only [List.cons_append] at this ⊢
      rw [Join_cons_cons, this, Join_cons_cons]
      simp

theorem Split_ne_nil (s : GoString) : strings.Split s ≠ [] := by
  cases s with
  | nil => simp [strings.Split]
  | cons c s =>
    unfold strings.Split
    split
    · simp
    · split <;> simp

theorem Split_no_sep (e : GoString) (h : sep ∉ e) : strings.Split e = [e] := by
  induction e with
  | nil => rfl
  | cons c e ih =>
    simp only [List.mem_cons, not_or] at h
    unfold strings.Split
    rw [if_neg (Ne.symm h.1), ih h.2]

theorem Split_append_sep (a b : GoString) :
    strings.Split (a ++ sep :: b) = strings.Split a ++ strings.Split b := by
  induction a with
  | nil => simp [strings.Split]
  | cons c a ih =>
    by_cases hc : c = sep
    · simp [strings.Split, hc, ih]
    · have hne := Split_ne_nil a
      cases h : strings.Split a with
      | nil => exact absurd h hne
      | cons e es =>
        rw [h] at ih
        simp [strings.Split, if_neg hc, ih, h]

theorem Split_sep_free (s : GoString) : ∀ e ∈ strings.Split s, sep ∉ e := by
  induction s with
  | nil => simp [strings.Split]
  | cons c s ih =>
    by_cases hc : c = sep
    · intro e he
      simp only [strings.Split, if_pos hc, List.mem_cons] at he
      rcases he with rfl | he
      · simp
      · exact ih e he
    · intro e he
      simp only [strings.Split, if_neg hc] at he
      cases h : strings.Split s with
      | nil => exact absurd h (Split_ne_nil s)
      | cons e1 es =>
        rw [h] at he ih
        simp only [List.mem_cons] at he
        rcases he with rfl | he
        · have := ih e1 (by simp)
          simp [this, Ne.symm hc]
        · exact ih e (by simp [he])

theorem Split_Join (es : List GoString) (hne : es ≠ []) (h : ∀ e ∈ es, sep ∉ e) :
    strings.Split (strings.Join es) = es := by
  induction es with
  | nil => exact absurd rfl hne
  | cons a es ih =>
    cases es with
    | nil => simpa [Join_singleton] using Split_no_sep a (h a (by simp))
    | cons b es =>
      rw [Join_cons_cons, Split_append_sep, Split_no_sep a (h a (by simp)),
        ih (by simp) (fun e he => h e (by simp [he]))]
      rfl

theorem Join_injective (es fs : List GoString) (hes : es ≠ []) (hfs : fs ≠ [])
    (h1 : ∀ e ∈ es, sep ∉ e) (h2 : ∀ e ∈ fs, sep ∉ e)
    (h : strings.Join es = strings.Join fs) : es = fs := by
  rw [← Split_Join es hes h1, ← Split_Join fs hfs h2, h]

theorem cleanStep_name (r : Bool) (st : List GoString × Nat) (e : GoString) (h : isName e) :
    filepath.cleanStep r st e = (e :: st.1, st.2) := by
  obtain ⟨h1, _, h3, h4⟩ := h
  simp [filepath.cleanStep, h1, h3, h4]

theorem foldl_cleanStep_names (r : Bool) (ns : List GoString) (h : ∀ n ∈ ns, isName n)
    (out : List GoString) (dd : Nat) :
    ns.foldl (filepath.cleanStep r) (out, dd) = (ns.reverse ++ out, dd) := by
  induction ns generalizing out with
  | nil => rfl
  | cons n ns ih =>
    rw [List.foldl_cons, cleanStep_name r _ n (h n (by simp)),
      ih (fun m hm => h m (by simp [hm]))]
    simp

theorem foldl_cleanStep_dotdots (k j : Nat) :
    (List.replicate k [dot, dot]).foldl (filepath.cleanStep false)
      (List.replicate j [dot, dot], j) = (List.replicate (j + k) [dot, dot], j + k) := by
  induction k generalizing j with
  | zero => rfl
  | succ k ih =>
    have hstep : filepath.cleanStep false (List.replicate j [dot, dot], j) [dot, dot] =
        (List.replicate (j + 1) [dot, dot], j + 1) := by
      have h1 : ([dot, dot] : GoString) ≠ [dot] := by decide
      simp [filepath.cleanStep, h1, List.replicate_succ]
    rw [List.replicate_succ, List.foldl_cons, hstep, ih (j + 1)]
    have : j + 1 + k = j + (k + 1) := by omega
    rw [this]

theorem foldl_cleanStep_canonical (r : Bool) (k : Nat) (ns : List GoString)
    (h : ∀ n ∈ ns, isName n) (hr : r = true → k = 0) :
    (List.replicate k [dot, dot] ++ ns).foldl (filepath.cleanStep r) ([], 0) =
      (ns.reverse ++ List.replicate k [dot, dot], k) := by
  rw [List.foldl_append]
  cases r with
  | true =>
    have := hr rfl
    subst this
    simpa using foldl_cleanStep_names true ns h [] 0
  | false =>
    have := foldl_cleanStep_dotdots k 0
    simp only [List.replicate_zero, Nat.zero_add] at this
    rw [this, foldl_cleanStep_names false ns h]

theorem cleanStep_inv (r : Bool) (st : List GoString × Nat) (e : GoString)
    (he : sep ∉ e) (h : CleanInv r st) : CleanInv r (filepath.cleanStep r st e) := by
  obtain ⟨out, dd⟩ := st
  obtain ⟨nsr, h1, h2, h3⟩ := h
  simp only at h1 h3
  unfold filepath.cleanStep
  by_cases e0 : e = []
  · rw [if_pos e0]; exact ⟨nsr, h1, h2, h3⟩
  rw [if_neg e0]
  by_cases e1 : e = [dot]
  · rw [if_pos e1]; exact ⟨nsr, h1, h2, h3⟩
  rw [if_neg e1]
  by_cases e2 : e = [dot, dot]
  · rw [if_pos e2]
    simp only
    by_cases hl : out.length > dd
    · rw [if_pos hl]
      cases nsr with
      | nil => simp [h1] at hl
      | cons n nsr =>
        refine ⟨nsr, by simp [h1], fun m hm => h2 m (by simp [hm]), h3⟩
    · rw [if_neg hl]
      have hnil : nsr = [] := by
        cases nsr with
        | nil => rfl
        | cons n nsr => simp [h1] at hl; omega
      subst hnil
      simp only [List.nil_append] at h1
      cases r with
      | true => exact ⟨[], by simpa using h1, by simp, h3⟩
      | false =>
        refine ⟨[], ?_, by simp, by simp⟩
        simp [h1, e2, List.replicate_succ]
  · rw [if_neg e2]
    refine ⟨e :: nsr, by simp [h1], ?_, h3⟩
    intro m hm
    simp only [List.mem_cons] at hm
    rcases hm with rfl | hm
    · exact ⟨e0, he, e1, e2⟩
    · exact h2 m hm

theorem foldl_cleanStep_inv (r : Bool) (es : List GoString) (st : List GoString × Nat)
    (hes : ∀ e ∈ es, sep ∉ e) (h : CleanInv r st) :
    CleanInv r (es.foldl (filepath.cleanStep r) st) := by
  induction es generalizing st with
  | nil => exact h
  | cons e es ih =>
    exact ih _ (fun x hx => hes x (by simp [hx])) (cleanStep_inv r st e (hes e (by simp)) h)

theorem cleanElems_canonical (path : GoString) :
    Canonical (filepath.isRooted path) (filepath.cleanElems path) := by
  have h := foldl_cleanStep_inv (filepath.isRooted path) (strings.Split path) ([], 0)
    (Split_sep_free path) ⟨[], by simp, by simp, by simp⟩
  obtain ⟨nsr, h1, h2, h3⟩ := h
  refine ⟨_, nsr.reverse, ?_, by simpa using h2, h3⟩
  unfold filepath.cleanElems
  rw [h1]
  simp

theorem Canonical_sep_free (r : Bool) (es : List GoString) (h : Canonical r es) :
    ∀ e ∈ es, sep ∉ e ∧ e ≠ [] := by
  obtain ⟨k, ns, rfl, hn, _⟩ := h
  intro e he
  simp only [List.mem_append] at he
  rcases he with he | he
  · have := List.eq_of_mem_replicate he
    subst this
    exact ⟨by decide, by simp⟩
  · exact ⟨(hn e he).2.1, (hn e he).1⟩

theorem Canonical_append (r : Bool) (es ns : List GoString) (h : Canonical r es)
    (hn : ∀ n ∈ ns, isName n) : Canonical r (es ++ ns) := by
  obtain ⟨k, ms, rfl, hm, hr⟩ := h
  refine ⟨k, ms ++ ns, by simp, ?_, hr⟩
  intro n hn2
  simp only [List.mem_append] at hn2
  rcases hn2 with h | h
  · exact hm n h
  · exact hn n h

theorem Join_head (es : List GoString) (e : GoString) (c : UInt8) (t : List UInt8)
    (he : e = c :: t) : ∃ u, strings.Join (e :: es) = c :: u := by
  subst he
  cases es with
  | nil => exact ⟨t, by simp [Join_singleton]⟩
  | cons f es => exact ⟨t ++ sep :: strings.Join (f :: es), by simp [Join_cons_cons]⟩

theorem render_cons_false (e : GoString) (es : List GoString) (he : e ≠ []) :
    filepath.render false (e :: es) = strings.Join (e :: es) := by
  obtain ⟨c, t, rfl⟩ := List.exists_cons_of_ne_nil he
  obtain ⟨u, hu⟩ := Join_head es _ c t rfl
  simp [filepath.render, hu]

theorem render_true (es : List GoString) :
    filepath.render true es = sep :: strings.Join es := by
  simp [filepath.render]

theorem isRooted_render (r : Bool) (es : List GoString) (h : Canonical r es) :
    filepath.isRooted (filepath.render r es) = r := by
  cases r with
  | true => simp [render_true, filepath.isRooted]
  | false =>
    cases es with
    | nil => simp [filepath.render, filepath.isRooted, Join_nil]; decide
    | cons e es =>
      have he := Canonical_sep_free false _ h e (by simp)
      obtain ⟨c, t, rfl⟩ := List.exists_cons_of_ne_nil he.2
      obtain ⟨u, hu⟩ := Join_head es _ c t rfl
      rw [render_cons_false _ _ he.2, hu]
      have : c ≠ sep := fun hc => he.1 (by simp [hc])
      simp [filepath.isRooted, this]

theorem Split_render_fold (r : Bool) (es : List GoString) (h : Canonical r es)
    (st : List GoString × Nat) :
    (strings.Split (filepath.render r es)).foldl (filepath.cleanStep r) st =
      es.foldl (filepath.cleanStep r) st := by
  have hsf : ∀ e ∈ es, sep ∉ e := fun e he => (Canonical_sep_free r es h e he).1
  cases es with
  | nil =>
    cases r with
    | true => simp [render_true, Join_nil, strings.Split, filepath.cleanStep]
    | false =>
      have : ¬ dot = sep := by decide
      simp [filepath.render, Join_nil, strings.Split, filepath.cleanStep, this]
  | cons e es =>
    cases r with
    | true =>
      have := Split_append_sep [] (strings.Join (e :: es))
      simp only [List.nil_append] at this
      rw [render_true, this, Split_Join _ (by simp) hsf]
      simp [strings.Split, filepath.cleanStep]
    | false =>
      rw [render_cons_false _ _ (Canonical_sep_free false _ h e (by simp)).2,
        Split_Join _ (by simp) hsf]

theorem cleanElems_render (r : Bool) (es : List GoString) (h : Canonical r es) :
    filepath.cleanElems (filepath.render r es) = es := by
  unfold filepath.cleanElems
  rw [isRooted_render r es h, Split_render_fold r es h]
  obtain ⟨k, ns, rfl, hn, hr⟩ := h
  rw [foldl_cleanStep_canonical r k ns hn hr]
  simp

theorem Clean_render (r : Bool) (es : List GoString) (h : Canonical r es) :
    filepath.Clean (filepath.render r es) = filepath.render r es := by
  unfold filepath.Clean
  rw [isRooted_render r es h, cleanElems_render r es h]

/-- The lexical cleaning of a path is idempotent. -/
theorem Clean_idem (path : GoString) :
    filepath.Clean (filepath.Clean path) = filepath.Clean path :=
  Clean_render _ _ (cleanElems_canonical path)

theorem render_injective (r : Bool) (es fs : List GoString) (h1 : Canonical r es)
    (h2 : Canonical r fs) (h : filepath.render r es = filepath.render r fs) : es = fs := by
  rw [← cleanElems_render r es h1, ← cleanElems_render r fs h2, h]

theorem isRooted_append (d s : GoString) (hd : d ≠ []) :
    filepath.isRooted (d ++ s) = filepath.isRooted d := by
  obtain ⟨c, t, rfl⟩ := List.exists_cons_of_ne_nil hd
  simp [filepath.isRooted]

theorem cleanElems_nil : filepath.cleanElems [] = [] := by decide

theorem isRooted_nil : filepath.isRooted [] = false := by decide

/-- Cleaning a path followed by a separator and file names appends the names to
the cleaned elements of the path. -/
theorem cleanElems_append_names (d : GoString) (ns : List GoString) (hd : d ≠ [])
    (hne : ns ≠ []) (hn : ∀ n ∈ ns, isName n) :
    filepath.cleanElems (d ++ sep :: strings.Join ns) = filepath.cleanElems d ++ ns := by
  unfold filepath.cleanElems
  rw [isRooted_append d _ hd, Split_append_sep,
    Split_Join ns hne (fun n h => (hn n h).2.1), List.foldl_append]
  generalize (strings.Split d).foldl (filepath.cleanStep (filepath.isRooted d)) ([], 0) = st
  obtain ⟨out, dd⟩ := st
  rw [foldl_cleanStep_names _ ns hn]
  simp

theorem cleanElems_append_dot (d : GoString) (hd : d ≠ []) :
    filepath.cleanElems (d ++ sep :: [dot]) = filepath.cleanElems d := by
  unfold filepath.cleanElems
  have : ¬ dot = sep := by decide
  rw [isRooted_append d _ hd, Split_append_sep, List.foldl_append]
  simp [strings.Split, this, filepath.cleanStep]

theorem Clean_Join_names (ns : List GoString) (hne : ns ≠ []) (hn : ∀ n ∈ ns, isName n) :
    filepath.Clean (strings.Join ns) = filepath.render false ns := by
  have hc : Canonical false ns := ⟨0, ns, by simp, hn, by simp⟩
  obtain ⟨e, es, rfl⟩ := List.exists_cons_of_ne_nil hne
  rw [← render_cons_false e es (hn e (by simp)).1]
  exact Clean_render false _ hc

theorem Join_names_ne_nil (ns : List GoString) (hne : ns ≠ []) (hn : ∀ n ∈ ns, isName n) :
    strings.Join ns ≠ [] := by
  obtain ⟨e, es, rfl⟩ := List.exists_cons_of_ne_nil hne
  obtain ⟨c, t, hct⟩ := List.exists_cons_of_ne_nil (hn e (by simp)).1
  obtain ⟨u, hu⟩ := Join_head es e c t hct
  simp [hu]

/-- Joining a directory and a relative path made of file names: the names are
appended to the cleaned elements of the directory. -/
theorem Join_dir_names (d : GoString) (ns : List GoString) (hne : ns ≠ [])
    (hn : ∀ n ∈ ns, isName n) :
    filepath.Join [d, strings.Join ns] =
      filepath.render (filepath.isRooted d) (filepath.cleanElems d ++ ns) := by
  by_cases hd : d = []
  · subst hd
    have h2 := Join_names_ne_nil ns hne hn
    simp only [filepath.Join, ne_eq, not_true_eq_false, if_false, h2, not_false_eq_true,
      if_true, Join_singleton, cleanElems_nil, isRooted_nil, List.nil_append]
    exact Clean_Join_names ns hne hn
  · simp only [filepath.Join, ne_eq, hd, not_false_eq_true, if_true, Join_cons_cons,
      Join_singleton]
    unfold filepath.Clean
    rw [isRooted_append d _ hd, cleanElems_append_names d ns hd hne hn]

theorem Ext_nil_no_sep (s : GoString) (hs : sep ∉ s) (h : filepath.Ext s = []) : dot ∉ s := by
  rcases extScan_cases s.reverse [] with ⟨_, h1 | ⟨r1, r2, hr, _⟩⟩ | ⟨r1, r2, _, _, _, h3⟩
  · simpa using h1
  · exfalso
    apply hs
    have : sep ∈ s.reverse := by rw [hr]; simp
    simpa using this
  · unfold filepath.Ext at h
    rw [h] at h3
    simp at h3

theorem beforeLastDot_append (t e : GoString) (hd : dot ∉ e) :
    beforeLastDot (t ++ dot :: e) = t := by
  unfold beforeLastDot
  rw [if_pos (by simp)]
  have h1 : (t ++ dot :: e).reverse = e.reverse ++ dot :: t.reverse := by simp
  have h2 : ∀ c ∈ e.reverse, (c != dot) = true := by
    intro c hc
    have : c ≠ dot := fun h => hd (h ▸ List.mem_reverse.mp hc)
    simpa using this
  rw [h1, List.dropWhile_append_of_pos h2]
  simp [List.dropWhile]

/-- The title is the base name cut before its last dot. -/
theorem deriveTitle_eq (p : GoString) :
    deriveTitle p = some (beforeLastDot (filepath.Base p)) ∧
    beforeLastDot (filepath.Base p) ++ filepath.Ext (filepath.Base p) = filepath.Base p := by
  obtain ⟨t, ht, hte⟩ := slicePrefix_ext (filepath.Base p)
  have key : t = beforeLastDot (filepath.Base p) := by
    rcases Ext_cases (filepath.Base p) with h | ⟨t2, e, hb, hd, _, he⟩
    · rw [h, List.append_nil] at hte
      rcases Base_cases p with hb | hb
      · rw [hte, hb]; decide
      · have := Ext_nil_no_sep _ hb h
        rw [hte]
        unfold beforeLastDot
        rw [if_neg this]
    · rw [he] at hte
      have : t = t2 := by
        have h3 : t ++ dot :: e = t2 ++ dot :: e := by rw [hte]; exact hb
        exact List.append_cancel_right h3
      subst this
      rw [hb, beforeLastDot_append t e hd]
  subst key
  exact ⟨ht, hte⟩

theorem render_last (r : Bool) (es : List GoString) (f : GoString) (hf : f ≠ []) :
    filepath.render r (es ++ [f]) = f ∨ ∃ x, filepath.render r (es ++ [f]) = x ++ sep :: f := by
  have hj : strings.Join (es ++ [f]) = f ∨ ∃ x, strings.Join (es ++ [f]) = x ++ sep :: f := by
    by_cases he : es = []
    · left; subst he; simp [Join_singleton]
    · right; exact ⟨strings.Join es, Join_append_singleton es f he⟩
  cases r with
  | true =>
    right
    rw [render_true]
    rcases hj with h | ⟨x, h⟩
    · exact ⟨[], by simp [h]⟩
    · exact ⟨sep :: x, by simp [h]⟩
  | false =>
    have hne : strings.Join (es ++ [f]) ≠ [] := by
      rcases hj with h | ⟨x, h⟩
      · rw [h]; exact hf
      · rw [h]; simp
    have : filepath.render false (es ++ [f]) = strings.Join (es ++ [f]) := by
      simp [filepath.render, hne]
    rw [this]
    exact hj

theorem lastElement_split (s : GoString) :
    ∃ d, s = d ++ filepath.lastElement s ∧ (d = [] ∨ ∃ d0, d = d0 ++ [sep]) := by
  refine ⟨(s.reverse.dropWhile (fun c => c != sep)).reverse, ?_, ?_⟩
  · unfold filepath.lastElement
    rw [← List.reverse_append, List.takeWhile_append_dropWhile, List.reverse_reverse]
  · cases h : s.reverse.dropWhile (fun c => c != sep) with
    | nil => left; rfl
    | cons c rest =>
      right
      have := List.head_dropWhile_not (fun c => c != sep) s.reverse (by rw [h]; simp)
      simp only [h, List.head_cons] at this
      have hc : c = sep := by simpa using this
      exact ⟨rest.reverse, by simp [hc]⟩

/-! ## Paths of the entries of a walk -/

theorem resolve_render (r : Bool) (es : List GoString) (h : Canonical r es) :
    resolve (filepath.render r es) = ⟨r, es⟩ := by
  unfold resolve
  rw [isRooted_render r es h, cleanElems_render r es h]

theorem resolve_Clean (path : GoString) : resolve (filepath.Clean path) = resolve path := by
  unfold filepath.Clean
  rw [resolve_render _ _ (cleanElems_canonical path)]
  rfl

theorem Canonical_root_names (root : GoString) (ns : List GoString)
    (hn : ∀ n ∈ ns, isName n) :
    Canonical (filepath.isRooted root) (filepath.cleanElems root ++ ns) :=
  Canonical_append _ _ _ (cleanElems_canonical root) hn

/-- The path of an entry joined with the name of one of its entries is the path
of that entry. -/
theorem pathOf_Join (root : GoString) (ns : List GoString) (name : GoString)
    (hn : ∀ n ∈ ns, isName n) (hname : isName name) :
    filepath.Join [pathOf root ns, name] = pathOf root (ns ++ [name]) := by
  have h1 : pathOf root (ns ++ [name]) =
      filepath.render (filepath.isRooted root) (filepath.cleanElems root ++ (ns ++ [name])) := by
    simp [pathOf]
  rw [h1]
  have hj := fun d => Join_dir_names d [name] (by simp) (by simpa using hname)
  simp only [Join_singleton] at hj
  by_cases hns : ns = []
  · subst hns
    simp only [pathOf, if_true, List.nil_append]
    exact hj root
  · simp only [pathOf, hns, if_false]
    have hc := Canonical_root_names root ns hn
    rw [hj, isRooted_render _ _ hc, cleanElems_render _ _ hc, List.append_assoc]

theorem stripCommon_append (l m : List GoString) :
    filepath.stripCommon l (l ++ m) = ([], m) := by
  induction l with
  | nil => cases m <;> rfl
  | cons a l ih => simp [filepath.stripCommon, ih]

theorem Join_canonical_ne_nil (r : Bool) (es : List GoString) (hne : es ≠ [])
    (h : Canonical r es) : ∃ c t, strings.Join es = c :: t ∧ c ≠ sep := by
  obtain ⟨e, es, rfl⟩ := List.exists_cons_of_ne_nil hne
  have he := Canonical_sep_free r _ h e (by simp)
  obtain ⟨c, t, rfl⟩ := List.exists_cons_of_ne_nil he.2
  obtain ⟨u, hu⟩ := Join_head es _ c t rfl
  exact ⟨c, u, hu, fun hc => he.1 (by simp [hc])⟩

theorem relElems_render (r : Bool) (es : List GoString) (hne : es ≠ [])
    (h : Canonical r es) :
    filepath.relElems (filepath.render r es) = (if r then [[]] else []) ++ es := by
  obtain ⟨c, t, hj, hc⟩ := Join_canonical_ne_nil r es hne h
  have hsf : ∀ e ∈ es, sep ∉ e := fun e he => (Canonical_sep_free r es h e he).1
  cases r with
  | true =>
    rw [render_true]
    have h1 : (sep :: strings.Join es) ≠ [sep] := by rw [hj]; simp
    have h2 := Split_append_sep [] (strings.Join es)
    simp only [List.nil_append] at h2
    simp only [filepath.relElems, h1, if_false, h2, Split_Join es hne hsf]
    simp [strings.Split]
  | false =>
    obtain ⟨e, es2, rfl⟩ := List.exists_cons_of_ne_nil hne
    rw [render_cons_false e es2 (Canonical_sep_free false _ h e (by simp)).2]
    have h0 : strings.Join (e :: es2) ≠ [] := by rw [hj]; simp
    have h1 : strings.Join (e :: es2) ≠ [sep] := by
      rw [hj]; intro hx; simp only [List.cons.injEq] at hx; exact hc hx.1
    simp [filepath.relElems, h0, h1, Split_Join _ hne hsf]

theorem render_ne_dot (r : Bool) (es : List GoString) (hne : es ≠ []) (h : Canonical r es) :
    filepath.render r es ≠ [dot] := by
  intro hd
  have h1 := cleanElems_render r es h
  rw [hd] at h1
  have : filepath.cleanElems [dot] = [] := by decide
  rw [this] at h1
  exact hne h1.symm

/-- The relative path of an entry of a walk is made of the names that lead to
it from the root. -/
theorem Rel_pathOf (root : GoString) (ns : List GoString) (hn : ∀ n ∈ ns, isName n) :
    filepath.Rel root (pathOf root ns) = some (relOf ns) := by
  by_cases hns : ns = []
  · subst hns
    simp [pathOf, relOf, filepath.Rel]
  · have hc := Canonical_root_names root ns hn
    have hb := cleanElems_canonical root
    have hne : filepath.cleanElems root ++ ns ≠ [] := by simp [hns]
    simp only [pathOf, relOf, hns, if_false]
    unfold filepath.Rel
    simp only [Clean_render _ _ hc]
    have hdiff : filepath.render (filepath.isRooted root) (filepath.cleanElems root ++ ns) ≠
        filepath.Clean root := by
      intro heq
      have := render_injective _ _ _ hc hb heq
      have h2 : (filepath.cleanElems root ++ ns).length = (filepath.cleanElems root).length := by
        rw [this]
      simp only [List.length_append] at h2
      have : ns.length = 0 := by omega
      exact hns (List.length_eq_zero.mp this)
    rw [if_neg hdiff]
    have htarg := relElems_render _ _ hne hc
    have hrt := isRooted_render _ _ hc
    by_cases hes : filepath.cleanElems root = []
    · -- the root is `/` or the current directory
      have hroot : filepath.Clean root = filepath.render (filepath.isRooted root) [] := by
        unfold filepath.Clean; rw [hes]
      cases hr : filepath.isRooted root with
      | true =>
        rw [hr] at hroot htarg hrt
        have h1 : filepath.Clean root = [sep] := by rw [hroot]; decide
        have h2 : ([sep] : GoString) ≠ [dot] := by decide
        simp only [h1, h2, if_false, hrt]
        have h3 : filepath.isRooted [sep] = true := by decide
        simp only [h3, bne_self_eq_false, Bool.false_eq_true, if_false, htarg, if_true]
        have h4 : filepath.relElems [sep] = [[]] := by decide
        rw [h4, hes]
        have := stripCommon_append [[]] ns
        simp only [List.nil_append, List.singleton_append] at this ⊢
        rw [this]
      | false =>
        rw [hr] at hroot htarg hrt
        have h1 : filepath.Clean root = [dot] := by rw [hroot]; decide
        simp only [h1, if_true, hrt]
        have h3 : filepath.isRooted [] = false := by decide
        simp only [h3, bne_self_eq_false, Bool.false_eq_true, if_false, htarg]
        have h4 : filepath.relElems [] = [] := by decide
        rw [h4, hes]
        simp only [List.nil_append]
        cases ns with
        | nil => exact absurd rfl hns
        | cons a ns => rfl
    · have hbase := relElems_render _ _ hes hb
      have hnd := render_ne_dot _ _ hes hb
      have hcl : filepath.Clean root =
          filepath.render (filepath.isRooted root) (filepath.cleanElems root) := rfl
      rw [hcl]
      simp only [hnd, if_false, hrt, isRooted_render _ _ hb, bne_self_eq_false,
        Bool.false_eq_true, hbase, htarg]
      have := stripCommon_append ((if filepath.isRooted root = true then [[]] else []) ++
        filepath.cleanElems root) ns
      rw [← List.append_assoc, this]

/-! ## Walks run the callback over the visits -/

theorem runVisits_append {σ : Type} (fn : WalkFn σ) (a b : List Visit) (s : σ) :
    runVisits fn (a ++ b) s =
      match runVisits fn a s with
      | (some e, s1) => (some e, s1)
      | (none, s1) => runVisits fn b s1 := by
  induction a generalizing s with
  | nil => simp [runVisits]
  | cons v a ih =>
    simp only [List.cons_append, runVisits]
    rcases h : fn v.path v.info v.err s with ⟨_ | e, s1⟩
    · simp [ih]
    · simp

theorem runVisits_ok_append {σ : Type} (fn : WalkFn σ) (a b : List Visit) (s s1 : σ)
    (h : runVisits fn a s = (none, s1)) :
    runVisits fn (a ++ b) s = runVisits fn b s1 := by
  rw [runVisits_append, h]

theorem runVisits_fail_append {σ : Type} (fn : WalkFn σ) (a b : List Visit) (s s1 : σ)
    (e : Err) (h : runVisits fn a s = (some e, s1)) :
    runVisits fn (a ++ b) s = (some e, s1) := by
  rw [runVisits_append, h]

mutual
theorem visitsDir_plain (path : GoString) (n : Node) :
    ∀ v ∈ visitsDir path n, ∀ x, v.err = some x → x.plain := by
  cases n with
  | file mode content =>
    intro v hv x hx
    simp only [visitsDir, List.mem_singleton] at hv
    subst hv
    simp at hx
  | dir mode readable entries =>
    intro v hv x hx
    simp only [visitsDir, List.mem_cons] at hv
    rcases hv with rfl | hv
    · simp at hx
    · cases readable with
      | true =>
        simp only [if_true] at hv
        exact visitsDirEntries_plain path entries v hv x hx
      | false =>
        simp only [Bool.false_eq_true, if_false, List.mem_singleton] at hv
        subst hv
        simp only [Option.some.injEq] at hx
        subst hx
        decide
theorem visitsDirEntries_plain (path : GoString) (es : List (GoString × Node)) :
    ∀ v ∈ visitsDirEntries path es, ∀ x, v.err = some x → x.plain := by
  cases es with
  | nil => intro v hv; simp [visitsDirEntries] at hv
  | cons e rest =>
    obtain ⟨name, d⟩ := e
    intro v hv x hx
    simp only [visitsDirEntries, List.mem_append] at hv
    rcases hv with hv | hv
    · exact visitsDir_plain _ d v hv x hx
    · exact visitsDirEntries_plain path rest v hv x hx
end

mutual
theorem visitsWalk_plain (path : GoString) (n : Node) :
    ∀ v ∈ visitsWalk path n, ∀ x, v.err = some x → x.plain := by
  cases n with
  | file mode content =>
    intro v hv x hx
    simp only [visitsWalk, List.mem_singleton] at hv
    subst hv
    simp at hx
  | dir mode readable entries =>
    intro v hv x hx
    simp only [visitsWalk, List.mem_cons] at hv
    rcases hv with rfl | hv
    · cases readable with
      | true => simp at hx
      | false =>
        simp only [Bool.false_eq_true, if_false, Option.some.injEq] at hx
        subst hx
        decide
    · cases readable with
      | true =>
        simp only [if_true] at hv
        exact visitsWalkEntries_plain path entries v hv x hx
      | false => simp at hv
theorem visitsWalkEntries_plain (path : GoString) (es : List (GoString × Node)) :
    ∀ v ∈ visitsWalkEntries path es, ∀ x, v.err = some x → x.plain := by
  cases es with
  | nil => intro v hv; simp [visitsWalkEntries] at hv
  | cons e rest =>
    obtain ⟨name, d⟩ := e
    intro v hv x hx
    simp only [visitsWalkEntries, List.mem_append] at hv
    rcases hv with hv | hv
    · exact visitsWalk_plain _ d v hv x hx
    · exact visitsWalkEntries_plain path rest v hv x hx
end

theorem runVisits_plain {σ : Type} (fn : WalkFn σ) (hfn : NoSkip fn) (vs : List Visit)
    (hvs : ∀ v ∈ vs, ∀ x, v.err = some x → x.plain) (s : σ) (e : Err)
    (h : (runVisits fn vs s).1 = some e) : e.plain := by
  induction vs generalizing s with
  | nil => simp [runVisits] at h
  | cons v vs ih =>
    simp only [runVisits] at h
    rcases h1 : fn v.path v.info v.err s with ⟨_ | e1, s1⟩
    · rw [h1] at h
      exact ih (fun u hu => hvs u (by simp [hu])) s1 h
    · rw [h1] at h
      simp only [Option.some.injEq] at h
      subst h
      exact hfn v.path v.info v.err s (hvs v (by simp)) e1 (by rw [h1])

mutual
theorem walkDir_eq_run {σ : Type} (fn : WalkFn σ) (hfn : NoSkip fn) (path : GoString)
    (n : Node) (s : σ) :
    filepath.walkDir fn path n s = runVisits fn (visitsDir path n) s := by
  cases n with
  | file mode content =>
    simp only [filepath.walkDir, visitsDir, runVisits]
    rcases h : fn path (some ⟨false, mode, content⟩) none s with ⟨_ | e, s1⟩ <;> rfl
  | dir mode readable entries =>
    simp only [filepath.walkDir, visitsDir, runVisits]
    rcases h : fn path (some ⟨true, mode, none⟩) none s with ⟨_ | e, s1⟩
    · cases readable with
      | true =>
        simp only [if_true]
        exact walkDirEntries_eq_run fn hfn path entries s1
      | false =>
        simp only [Bool.false_eq_true, if_false, runVisits]
        rcases h2 : fn path (some ⟨true, mode, none⟩) (some Err.readDir) s1 with ⟨_ | e2, s2⟩
        · rfl
        · have hp := hfn path (some ⟨true, mode, none⟩) (some Err.readDir) s1
            (by intro x hx; cases hx; decide) e2 (by rw [h2])
          simp [hp.1]
    · have hp := hfn path (some ⟨true, mode, none⟩) none s (by simp) e (by rw [h])
      simp [hp.1]
theorem walkDirEntries_eq_run {σ : Type} (fn : WalkFn σ) (hfn : NoSkip fn) (path : GoString)
    (es : List (GoString × Node)) (s : σ) :
    filepath.walkDirEntries fn path es s = runVisits fn (visitsDirEntries path es) s := by
  cases es with
  | nil => simp [filepath.walkDirEntries, visitsDirEntries, runVisits]
  | cons e rest =>
    obtain ⟨name, d⟩ := e
    simp only [filepath.walkDirEntries, visitsDirEntries]
    rw [runVisits_append, walkDir_eq_run fn hfn (filepath.Join [path, name]) d s]
    rcases h : runVisits fn (visitsDir (filepath.Join [path, name]) d) s with ⟨_ | e, s1⟩
    · simp only
      exact walkDirEntries_eq_run fn hfn path rest s1
    · have hp := runVisits_plain fn hfn _ (visitsDir_plain _ d) s e (by rw [h])
      simp [hp.1]
end

mutual
theorem walk_eq_run {σ : Type} (fn : WalkFn σ) (hfn : NoSkip fn) (path : GoString)
    (n : Node) (s : σ) :
    filepath.walk fn path n s = runVisits fn (visitsWalk path n) s := by
  cases n with
  | file mode content =>
    simp only [filepath.walk, visitsWalk, runVisits]
    rcases h : fn path (some ⟨false, mode, content⟩) none s with ⟨_ | e, s1⟩ <;> rfl
  | dir mode readable entries =>
    cases readable with
    | true =>
      simp only [filepath.walk, visitsWalk, runVisits, if_true]
      rcases h : fn path (some ⟨true, mode, none⟩) none s with ⟨_ | e, s1⟩
      · exact walkEntries_eq_run fn hfn path entries s1
      · rfl
    | false =>
      simp only [filepath.walk, visitsWalk, runVisits, Bool.false_eq_true, if_false]
theorem walkEntries_eq_run {σ : Type} (fn : WalkFn σ) (hfn : NoSkip fn) (path : GoString)
    (es : List (GoString × Node)) (s : σ) :
    filepath.walkEntries fn path es s = runVisits fn (visitsWalkEntries path es) s := by
  cases es with
  | nil => simp [filepath.walkEntries, visitsWalkEntries, runVisits]
  | cons e rest =>
    obtain ⟨name, d⟩ := e
    simp only [filepath.walkEntries, visitsWalkEntries]
    rw [runVisits_append, walk_eq_run fn hfn (filepath.Join [path, name]) d s]
    rcases h : runVisits fn (visitsWalk (filepath.Join [path, name]) d) s with ⟨_ | e, s1⟩
    · simp only
      exact walkEntries_eq_run fn hfn path rest s1
    · have hp := runVisits_plain fn hfn _ (visitsWalk_plain _ d) s e (by rw [h])
      simp [hp.1]
end

theorem visitsWalkDir_plain (rootPath : GoString) (root : Option Node) :
    ∀ v ∈ visitsWalkDir rootPath root, ∀ x, v.err = some x → x.plain := by
  cases root with
  | none =>
    intro v hv x hx
    simp only [visitsWalkDir, List.mem_singleton] at hv
    subst hv
    simp only [Option.some.injEq] at hx
    subst hx
    decide
  | some d => exact visitsDir_plain rootPath d

theorem visitsWalkRoot_plain (rootPath : GoString) (root : Option Node) :
    ∀ v ∈ visitsWalkRoot rootPath root, ∀ x, v.err = some x → x.plain := by
  cases root with
  | none =>
    intro v hv x hx
    simp only [visitsWalkRoot, List.mem_singleton] at hv
    subst hv
    simp only [Option.some.injEq] at hx
    subst hx
    decide
  | some d => exact visitsWalk_plain rootPath d

theorem plain_not_sentinel (o : Option Err) (h : ∀ e, o = some e → e.plain) :
    (if o = some Err.SkipDir ∨ o = some Err.SkipAll then none else o) = o := by
  rw [if_neg]
  rintro (h1 | h1)
  · exact (h _ h1).1 rfl
  · exact (h _ h1).2 rfl

/-- A walk with `filepath.WalkDir` whose callback never answers with a sentinel
calls the callback on the visits in order and stops at the first error. -/
theorem WalkDir_eq_run {σ : Type} (fn : WalkFn σ) (hfn : NoSkip fn) (rootPath : GoString)
    (root : Option Node) (s : σ) :
    filepath.WalkDir rootPath root fn s = runVisits fn (visitsWalkDir rootPath root) s := by
  have hr : (match root with
      | none => fn rootPath none (some Err.lstat) s
      | some d => filepath.walkDir fn rootPath d s) =
      runVisits fn (visitsWalkDir rootPath root) s := by
    cases root with
    | none =>
      simp only [visitsWalkDir, runVisits]
      rcases h : fn rootPath none (some Err.lstat) s with ⟨_ | e, s1⟩ <;> rfl
    | some d => exact walkDir_eq_run fn hfn rootPath d s
  unfold filepath.WalkDir
  simp only [hr]
  rw [plain_not_sentinel _ (fun e he =>
    runVisits_plain fn hfn _ (visitsWalkDir_plain rootPath root) s e he)]

/-- The same for `filepath.Walk`. -/
theorem Walk_eq_run {σ : Type} (fn : WalkFn σ) (hfn : NoSkip fn) (rootPath : GoString)
    (root : Option Node) (s : σ) :
    filepath.Walk rootPath root fn s = runVisits fn (visitsWalkRoot rootPath root) s := by
  have hr : (match root with
      | none => fn rootPath none (some Err.lstat) s
      | some d => filepath.walk fn rootPath d s) =
      runVisits fn (visitsWalkRoot rootPath root) s := by
    cases root with
    | none =>
      simp only [visitsWalkRoot, runVisits]
      rcases h : fn rootPath none (some Err.lstat) s with ⟨_ | e, s1⟩ <;> rfl
    | some d => exact walk_eq_run fn hfn rootPath d s
  unfold filepath.Walk
  simp only [hr]
  rw [plain_not_sentinel _ (fun e he =>
    runVisits_plain fn hfn _ (visitsWalkRoot_plain rootPath root) s e he)]

/-! ## The visits of a walk are the entries of the tree -/

theorem entriesOk_cons (name : GoString) (d : Node) (rest : List (GoString × Node))
    (h : entriesOk ((name, d) :: rest) = true) :
    isName name ∧ (∀ e ∈ rest, e.1 ≠ name) ∧ d.namesOk = true ∧ entriesOk rest = true := by
  simp only [entriesOk, Bool.and_eq_true, decide_eq_true_eq, Bool.not_eq_true',
    List.any_eq_false, beq_iff_eq] at h
  obtain ⟨⟨⟨h1, h2⟩, h3⟩, h4⟩ := h
  exact ⟨h1, fun e he => h2 e he, h3, h4⟩

mutual
theorem visitsWalk_listing (root : GoString) (ns : List GoString) (n : Node)
    (hn : ∀ x ∈ ns, isName x) (hok : n.namesOk = true) :
    visitsWalk (pathOf root ns) n = (listing ns n).map (walkVisit root) := by
  cases n with
  | file mode content => simp [visitsWalk, listing, walkVisit, Node.info, Node.unreadable]
  | dir mode readable es =>
    cases readable with
    | true =>
      simp only [visitsWalk, listing, if_true, List.map_cons, walkVisit, Node.info,
        Node.unreadable, Bool.false_eq_true, if_false]
      rw [visitsWalkEntries_listing root ns es hn (by simpa [Node.namesOk] using hok)]
    | false => simp [visitsWalk, listing, walkVisit, Node.info, Node.unreadable]
theorem visitsWalkEntries_listing (root : GoString) (ns : List GoString)
    (es : List (GoString × Node)) (hn : ∀ x ∈ ns, isName x) (hok : entriesOk es = true) :
    visitsWalkEntries (pathOf root ns) es = (listingEntries ns es).map (walkVisit root) := by
  cases es with
  | nil => simp [visitsWalkEntries, listingEntries]
  | cons e rest =>
    obtain ⟨name, d⟩ := e
    obtain ⟨h1, _, h3, h4⟩ := entriesOk_cons name d rest hok
    have hn2 : ∀ x ∈ ns ++ [name], isName x := by
      intro x hx
      simp only [List.mem_append, List.mem_singleton] at hx
      rcases hx with hx | rfl
      · exact hn x hx
      · exact h1
    simp only [visitsWalkEntries, listingEntries, List.map_append]
    rw [pathOf_Join root ns name hn h1, visitsWalk_listing root (ns ++ [name]) d hn2 h3,
      visitsWalkEntries_listing root ns rest hn h4]
end

mutual
theorem visitsDir_listing (root : GoString) (ns : List GoString) (n : Node)
    (hn : ∀ x ∈ ns, isName x) (hok : n.namesOk = true) :
    visitsDir (pathOf root ns) n = (listing ns n).flatMap (dirVisits root) := by
  cases n with
  | file mode content => simp [visitsDir, listing, dirVisits, Node.info, Node.unreadable]
  | dir mode readable es =>
    cases readable with
    | true =>
      simp only [visitsDir, listing, if_true, List.flatMap_cons, dirVisits, Node.info,
        Node.unreadable, Bool.false_eq_true, if_false]
      rw [visitsDirEntries_listing root ns es hn (by simpa [Node.namesOk] using hok)]
      rfl
    | false => simp [visitsDir, listing, dirVisits, Node.info, Node.unreadable]
theorem visitsDirEntries_listing (root : GoString) (ns : List GoString)
    (es : List (GoString × Node)) (hn : ∀ x ∈ ns, isName x) (hok : entriesOk es = true) :
    visitsDirEntries (pathOf root ns) es = (listingEntries ns es).flatMap (dirVisits root) := by
  cases es with
  | nil => simp [visitsDirEntries, listingEntries]
  | cons e rest =>
    obtain ⟨name, d⟩ := e
    obtain ⟨h1, _, h3, h4⟩ := entriesOk_cons name d rest hok
    have hn2 : ∀ x ∈ ns ++ [name], isName x := by
      intro x hx
      simp only [List.mem_append, List.mem_singleton] at hx
      rcases hx with hx | rfl
      · exact hn x hx
      · exact h1
    simp only [visitsDirEntries, listingEntries, List.flatMap_append]
    rw [pathOf_Join root ns name hn h1, visitsDir_listing root (ns ++ [name]) d hn2 h3,
      visitsDirEntries_listing root ns rest hn h4]
end

mutual
theorem listing_names (above : List GoString) (n : Node) (ha : ∀ x ∈ above, isName x)
    (hok : n.namesOk = true) :
    ∀ e ∈ listing above n, (∀ x ∈ e.1, isName x) ∧ above <+: e.1 := by
  cases n with
  | file mode content =>
    intro e he
    simp only [listing, List.mem_singleton] at he
    subst he
    exact ⟨ha, List.prefix_refl _⟩
  | dir mode readable es =>
    intro e he
    simp only [listing, List.mem_cons] at he
    rcases he with rfl | he
    · exact ⟨ha, List.prefix_refl _⟩
    · cases readable with
      | true =>
        simp only [if_true] at he
        obtain ⟨h1, name, _, h2⟩ := listingEntries_names above es ha
          (by simpa [Node.namesOk] using hok) e he
        exact ⟨h1, (List.prefix_append above [name]).trans h2⟩
      | false => simp at he
theorem listingEntries_names (above : List GoString) (es : List (GoString × Node))
    (ha : ∀ x ∈ above, isName x) (hok : entriesOk es = true) :
    ∀ e ∈ listingEntries above es, (∀ x ∈ e.1, isName x) ∧
      ∃ name, name ∈ es.map Prod.fst ∧ (above ++ [name]) <+: e.1 := by
  cases es with
  | nil => intro e he; simp [listingEntries] at he
  | cons e0 rest =>
    obtain ⟨name, d⟩ := e0
    obtain ⟨h1, _, h3, h4⟩ := entriesOk_cons name d rest hok
    have hn2 : ∀ x ∈ above ++ [name], isName x := by
      intro x hx
      simp only [List.mem_append, List.mem_singleton] at hx
      rcases hx with hx | rfl
      · exact ha x hx
      · exact h1
    intro e he
    simp only [listingEntries, List.mem_append] at he
    rcases he with he | he
    · obtain ⟨h5, h6⟩ := listing_names (above ++ [name]) d hn2 h3 e he
      exact ⟨h5, name, by simp, h6⟩
    · obtain ⟨h5, nm, h6, h7⟩ := listingEntries_names above rest ha h4 e he
      exact ⟨h5, nm, by simp only [List.map_cons, List.mem_cons]; exact Or.inr h6, h7⟩
end

theorem prefix_snoc_inj (above : List GoString) (a b : GoString) (l : List GoString)
    (h1 : (above ++ [a]) <+: l) (h2 : (above ++ [b]) <+: l) : a = b := by
  obtain ⟨t1, rfl⟩ := h1
  obtain ⟨t2, h⟩ := h2
  simp only [List.append_assoc, List.append_cancel_left_eq, List.singleton_append,
    List.cons.injEq] at h
  exact h.1.symm

mutual
theorem listing_nodup (above : List GoString) (n : Node) (ha : ∀ x ∈ above, isName x)
    (hok : n.namesOk = true) : ((listing above n).map Prod.fst).Nodup := by
  cases n with
  | file mode content => simp [listing]
  | dir mode readable es =>
    cases readable with
    | true =>
      have hes : entriesOk es = true := by simpa [Node.namesOk] using hok
      simp only [listing, if_true, List.map_cons, List.nodup_cons]
      refine ⟨?_, listingEntries_nodup above es ha hes⟩
      intro hmem
      obtain ⟨e, he, heq⟩ := List.mem_map.mp hmem
      obtain ⟨_, name, _, hp⟩ := listingEntries_names above es ha hes e he
      rw [heq] at hp
      have := hp.length_le
      simp at this
    | false => simp [listing]
theorem listingEntries_nodup (above : List GoString) (es : List (GoString × Node))
    (ha : ∀ x ∈ above, isName x) (hok : entriesOk es = true) :
    ((listingEntries above es).map Prod.fst).Nodup := by
  cases es with
  | nil => simp [listingEntries]
  | cons e0 rest =>
    obtain ⟨name, d⟩ := e0
    obtain ⟨h1, h2, h3, h4⟩ := entriesOk_cons name d rest hok
    have hn2 : ∀ x ∈ above ++ [name], isName x := by
      intro x hx
      simp only [List.mem_append, List.mem_singleton] at hx
      rcases hx with hx | rfl
      · exact ha x hx
      · exact h1
    simp only [listingEntries, List.map_append]
    rw [List.nodup_append]
    refine ⟨listing_nodup (above ++ [name]) d hn2 h3, listingEntries_nodup above rest ha h4, ?_⟩
    intro l hl1 hl2
    obtain ⟨e1, he1, rfl⟩ := List.mem_map.mp hl1
    obtain ⟨e2, he2, heq⟩ := List.mem_map.mp hl2
    obtain ⟨_, hp1⟩ := listing_names (above ++ [name]) d hn2 h3 e1 he1
    obtain ⟨_, nm, hnm, hp2⟩ := listingEntries_names above rest ha h4 e2 he2
    rw [heq] at hp2
    have := prefix_snoc_inj above name nm _ hp1 hp2
    obtain ⟨e3, he3, rfl⟩ := List.mem_map.mp hnm
    exact h2 e3 he3 this.symm
end

/-- The calls of `filepath.Walk` on a tree of file names are the calls on its
entries in the order of the listing. -/
theorem visitsWalkRoot_listing (root : GoString) (n : Node) (hok : n.namesOk = true) :
    visitsWalkRoot root (some n) = (listing [] n).map (walkVisit root) := by
  have := visitsWalk_listing root [] n (by simp) hok
  simpa [visitsWalkRoot, pathOf] using this

/-- The calls of `filepath.WalkDir` on a tree of file names. -/
theorem visitsWalkDir_listing (root : GoString) (n : Node) (hok : n.namesOk = true) :
    visitsWalkDir root (some n) = (listing [] n).flatMap (dirVisits root) := by
  have := visitsDir_listing root [] n (by simp) hok
  simpa [visitsWalkDir, pathOf] using this

/-! ## The operations on the file system -/

theorem kind_set_ne (fs : FS) (k x : Key) (e : Entry) (h : x ≠ k) :
    (fs.set k e).kind x = fs.kind x := by
  simp [FS.kind, FS.set, h]

theorem kind_eq_of_eq (fs1 fs2 : FS) (k : Key) (h : fs2 k = fs1 k) :
    fs2.kind k = fs1.kind k := by
  simp [FS.kind, h]

theorem kind_file_iff (fs : FS) (k : Key) :
    fs.kind k = Kind.file ↔ k.isBase = false ∧ ∃ p d, fs k = some (Entry.file p d) := by
  unfold FS.kind
  cases hb : k.isBase with
  | true => simp
  | false =>
    simp only [Bool.false_eq_true, if_false, true_and]
    rcases h : fs k with _ | ⟨p, d⟩ | p <;> simp

theorem kind_absent_iff (fs : FS) (k : Key) :
    fs.kind k = Kind.absent ↔ k.isBase = false ∧ fs k = none := by
  unfold FS.kind
  cases hb : k.isBase with
  | true => simp
  | false =>
    simp only [Bool.false_eq_true, if_false, true_and]
    rcases h : fs k with _ | ⟨p, d⟩ | p <;> simp

theorem kind_set_file (fs : FS) (k : Key) (p : Nat) (d : List UInt8) (hb : k.isBase = false) :
    (fs.set k (Entry.file p d)).kind k = Kind.file := by
  simp [FS.kind, FS.set, hb]

theorem DirExt_refl (fs : FS) : DirExt fs fs := fun _ => Or.inl rfl

theorem DirExt_trans (a b c : FS) (h1 : DirExt a b) (h2 : DirExt b c) : DirExt a c := by
  intro k
  rcases h2 k with h | ⟨hk, p, hp⟩
  · rcases h1 k with h0 | ⟨hk0, p0, hp0⟩
    · left; rw [h, h0]
    · right; exact ⟨hk0, p0, by rw [h, hp0]⟩
  · rcases h1 k with h0 | ⟨hk0, p0, hp0⟩
    · right; exact ⟨by rw [← kind_eq_of_eq a b k h0]; exact hk, p, hp⟩
    · exfalso
      rw [kind_absent_iff] at hk
      rw [hp0] at hk
      simp at hk

theorem DirExt_set (fs : FS) (k : Key) (p : Nat) (h : fs.kind k = Kind.absent) :
    DirExt fs (fs.set k (Entry.dir p)) := by
  intro x
  by_cases hx : x = k
  · right; subst hx; exact ⟨h, p, by simp [FS.set]⟩
  · left; simp [FS.set, hx]

theorem DirExt_kind_file (a b : FS) (h : DirExt a b) (k : Key) (hk : a.kind k = Kind.file) :
    b.kind k = Kind.file := by
  rcases h k with h0 | ⟨h0, _⟩
  · rw [kind_eq_of_eq a b k h0]; exact hk
  · rw [hk] at h0; cases h0

theorem DirExt_kind_dir (a b : FS) (h : DirExt a b) (k : Key) (hk : a.kind k = Kind.dir) :
    b.kind k = Kind.dir := by
  rcases h k with h0 | ⟨h0, _⟩
  · rw [kind_eq_of_eq a b k h0]; exact hk
  · rw [hk] at h0; cases h0

theorem DirExt_some (a b : FS) (h : DirExt a b) (k : Key) (x : Entry) (hk : a k = some x) :
    b k = some x := by
  rcases h k with h0 | ⟨h0, _⟩
  · rw [h0]; exact hk
  · rw [kind_absent_iff] at h0
    rw [hk] at h0
    simp at h0

/-- The system call `mkdir` fails without effect, or adds one directory where
nothing existed and the parent is a directory. -/
theorem Mkdir_cases (env : Env) (k : Key) (perm : Nat) (fs : FS) :
    (∃ e, e.plain ∧ os.mkdirAt env k perm fs = (some e, fs)) ∨
    (os.mkdirAt env k perm fs = (none, fs.set k (Entry.dir (applyUmask env.umask perm))) ∧
      fs.kind k = Kind.absent ∧ fs.kind k.parent = Kind.dir ∧ env.denied k = false) := by
  unfold os.mkdirAt
  by_cases h1 : fs.kind k = Kind.absent
  · by_cases h2 : fs.kind k.parent = Kind.dir
    · cases h3 : env.denied k with
      | true => left; exact ⟨Err.permission, by decide, by simp [h1, h2]⟩
      | false => right; exact ⟨by simp [h1, h2], h1, h2, rfl⟩
    · left; exact ⟨Err.notExist, by decide, by simp [h1, h2]⟩
  · left; exact ⟨Err.exist, by decide, by simp [h1]⟩

theorem mkdirAllAux_spec (env : Env) (rooted : Bool) (perm : Nat) (re : List GoString)
    (fs : FS) :
    DirExt fs (os.mkdirAllAux env rooted perm re fs).2 ∧
    (∀ e, (os.mkdirAllAux env rooted perm re fs).1 = some e → e.plain) := by
  induction re generalizing fs with
  | nil => exact ⟨DirExt_refl fs, by simp [os.mkdirAllAux]⟩
  | cons e re ih =>
    unfold os.mkdirAllAux
    rcases hk : fs.kind ⟨rooted, (e :: re).reverse⟩ with _ | _ | _
    · simp only
      obtain ⟨ih1, ih2⟩ := ih fs
      rcases hr : os.mkdirAllAux env rooted perm re fs with ⟨_ | err, fs1⟩
      · rw [hr] at ih1
        simp only
        rcases Mkdir_cases env ⟨rooted, (e :: re).reverse⟩ perm fs1 with
          ⟨e1, hp, h⟩ | ⟨h, ha, _, _⟩
        · rw [h]
          exact ⟨ih1, by intro x hx; cases hx; exact hp⟩
        · rw [h]
          exact ⟨DirExt_trans _ _ _ ih1 (DirExt_set _ _ _ ha), by simp⟩
      · rw [hr] at ih1 ih2
        exact ⟨ih1, ih2⟩
    · exact ⟨DirExt_refl fs, by intro x hx; cases hx; decide⟩
    · exact ⟨DirExt_refl fs, by simp⟩

theorem kind_set_dir (fs : FS) (k : Key) (p : Nat) (hb : k.isBase = false) :
    (fs.set k (Entry.dir p)).kind k = Kind.dir := by
  simp [FS.kind, FS.set, hb]

theorem kind_base (fs : FS) (k : Key) (hb : k.isBase = true) : fs.kind k = Kind.dir := by
  simp [FS.kind, hb]

/-- A successful `MkdirAll` leaves a directory at its path. -/
theorem mkdirAllAux_success_dir (env : Env) (rooted : Bool) (perm : Nat)
    (re : List GoString) (fs : FS) (h : (os.mkdirAllAux env rooted perm re fs).1 = none) :
    (os.mkdirAllAux env rooted perm re fs).2.kind ⟨rooted, re.reverse⟩ = Kind.dir := by
  cases re with
  | nil => exact kind_base _ _ (by simp [Key.isBase])
  | cons e re =>
    unfold os.mkdirAllAux at h ⊢
    rcases hk : fs.kind ⟨rooted, (e :: re).reverse⟩ with _ | _ | _
    · rw [hk] at h
      simp only at h ⊢
      rcases hr : os.mkdirAllAux env rooted perm re fs with ⟨_ | err, fs1⟩
      · rw [hr] at h
        simp only at h ⊢
        rcases Mkdir_cases env ⟨rooted, (e :: re).reverse⟩ perm fs1 with
          ⟨e1, _, h1⟩ | ⟨h1, ha, _, _⟩
        · rw [h1] at h; cases h
        · rw [h1]
          exact kind_set_dir _ _ _ ((kind_absent_iff _ _).mp ha).1
      · rw [hr] at h; cases h
    · rw [hk] at h; cases h
    · simp only [hk]

/-- The entries that `MkdirAll` changes are the directory itself and its parents. -/
theorem mkdirAllAux_changes (env : Env) (r : Bool) (perm : Nat) (re : List GoString)
    (fs : FS) (x : Key) (h : (os.mkdirAllAux env r perm re fs).2 x ≠ fs x) :
    ∃ l, l ≠ [] ∧ l <:+ re ∧ x = ⟨r, l.reverse⟩ := by
  induction re generalizing fs with
  | nil => exact absurd rfl h
  | cons e re ih =>
    unfold os.mkdirAllAux at h
    rcases hk : fs.kind ⟨r, (e :: re).reverse⟩ with _ | _ | _
    · rw [hk] at h
      simp only at h
      have lift : (os.mkdirAllAux env r perm re fs).2 x ≠ fs x →
          ∃ l, l ≠ [] ∧ l <:+ e :: re ∧ x = ⟨r, l.reverse⟩ := by
        intro h2
        obtain ⟨l, h3, h4, h5⟩ := ih fs h2
        exact ⟨l, h3, h4.trans (List.suffix_cons e re), h5⟩
      rcases hr : os.mkdirAllAux env r perm re fs with ⟨_ | err, fs1⟩
      · rw [hr] at h lift
        simp only at h lift
        rcases Mkdir_cases env ⟨r, (e :: re).reverse⟩ perm fs1 with
          ⟨e1, _, h1⟩ | ⟨h1, _, _, _⟩
        · rw [h1] at h; exact lift h
        · rw [h1] at h
          by_cases hx : x = ⟨r, (e :: re).reverse⟩
          · exact ⟨e :: re, by simp, List.suffix_refl _, hx⟩
          · simp only [FS.set, hx, if_false] at h
            exact lift h
      · rw [hr] at h lift
        exact lift h
    · rw [hk] at h; exact absurd rfl h
    · rw [hk] at h; exact absurd rfl h

theorem mkdirAllAux_keeps_child (env : Env) (r : Bool) (perm : Nat) (e : GoString)
    (re : List GoString) (fs : FS) :
    (os.mkdirAllAux env r perm re fs).2 ⟨r, (e :: re).reverse⟩ = fs ⟨r, (e :: re).reverse⟩ := by
  by_contra h
  obtain ⟨l, _, h2, h3⟩ := mkdirAllAux_changes env r perm re fs _ h
  simp only [Key.mk.injEq, true_and] at h3
  have h4 := List.reverse_injective h3
  have := h2.length_le
  rw [← h4] at this
  simp at this

theorem mkdirAllAux_cons_dir (env : Env) (r : Bool) (perm : Nat) (e : GoString)
    (re : List GoString) (fs : FS) (hk : fs.kind ⟨r, (e :: re).reverse⟩ = Kind.dir) :
    os.mkdirAllAux env r perm (e :: re) fs = (none, fs) := by
  simp only [os.mkdirAllAux, hk]

theorem mkdirAllAux_cons_file (env : Env) (r : Bool) (perm : Nat) (e : GoString)
    (re : List GoString) (fs : FS) (hk : fs.kind ⟨r, (e :: re).reverse⟩ = Kind.file) :
    os.mkdirAllAux env r perm (e :: re) fs = (some Err.notDir, fs) := by
  simp only [os.mkdirAllAux, hk]

theorem mkdirAllAux_cons_absent (env : Env) (r : Bool) (perm : Nat) (e : GoString)
    (re : List GoString) (fs : FS) (hk : fs.kind ⟨r, (e :: re).reverse⟩ = Kind.absent) :
    os.mkdirAllAux env r perm (e :: re) fs =
      match os.mkdirAllAux env r perm re fs with
      | (some err, fs1) => (some err, fs1)
      | (none, fs1) => os.mkdirAt env ⟨r, (e :: re).reverse⟩ perm fs1 := by
  simp only [os.mkdirAllAux, hk]

theorem foldl_lookupStep_some (fs : FS) (r : Bool) (err : Err) (es : List GoString)
    (st : List GoString × Nat) :
    es.foldl (os.lookupStep fs r) (some err, st) = (some err, st) := by
  induction es with
  | nil => rfl
  | cons e es ih => simp only [List.foldl_cons, os.lookupStep]; exact ih

theorem lookupStep_cases (fs : FS) (r : Bool) (st : List GoString × Nat) (e : GoString) :
    os.lookupStep fs r (none, st) e = (none, filepath.cleanStep r st e) ∨
    ((e = [dot, dot] ∧ st.1.length > st.2) ∧
      ((fs.kind ⟨r, st.1.reverse⟩ = Kind.file ∧
          os.lookupStep fs r (none, st) e = (some Err.notDir, st)) ∨
        (fs.kind ⟨r, st.1.reverse⟩ = Kind.absent ∧
          os.lookupStep fs r (none, st) e = (some Err.notExist, st)))) := by
  unfold os.lookupStep
  simp only
  by_cases h : e = [dot, dot] ∧ st.1.length > st.2
  · rw [if_pos h]
    rcases hk : fs.kind ⟨r, st.1.reverse⟩ with _ | _ | _
    · right; exact ⟨h, Or.inr ⟨rfl, rfl⟩⟩
    · right; exact ⟨h, Or.inl ⟨rfl, rfl⟩⟩
    · left; rfl
  · rw [if_neg h]; left; trivial

theorem foldl_lookupStep_none (fs : FS) (r : Bool) (es : List GoString)
    (st : List GoString × Nat)
    (h : (es.foldl (os.lookupStep fs r) (none, st)).1 = none) :
    es.foldl (os.lookupStep fs r) (none, st) = (none, es.foldl (filepath.cleanStep r) st) := by
  induction es generalizing st with
  | nil => rfl
  | cons e es ih =>
    simp only [List.foldl_cons] at h ⊢
    rcases lookupStep_cases fs r st e with h1 | ⟨_, ⟨_, h1⟩ | ⟨_, h1⟩⟩
    · rw [h1] at h ⊢; exact ih _ h
    · rw [h1, foldl_lookupStep_some] at h; cases h
    · rw [h1, foldl_lookupStep_some] at h; cases h

theorem foldl_lookupStep_plain (fs : FS) (r : Bool) (es : List GoString)
    (st : List GoString × Nat) (err : Err)
    (h : (es.foldl (os.lookupStep fs r) (none, st)).1 = some err) :
    err = Err.notDir ∨ err = Err.notExist := by
  induction es generalizing st with
  | nil => cases h
  | cons e es ih =>
    simp only [List.foldl_cons] at h
    rcases lookupStep_cases fs r st e with h1 | ⟨_, ⟨_, h1⟩ | ⟨_, h1⟩⟩
    · rw [h1] at h; exact ih _ h
    · rw [h1, foldl_lookupStep_some] at h; cases h; exact Or.inl rfl
    · rw [h1, foldl_lookupStep_some] at h; cases h; exact Or.inr rfl

/-- A path that the kernel resolves names the entry at its cleaned elements. -/
theorem lookup_ok_key (fs : FS) (path : GoString) (k : Key)
    (h : os.lookup fs path = Except.ok k) : k = resolve path ∧ path ≠ [] := by
  unfold os.lookup at h
  by_cases hp : path = []
  · rw [if_pos hp] at h; cases h
  · rw [if_neg hp] at h
    rcases hf : (strings.Split path).foldl (os.lookupStep fs (filepath.isRooted path))
      (none, ([], 0)) with ⟨_ | err, st⟩
    · have := foldl_lookupStep_none fs _ (strings.Split path) ([], 0) (by rw [hf])
      rw [hf] at h this
      simp only [Except.ok.injEq] at h
      simp only [Prod.mk.injEq, true_and] at this
      subst this
      exact ⟨h.symm, hp⟩
    · rw [hf] at h; cases h

theorem lookup_error_plain (fs : FS) (path : GoString) (err : Err)
    (h : os.lookup fs path = Except.error err) : err = Err.notDir ∨ err = Err.notExist := by
  unfold os.lookup at h
  by_cases hp : path = []
  · rw [if_pos hp] at h; cases h; exact Or.inr rfl
  · rw [if_neg hp] at h
    rcases hf : (strings.Split path).foldl (os.lookupStep fs (filepath.isRooted path))
      (none, ([], 0)) with ⟨_ | e1, st⟩
    · rw [hf] at h; cases h
    · rw [hf] at h
      simp only [Except.error.injEq] at h
      subst h
      exact foldl_lookupStep_plain fs _ _ _ _ (by rw [hf])

theorem foldl_lookupStep_noDotDot (fs : FS) (r : Bool) (es : List GoString)
    (h : ∀ e ∈ es, e ≠ [dot, dot]) (st : List GoString × Nat) :
    es.foldl (os.lookupStep fs r) (none, st) = (none, es.foldl (filepath.cleanStep r) st) := by
  induction es generalizing st with
  | nil => rfl
  | cons e es ih =>
    simp only [List.foldl_cons]
    rcases lookupStep_cases fs r st e with h1 | ⟨⟨h0, _⟩, _⟩
    · rw [h1]; exact ih (fun x hx => h x (by simp [hx])) _
    · exact absurd h0 (h e (by simp))

theorem cleanStep_nonName (r : Bool) (st : List GoString × Nat) (e : GoString)
    (hs : sep ∉ e) (hn : ¬ isName e) (hst : st.1.length ≤ st.2) :
    (filepath.cleanStep r st e).1.length ≤ (filepath.cleanStep r st e).2 := by
  unfold filepath.cleanStep
  by_cases h1 : e = []
  · simp [h1, hst]
  · by_cases h2 : e = [dot]
    · simp [h2, hst]
    · by_cases h3 : e = [dot, dot]
      · have : ¬ st.1.length > st.2 := by omega
        subst h3
        simp only [if_neg h1, if_neg h2, if_true, if_neg this]
        cases r <;> simp [hst]
      · exact absurd ⟨h1, hs, h2, h3⟩ hn

theorem foldl_lookupStep_desc (fs : FS) (r : Bool) (es : List GoString)
    (hs : ∀ e ∈ es, sep ∉ e) (h : Descending es) (st : List GoString × Nat)
    (hst : st.1.length ≤ st.2) :
    es.foldl (os.lookupStep fs r) (none, st) = (none, es.foldl (filepath.cleanStep r) st) := by
  induction es generalizing st with
  | nil => rfl
  | cons e es ih =>
    by_cases hn : isName e
    · apply foldl_lookupStep_noDotDot
      unfold Descending at h
      simp only [List.dropWhile, hn, not_true_eq_false, decide_False, List.all_eq_true] at h
      intro x hx
      simpa using h x hx
    · simp only [List.foldl_cons]
      have hd : Descending es := by
        unfold Descending at h ⊢
        simpa [List.dropWhile, hn] using h
      rcases lookupStep_cases fs r st e with h1 | ⟨⟨_, h0⟩, _⟩
      · rw [h1]
        exact ih (fun x hx => hs x (by simp [hx])) hd _
          (cleanStep_nonName r st e (hs e (by simp)) hn hst)
      · omega

theorem Descending_append_left (a b : List GoString) (h : Descending (a ++ b)) : Descending a := by
  induction a with
  | nil => simp [Descending]
  | cons e a ih =>
    unfold Descending at h ⊢
    by_cases hn : isName e
    · simp only [List.cons_append, List.dropWhile, hn, not_true_eq_false, decide_False,
        List.all_eq_true] at h ⊢
      intro x hx
      exact h x (by
        rcases List.mem_cons.mp hx with h1 | h1
        · simp [h1]
        · simp [h1])
    · simp only [List.cons_append, List.dropWhile, hn, not_false_eq_true, decide_True] at h ⊢
      exact ih h

/-- A descending path names the entry at its cleaned elements in every file
system. -/
theorem lookup_descends (fs : FS) (path : GoString) (hne : path ≠ [])
    (hd : descends path = true) : os.lookup fs path = Except.ok (resolve path) := by
  unfold os.lookup
  rw [if_neg hne, foldl_lookupStep_desc fs _ _ (Split_sep_free path) hd ([], 0) (by simp)]
  rfl

theorem Split_replicate_sep (m : Nat) :
    strings.Split (List.replicate m sep) = List.replicate (m + 1) [] := by
  induction m with
  | zero => rfl
  | succ m ih =>
    simp only [List.replicate_succ, strings.Split, if_true]
    rw [ih]
    rfl

theorem Split_last_seps (f : GoString) (hs : sep ∉ f) (m : Nat) :
    strings.Split (f ++ List.replicate m sep) = f :: List.replicate m [] := by
  cases m with
  | zero => simpa using Split_no_sep f hs
  | succ m =>
    rw [List.replicate_succ, Split_append_sep, Split_no_sep f hs, Split_replicate_sep]
    rfl

theorem strip_split (path : GoString) :
    ∃ m, path = filepath.stripTrailingSeps path ++ List.replicate m sep := by
  refine ⟨(path.reverse.takeWhile (fun c => c == sep)).length, ?_⟩
  unfold filepath.stripTrailingSeps
  have h1 : path.reverse.takeWhile (fun c => c == sep) =
      List.replicate (path.reverse.takeWhile (fun c => c == sep)).length sep := by
    rw [List.eq_replicate_iff]
    refine ⟨rfl, fun b hb => ?_⟩
    have := List.mem_takeWhile_imp hb
    simpa using this
  have h2 := List.takeWhile_append_dropWhile (fun c => c == sep) path.reverse
  have h3 : path = (path.reverse.dropWhile (fun c => c == sep)).reverse ++
      (path.reverse.takeWhile (fun c => c == sep)).reverse := by
    rw [← List.reverse_append, h2, List.reverse_reverse]
  conv_lhs => rw [h3]
  congr 1
  conv_lhs => rw [h1]
  simp

theorem strip_last_ne_sep (path : GoString) (h : filepath.stripTrailingSeps path ≠ []) :
    ∃ s c, filepath.stripTrailingSeps path = s ++ [c] ∧ c ≠ sep := by
  unfold filepath.stripTrailingSeps at h ⊢
  cases hd : path.reverse.dropWhile (fun c => c == sep) with
  | nil => rw [hd] at h; simp at h
  | cons c rest =>
    have := List.head_dropWhile_not (fun c => c == sep) path.reverse (by rw [hd]; simp)
    simp only [hd, List.head_cons] at this
    exact ⟨rest.reverse, c, by simp, by simpa using this⟩

theorem lastElement_snoc_ne (s : GoString) (c : UInt8) (hc : c ≠ sep) :
    filepath.lastElement (s ++ [c]) ≠ [] := by
  unfold filepath.lastElement
  simp [List.takeWhile, hc]

/-- A path that is not made of separators only: the bytes before its last
element, the last element, and the trailing separators. -/
theorem path_split_last (path : GoString) (h : filepath.stripTrailingSeps path ≠ []) :
    ∃ A m, path = A ++ os.lastName path ++ List.replicate m sep ∧
      filepath.stripTrailingSeps path = A ++ os.lastName path ∧
      os.lastName path ≠ [] ∧ sep ∉ os.lastName path ∧
      (A = [] ∨ ∃ A0, A = A0 ++ [sep]) := by
  obtain ⟨m, hm⟩ := strip_split path
  obtain ⟨A, hA, hA2⟩ := lastElement_split (filepath.stripTrailingSeps path)
  obtain ⟨s, c, hsc, hc⟩ := strip_last_ne_sep path h
  refine ⟨A, m, ?_, hA, ?_, lastElement_no_sep _, hA2⟩
  · unfold os.lastName
    rw [← hA]
    exact hm
  · unfold os.lastName
    rw [hsc]
    exact lastElement_snoc_ne s c hc

/-- The elements of a path, seen from its last element: the elements of the
parent that `MkdirAll` makes first, the last element, and the empty elements of
the trailing separators. -/
theorem Split_parent (path : GoString) (h : filepath.stripTrailingSeps path ≠ []) :
    ∃ P m, strings.Split path = P ++ os.lastName path :: List.replicate m [] ∧
      os.lastName path ≠ [] ∧ sep ∉ os.lastName path ∧
      ((1 < (filepath.stripTrailingSeps path).length - (os.lastName path).length ∧
          P = strings.Split (path.take
            ((filepath.stripTrailingSeps path).length - (os.lastName path).length - 1)) ∧
          path.take ((filepath.stripTrailingSeps path).length -
            (os.lastName path).length - 1) ≠ [] ∧
          filepath.isRooted (path.take ((filepath.stripTrailingSeps path).length -
            (os.lastName path).length - 1)) = filepath.isRooted path ∧
          (path.take ((filepath.stripTrailingSeps path).length -
            (os.lastName path).length - 1)).length < path.length) ∨
        (¬ 1 < (filepath.stripTrailingSeps path).length - (os.lastName path).length ∧
          (P = [] ∨ P = [[]]))) := by
  obtain ⟨A, m, hpath, hstrip, hne, hsep, hA⟩ := path_split_last path h
  have hj : (filepath.stripTrailingSeps path).length - (os.lastName path).length = A.length := by
    rw [hstrip]; simp
  rw [hj]
  rcases hA with rfl | ⟨A0, rfl⟩
  · refine ⟨[], m, ?_, hne, hsep, Or.inr ⟨by simp, Or.inl rfl⟩⟩
    conv_lhs => rw [hpath]
    simp only [List.nil_append]
    exact Split_last_seps _ hsep m
  · have hsp : strings.Split path =
        strings.Split A0 ++ os.lastName path :: List.replicate m [] := by
      conv_lhs => rw [hpath]
      have : A0 ++ [sep] ++ os.lastName path ++ List.replicate m sep =
          A0 ++ sep :: (os.lastName path ++ List.replicate m sep) := by simp
      rw [this, Split_append_sep, Split_last_seps _ hsep m]
    have htake : path.take A0.length = A0 := by
      conv_lhs => rw [hpath]
      simp [List.append_assoc, List.take_left']
    by_cases h0 : A0 = []
    · subst h0
      exact ⟨[[]], m, by simpa [strings.Split] using hsp, hne, hsep,
        Or.inr ⟨by simp, Or.inr rfl⟩⟩
    · have hlen : 1 < (A0 ++ [sep]).length := by
        have : 0 < A0.length := List.length_pos.mpr h0
        simp; omega
      refine ⟨strings.Split A0, m, hsp, hne, hsep, Or.inl ⟨hlen, ?_, ?_, ?_, ?_⟩⟩
      · simp only [List.length_append, List.length_singleton, Nat.add_sub_cancel]
        rw [htake]
      · simp only [List.length_append, List.length_singleton, Nat.add_sub_cancel]
        rw [htake]; exact h0
      · simp only [List.length_append, List.length_singleton, Nat.add_sub_cancel]
        rw [htake]
        conv_rhs => rw [hpath]
        rw [List.append_assoc, List.append_assoc, isRooted_append A0 _ h0]
      · simp only [List.length_append, List.length_singleton, Nat.add_sub_cancel]
        rw [htake]
        conv_rhs => rw [hpath]
        simp

theorem foldl_cleanStep_empties (r : Bool) (m : Nat) (st : List GoString × Nat) :
    (List.replicate m ([] : GoString)).foldl (filepath.cleanStep r) st = st := by
  induction m with
  | zero => rfl
  | succ m ih => simp [List.replicate_succ, filepath.cleanStep, ih]

/-- A path of separators only names the root. -/
theorem resolve_seps (path : GoString)
    (h : filepath.stripTrailingSeps path = []) : (resolve path).isBase = true := by
  obtain ⟨m, hm⟩ := strip_split path
  rw [h, List.nil_append] at hm
  unfold resolve filepath.cleanElems
  rw [hm, Split_replicate_sep, foldl_cleanStep_empties]
  rfl

theorem Stat_descends (fs : FS) (path : GoString) (hne : path ≠ [])
    (hd : descends path = true) :
    os.Stat fs path =
      match fs.kind (resolve path) with
      | Kind.absent => Except.error Err.notExist
      | Kind.file => Except.ok false
      | Kind.dir => Except.ok true := by
  unfold os.Stat
  rw [lookup_descends fs path hne hd]

theorem Mkdir_descends (env : Env) (path : GoString) (perm : Nat) (fs : FS) (hne : path ≠ [])
    (hd : descends path = true) :
    os.Mkdir env path perm fs =
      if os.lastName path = [dot] ∨ os.lastName path = [dot, dot] then
        (some (if fs.kind (resolve path) = Kind.absent then Err.notExist else Err.exist), fs)
      else os.mkdirAt env (resolve path) perm fs := by
  unfold os.Mkdir
  rw [lookup_descends fs path hne hd]

/-- Cleaning elements that are no file names leaves a stack of `..` elements. -/
theorem foldl_cleanStep_nonNames (r : Bool) (es : List GoString) (hs : ∀ e ∈ es, sep ∉ e)
    (hn : ∀ e ∈ es, ¬ isName e) (st : List GoString × Nat)
    (h1 : ∀ x ∈ st.1, x = [dot, dot]) (h2 : st.1.length ≤ st.2) :
    (∀ x ∈ (es.foldl (filepath.cleanStep r) st).1, x = [dot, dot]) ∧
      (es.foldl (filepath.cleanStep r) st).1.length ≤ (es.foldl (filepath.cleanStep r) st).2 := by
  induction es generalizing st with
  | nil => exact ⟨h1, h2⟩
  | cons e es ih =>
    simp only [List.foldl_cons]
    apply ih (fun x hx => hs x (by simp [hx])) (fun x hx => hn x (by simp [hx]))
    · have hne := hn e (by simp)
      have hse := hs e (by simp)
      unfold filepath.cleanStep
      by_cases c1 : e = []
      · simpa [c1] using h1
      · by_cases c2 : e = [dot]
        · simpa [c2] using h1
        · by_cases c3 : e = [dot, dot]
          · have : ¬ st.1.length > st.2 := by omega
            subst c3
            simp only [if_neg c1, if_neg c2, if_true, if_neg this]
            cases r with
            | true => simpa using h1
            | false =>
              simp only [Bool.not_false, if_true]
              intro x hx
              rcases List.mem_cons.mp hx with h | h
              · exact h
              · exact h1 x h
          · exact absurd ⟨c1, hse, c2, c3⟩ hne
    · exact cleanStep_nonName r st e (hs e (by simp)) (hn e (by simp)) h2

theorem Descending_before_dotdot (P rest : List GoString) (h : Descending (P ++ [dot, dot] :: rest)) :
    ∀ e ∈ P, ¬ isName e := by
  induction P with
  | nil => simp
  | cons e P ih =>
    unfold Descending at h
    by_cases hn : isName e
    · simp only [List.cons_append, List.dropWhile, hn, not_true_eq_false, decide_False,
        List.all_eq_true] at h
      have := h [dot, dot] (by simp)
      simp at this
    · simp only [List.cons_append, List.dropWhile, hn, not_false_eq_true, decide_True] at h
      intro x hx
      rcases List.mem_cons.mp hx with h1 | h1
      · rw [h1]; exact hn
      · exact ih h x h1

theorem not_base_elems (k : Key) (h : k.isBase = false) : k.elems.reverse ≠ [] := by
  intro h0
  have : k.elems = [] := by simpa using h0
  simp [Key.isBase, this] at h

/-- On a descending path the recursion of `os.MkdirAll` is the recursion on the
elements of the resolved path. -/
theorem mkdirAllLoop_lexical (env : Env) (perm : Nat) (n : Nat) :
    ∀ (path : GoString) (fs : FS), path.length < n → path ≠ [] → descends path = true →
      os.mkdirAllLoop env perm n path fs =
        os.mkdirAllAux env (resolve path).rooted perm (resolve path).elems.reverse fs := by
  induction n with
  | zero => intro path fs h; omega
  | succ n ih =>
    intro path fs hlen hne hd
    rw [os.mkdirAllLoop, Stat_descends fs path hne hd]
    rcases hk : fs.kind (resolve path) with _ | _ | _
    · -- nothing at the path: the parent is made first
      simp only
      have hb := ((kind_absent_iff _ _).mp hk).1
      have hstrip : filepath.stripTrailingSeps path ≠ [] := by
        intro h0
        rw [resolve_seps path h0] at hb
        cases hb
      obtain ⟨P, m, hsplit, hlne, hlsep, hP⟩ := Split_parent path hstrip
      have hres : resolve path = ⟨filepath.isRooted path,
          (filepath.cleanStep (filepath.isRooted path)
            (P.foldl (filepath.cleanStep (filepath.isRooted path)) ([], 0))
            (os.lastName path)).1.reverse⟩ := by
        unfold resolve filepath.cleanElems
        rw [hsplit, List.foldl_append, List.foldl_cons, foldl_cleanStep_empties]
      -- the recursive call is the recursion on the elements before the last one
      have hrec : (if (filepath.stripTrailingSeps path).length - (os.lastName path).length > 1
          then os.mkdirAllLoop env perm n (path.take
            ((filepath.stripTrailingSeps path).length - (os.lastName path).length - 1)) fs
          else (none, fs)) =
          os.mkdirAllAux env (filepath.isRooted path) perm
            (P.foldl (filepath.cleanStep (filepath.isRooted path)) ([], 0)).1 fs := by
        rcases hP with ⟨hj, hPe, hpne, hroot, hplen⟩ | ⟨hj, hPe⟩
        · rw [if_pos hj, ih _ fs (by omega) hpne (by
            have : Descending (strings.Split path) := hd
            rw [hsplit, hPe] at this
            exact Descending_append_left _ _ this)]
          unfold resolve filepath.cleanElems
          simp only [List.reverse_reverse]
          rw [hroot, ← hPe]
        · rw [if_neg hj]
          rcases hPe with rfl | rfl
          · rfl
          · simp [filepath.cleanStep, os.mkdirAllAux]
      rw [hrec]
      generalize hS : P.foldl (filepath.cleanStep (filepath.isRooted path)) ([], 0) = S at hres hrec
      by_cases hname : isName (os.lastName path)
      · -- the last element is a file name
        rw [cleanStep_name _ _ _ hname] at hres
        have hkey : (⟨filepath.isRooted path, (os.lastName path :: S.1).reverse⟩ : Key) =
            resolve path := hres.symm
        rw [hres]
        simp only [List.reverse_reverse]
        rw [mkdirAllAux_cons_absent env _ perm _ _ fs (by rw [hkey]; exact hk)]
        have hkeep := mkdirAllAux_keeps_child env (filepath.isRooted path) perm
          (os.lastName path) S.1 fs
        rcases hr : os.mkdirAllAux env (filepath.isRooted path) perm S.1 fs with ⟨_ | err, fs1⟩
        · rw [hr] at hkeep
          simp only at hkeep ⊢
          rw [hkey] at hkeep ⊢
          have hk1 : fs1.kind (resolve path) = Kind.absent := by
            rw [kind_eq_of_eq fs fs1 _ hkeep]; exact hk
          have hl : ¬ (os.lastName path = [dot] ∨ os.lastName path = [dot, dot]) := by
            intro h; rcases h with h | h
            · exact hname.2.2.1 h
            · exact hname.2.2.2 h
          rw [Mkdir_descends env path perm fs1 hne hd, if_neg hl]
          rcases Mkdir_cases env (resolve path) perm fs1 with ⟨e1, _, h1⟩ | ⟨h1, _⟩
          · rw [h1]
            simp only
            rw [Stat_descends fs1 path hne hd, hk1]
          · rw [h1]
        · rfl
      · -- the last element is `.` or `..`
        have hcases : os.lastName path = [dot] ∨ os.lastName path = [dot, dot] := by
          by_contra hc
          push_neg at hc
          exact hname ⟨hlne, hlsep, hc.1, hc.2⟩
        rcases hcases with hdot | hdd
        · have hcs : filepath.cleanStep (filepath.isRooted path) S (os.lastName path) = S := by
            rw [hdot]; simp [filepath.cleanStep]
          rw [hcs] at hres
          rw [hres]
          simp only [List.reverse_reverse]
          rcases hr : os.mkdirAllAux env (filepath.isRooted path) perm S.1 fs with
            ⟨_ | err, fs1⟩
          · simp only
            have hdir := mkdirAllAux_success_dir env (filepath.isRooted path) perm S.1 fs
              (by rw [hr])
            rw [hr, ← hres] at hdir
            simp only at hdir
            rw [Mkdir_descends env path perm fs1 hne hd, if_pos (Or.inl hdot)]
            simp only
            rw [Stat_descends fs1 path hne hd, hdir]
          · rfl
        · -- a `..` element that follows no file name: the path names a base directory
          exfalso
          have hdesc : Descending (strings.Split path) := hd
          rw [hsplit, hdd] at hdesc
          have hnn := Descending_before_dotdot P _ hdesc
          have hsf : ∀ e ∈ P, sep ∉ e := by
            intro e he
            exact Split_sep_free path e (by rw [hsplit]; simp [he])
          have hinv := foldl_cleanStep_nonNames (filepath.isRooted path) (P ++ [[dot, dot]])
            (by
              intro e he
              rcases List.mem_append.mp he with h | h
              · exact hsf e h
              · simp only [List.mem_singleton] at h; rw [h]; decide)
            (by
              intro e he
              rcases List.mem_append.mp he with h | h
              · exact hnn e h
              · simp only [List.mem_singleton] at h; rw [h]; decide)
            ([], 0) (by simp) (by simp)
          rw [List.foldl_append, hS] at hinv
          simp only [List.foldl_cons, List.foldl_nil] at hinv
          rw [hdd] at hres
          have : (resolve path).isBase = true := by
            rw [hres]
            simp only [Key.isBase, List.all_eq_true, List.mem_reverse]
            intro x hx
            simpa using hinv.1 x hx
          rw [this] at hb
          cases hb
    · -- a file
      simp only
      have hb := ((kind_file_iff _ _).mp hk).1
      obtain ⟨e, re, hre⟩ := List.exists_cons_of_ne_nil (not_base_elems _ hb)
      rw [hre, mkdirAllAux_cons_file]
      rw [← hre, List.reverse_reverse]
      exact hk
    · -- a directory
      simp only
      cases hre : (resolve path).elems.reverse with
      | nil => rfl
      | cons e re =>
        rw [mkdirAllAux_cons_dir]
        rw [← hre, List.reverse_reverse]
        exact hk

/-- On a descending path `os.MkdirAll` makes the directories of the resolved
path. -/
theorem MkdirAll_lexical (env : Env) (path : GoString) (perm : Nat) (fs : FS)
    (hne : path ≠ []) (hd : descends path = true) :
    os.MkdirAll env path perm fs =
      os.mkdirAllAux env (resolve path).rooted perm (resolve path).elems.reverse fs :=
  mkdirAllLoop_lexical env perm _ path fs (Nat.lt_succ_self _) hne hd

/-- The function `os.Mkdir` fails without effect, or adds one directory at the
resolved path, where nothing existed and the parent is a directory. -/
theorem MkdirPath_cases (env : Env) (path : GoString) (perm : Nat) (fs : FS) :
    (∃ e, e.plain ∧ os.Mkdir env path perm fs = (some e, fs)) ∨
    (os.Mkdir env path perm fs =
        (none, fs.set (resolve path) (Entry.dir (applyUmask env.umask perm))) ∧
      fs.kind (resolve path) = Kind.absent ∧ fs.kind (resolve path).parent = Kind.dir ∧
      env.denied (resolve path) = false) := by
  unfold os.Mkdir
  rcases hl : os.lookup fs path with err | k
  · left
    rcases lookup_error_plain fs path err hl with h | h <;> subst h
    · exact ⟨Err.notDir, by decide, rfl⟩
    · exact ⟨Err.notExist, by decide, rfl⟩
  · obtain ⟨hk, _⟩ := lookup_ok_key fs path k hl
    subst hk
    simp only
    by_cases hd : os.lastName path = [dot] ∨ os.lastName path = [dot, dot]
    · rw [if_pos hd]
      left
      by_cases ha : fs.kind (resolve path) = Kind.absent
      · exact ⟨Err.notExist, by decide, by rw [if_pos ha]⟩
      · exact ⟨Err.exist, by decide, by rw [if_neg ha]⟩
    · rw [if_neg hd]
      exact Mkdir_cases env (resolve path) perm fs

theorem Stat_dir (fs : FS) (path : GoString) (h : os.Stat fs path = Except.ok true) :
    fs.kind (resolve path) = Kind.dir := by
  unfold os.Stat at h
  rcases hl : os.lookup fs path with err | k
  · rw [hl] at h; cases h
  · obtain ⟨hk, _⟩ := lookup_ok_key fs path k hl
    subst hk
    rw [hl] at h
    simp only at h
    rcases hkind : fs.kind (resolve path) with _ | _ | _
    · rw [hkind] at h; cases h
    · rw [hkind] at h; cases h
    · rfl

/-- The recursion of `os.MkdirAll` only adds directories, and its errors are
plain. -/
theorem mkdirAllLoop_spec (env : Env) (perm : Nat) (n : Nat) (path : GoString) (fs : FS) :
    DirExt fs (os.mkdirAllLoop env perm n path fs).2 ∧
    (∀ e, (os.mkdirAllLoop env perm n path fs).1 = some e → e.plain) := by
  induction n generalizing path fs with
  | zero => exact ⟨DirExt_refl fs, by intro e he; cases he; decide⟩
  | succ n ih =>
    rw [os.mkdirAllLoop]
    rcases os.Stat fs path with err | b
    · simp only
      have hrec : DirExt fs (if (filepath.stripTrailingSeps path).length -
            (os.lastName path).length > 1
          then os.mkdirAllLoop env perm n (path.take
            ((filepath.stripTrailingSeps path).length - (os.lastName path).length - 1)) fs
          else (none, fs)).2 ∧
          ∀ e, (if (filepath.stripTrailingSeps path).length - (os.lastName path).length > 1
          then os.mkdirAllLoop env perm n (path.take
            ((filepath.stripTrailingSeps path).length - (os.lastName path).length - 1)) fs
          else (none, fs)).1 = some e → e.plain := by
        split
        · exact ih _ fs
        · exact ⟨DirExt_refl fs, by intro e he; cases he⟩
      rcases hr : (if (filepath.stripTrailingSeps path).length - (os.lastName path).length > 1
          then os.mkdirAllLoop env perm n (path.take
            ((filepath.stripTrailingSeps path).length - (os.lastName path).length - 1)) fs
          else (none, fs)) with ⟨_ | e1, fs1⟩
      · rw [hr] at hrec
        simp only at hrec ⊢
        rcases MkdirPath_cases env path perm fs1 with ⟨e2, hp, h⟩ | ⟨h, ha, _, _⟩
        · rw [h]
          simp only
          rcases os.Stat fs1 path with err2 | b2
          · exact ⟨hrec.1, by intro x hx; cases hx; exact hp⟩
          · cases b2
            · exact ⟨hrec.1, by intro x hx; cases hx; exact hp⟩
            · exact ⟨hrec.1, by intro x hx; cases hx⟩
        · rw [h]
          exact ⟨DirExt_trans _ _ _ hrec.1 (DirExt_set _ _ _ ha), by intro x hx; cases hx⟩
      · rw [hr] at hrec
        exact hrec
    · cases b
      · exact ⟨DirExt_refl fs, by intro x hx; cases hx; decide⟩
      · exact ⟨DirExt_refl fs, by intro x hx; cases hx⟩

/-- The function `os.MkdirAll` only adds directories, and its errors are plain. -/
theorem MkdirAll_spec (env : Env) (path : GoString) (perm : Nat) (fs : FS) :
    DirExt fs (os.MkdirAll env path perm fs).2 ∧
    (∀ e, (os.MkdirAll env path perm fs).1 = some e → e.plain) :=
  mkdirAllLoop_spec env perm _ path fs

theorem strip_length_le (path : GoString) :
    (filepath.stripTrailingSeps path).length ≤ path.length := by
  obtain ⟨m, hm⟩ := strip_split path
  conv_rhs => rw [hm]
  simp

/-- The bound on the depth of the recursion of `os.MkdirAll` is never reached:
every bound above the length of the path gives the same result. -/
theorem mkdirAllLoop_fuel (env : Env) (perm : Nat) (n m : Nat) (path : GoString) (fs : FS)
    (hn : path.length < n) (hm : path.length < m) :
    os.mkdirAllLoop env perm n path fs = os.mkdirAllLoop env perm m path fs := by
  induction n generalizing m path fs with
  | zero => omega
  | succ n ih =>
    cases m with
    | zero => omega
    | succ m =>
      rw [os.mkdirAllLoop, os.mkdirAllLoop]
      have hrec : (if (filepath.stripTrailingSeps path).length - (os.lastName path).length > 1
          then os.mkdirAllLoop env perm n (path.take
            ((filepath.stripTrailingSeps path).length - (os.lastName path).length - 1)) fs
          else (none, fs)) =
          (if (filepath.stripTrailingSeps path).length - (os.lastName path).length > 1
          then os.mkdirAllLoop env perm m (path.take
            ((filepath.stripTrailingSeps path).length - (os.lastName path).length - 1)) fs
          else (none, fs)) := by
        split
        · have h1 := strip_length_le path
          have h2 : (path.take ((filepath.stripTrailingSeps path).length -
              (os.lastName path).length - 1)).length ≤
              (filepath.stripTrailingSeps path).length - (os.lastName path).length - 1 :=
            List.length_take_le _ _
          exact ih m _ fs (by omega) (by omega)
        · rfl
      simp only [hrec]

/-- The function `os.MkdirAll` with any larger bound on its recursion. -/
theorem MkdirAll_fuel (env : Env) (path : GoString) (perm : Nat) (fs : FS) (n : Nat)
    (hn : path.length < n) :
    os.mkdirAllLoop env perm n path fs = os.MkdirAll env path perm fs :=
  mkdirAllLoop_fuel env perm n _ path fs hn (Nat.lt_succ_self _)

/-- Opening a file for writing fails without effect, or replaces the entry at
the path, which was not a directory, by an empty file. -/
theorem openAt_cases (env : Env) (k : Key) (perm : Nat) (fs : FS) :
    (∃ e, e.plain ∧ os.openAt env k perm fs = (some e, fs)) ∨
    (∃ p, os.openAt env k perm fs = (none, fs.set k (Entry.file p [])) ∧
      k.isBase = false ∧ fs.kind k ≠ Kind.dir ∧
      (p = applyUmask env.umask perm ∨ ∃ d, fs k = some (Entry.file p d)) ∧
      (fs k = none → p = applyUmask env.umask perm) ∧
      (∀ p0 d0, fs k = some (Entry.file p0 d0) → p = p0)) := by
  unfold os.openAt
  rcases hk : fs.kind k with _ | _ | _
  · simp only
    have hb := ((kind_absent_iff _ _).mp hk)
    by_cases h2 : fs.kind k.parent = Kind.dir
    · cases h3 : env.denied k with
      | true => left; exact ⟨Err.permission, by decide, by simp [h2]⟩
      | false =>
        right
        refine ⟨_, by simp [h2], hb.1, by simp, Or.inl rfl, fun _ => rfl, ?_⟩
        intro p0 d0 h0; rw [hb.2] at h0; cases h0
    · left; exact ⟨Err.notExist, by decide, by simp [h2]⟩
  · simp only
    obtain ⟨hb, p0, d0, hf⟩ := (kind_file_iff _ _).mp hk
    cases h3 : env.denied k with
    | true => left; exact ⟨Err.permission, by decide, by simp⟩
    | false =>
      right
      refine ⟨p0, by simp [hf], hb, by simp, Or.inr ⟨d0, hf⟩, ?_, ?_⟩
      · intro hn; rw [hn] at hf; cases hf
      · intro p1 d1 h1; rw [hf] at h1; cases h1; rfl
  · left; exact ⟨Err.isDir, by decide, rfl⟩

theorem set_set (fs : FS) (k : Key) (a b : Entry) : (fs.set k a).set k b = fs.set k b := by
  funext x
  by_cases h : x = k <;> simp [FS.set, h]

theorem writeKey_after_set (fs : FS) (k : Key) (p : Nat) (d data : List UInt8) :
    os.writeKey k data (fs.set k (Entry.file p d)) = fs.set k (Entry.file p data) := by
  unfold os.writeKey
  simp only [FS.set, if_true]
  exact set_set fs _ _ _

theorem writeHandle_after_set (fs : FS) (path : GoString) (p : Nat) (d data : List UInt8) :
    os.writeHandle path data (fs.set (resolve path) (Entry.file p d)) =
      fs.set (resolve path) (Entry.file p data) :=
  writeKey_after_set fs _ p d data

/-- The function `ioutil.WriteFile` at a resolved path: the open fails without
effect, or the entry at the path, which was not a directory, is replaced by a
file; the file holds the bytes written, all of them when the call succeeds and
the first of them when the write fails. -/
theorem writeFileAt_cases (env : Env) (k : Key) (data : List UInt8) (perm : Nat) (fs : FS) :
    (∃ e, e.plain ∧ os.writeFileAt env k data perm fs = (some e, fs)) ∨
    (∃ p, (os.writeFileAt env k data perm fs = (none, fs.set k (Entry.file p data)) ∨
        ∃ n, env.writeFails k = some n ∧ os.writeFileAt env k data perm fs =
          (some Err.write, fs.set k (Entry.file p (data.take n)))) ∧
      k.isBase = false ∧ fs.kind k ≠ Kind.dir ∧
      (p = applyUmask env.umask perm ∨ ∃ d, fs k = some (Entry.file p d)) ∧
      (fs k = none → p = applyUmask env.umask perm) ∧
      (∀ p0 d0, fs k = some (Entry.file p0 d0) → p = p0)) := by
  unfold os.writeFileAt
  rcases openAt_cases env k perm fs with ⟨e, hp, h⟩ | ⟨p, h, h1, h2, h3, h4, h5⟩
  · left; exact ⟨e, hp, by rw [h]⟩
  · right
    refine ⟨p, ?_, h1, h2, h3, h4, h5⟩
    rw [h]
    simp only
    cases hw : env.writeFails k with
    | none => left; simp only; rw [writeKey_after_set]
    | some n => right; exact ⟨n, rfl, by simp only; rw [writeKey_after_set]⟩

/-- The function `ioutil.WriteFile` at a resolved path fails without effect, or
puts a file at the path; the file holds the bytes that were passed when the
call succeeds. -/
theorem writeFileAt_effect (env : Env) (k : Key) (data : List UInt8) (perm : Nat) (fs : FS) :
    (∃ e, e.plain ∧ os.writeFileAt env k data perm fs = (some e, fs)) ∨
    (∃ p d r, os.writeFileAt env k data perm fs = (r, fs.set k (Entry.file p d)) ∧
      (r = none → d = data) ∧ (∀ e, r = some e → e.plain) ∧
      k.isBase = false ∧ fs.kind k ≠ Kind.dir ∧
      (p = applyUmask env.umask perm ∨ ∃ d0, fs k = some (Entry.file p d0)) ∧
      (fs k = none → p = applyUmask env.umask perm) ∧
      (∀ p0 d0, fs k = some (Entry.file p0 d0) → p = p0)) := by
  rcases writeFileAt_cases env k data perm fs with h | ⟨p, h | ⟨n, _, h⟩, h1, h2, h3, h4, h5⟩
  · exact Or.inl h
  · have hr : ∀ e, (none : Option Err) = some e → e.plain := by intro e he; cases he
    exact Or.inr ⟨p, data, none, h, fun _ => rfl, hr, h1, h2, h3, h4, h5⟩
  · have hd : (some Err.write : Option Err) = none → data.take n = data := by
      intro he; cases he
    have hr : ∀ e, some Err.write = some e → e.plain := by intro e he; cases he; decide
    exact Or.inr ⟨p, data.take n, some Err.write, h, hd, hr, h1, h2, h3, h4, h5⟩

/-- The function `os.OpenFile` fails without effect, or replaces the entry at
the resolved path, which was not a directory, by an empty file. -/
theorem OpenFile_cases (env : Env) (path : GoString) (perm : Nat) (fs : FS) :
    (∃ e, e.plain ∧ os.OpenFile env path perm fs = (some e, fs)) ∨
    (∃ p, os.OpenFile env path perm fs = (none, fs.set (resolve path) (Entry.file p [])) ∧
      (resolve path).isBase = false ∧ fs.kind (resolve path) ≠ Kind.dir ∧
      (p = applyUmask env.umask perm ∨ ∃ d, fs (resolve path) = some (Entry.file p d)) ∧
      (fs (resolve path) = none → p = applyUmask env.umask perm)) := by
  unfold os.OpenFile
  rcases hl : os.lookup fs path with err | k
  · left
    rcases lookup_error_plain fs path err hl with h | h <;> subst h
    · exact ⟨Err.notDir, by decide, rfl⟩
    · exact ⟨Err.notExist, by decide, rfl⟩
  · obtain ⟨hk, _⟩ := lookup_ok_key fs path k hl
    subst hk
    simp only
    by_cases hn : isName (filepath.lastElement path)
    · rw [if_pos hn]
      rcases openAt_cases env (resolve path) perm fs with h | ⟨p, h1, h2, h3, h4, h5, _⟩
      · exact Or.inl h
      · exact Or.inr ⟨p, h1, h2, h3, h4, h5⟩
    · rw [if_neg hn]
      left
      by_cases hd : fs.kind (resolve path) = Kind.dir
      · exact ⟨Err.isDir, by decide, by rw [if_pos hd]⟩
      · exact ⟨Err.notExist, by decide, by rw [if_neg hd]⟩

theorem OpenFile_plain (env : Env) (path : GoString) (perm : Nat)
    (fs : FS) : ∀ e, (os.OpenFile env path perm fs).1 = some e → e.plain := by
  intro e he
  rcases OpenFile_cases env path perm fs with ⟨e1, hp, h⟩ | ⟨p, h, _⟩
  · rw [h] at he; cases he; exact hp
  · rw [h] at he; cases he

/-- The function `ioutil.WriteFile` fails without effect when the file cannot be
opened; otherwise the entry at the resolved path, which was not a directory, is
replaced by a file that holds the bytes written: all of them when the call
succeeds, the first of them when the write fails. -/
theorem WriteFile_cases (env : Env) (path : GoString) (data : List UInt8) (perm : Nat)
    (fs : FS) :
    (∃ e, e.plain ∧ ioutil.WriteFile env path data perm fs = (some e, fs)) ∨
    (∃ p, (ioutil.WriteFile env path data perm fs =
          (none, fs.set (resolve path) (Entry.file p data)) ∨
        ∃ n, env.writeFails (resolve path) = some n ∧
          ioutil.WriteFile env path data perm fs =
            (some Err.write, fs.set (resolve path) (Entry.file p (data.take n)))) ∧
      (resolve path).isBase = false ∧ fs.kind (resolve path) ≠ Kind.dir ∧
      (p = applyUmask env.umask perm ∨ ∃ d, fs (resolve path) = some (Entry.file p d)) ∧
      (fs (resolve path) = none → p = applyUmask env.umask perm)) := by
  unfold ioutil.WriteFile
  rcases OpenFile_cases env path perm fs with ⟨e, hp, h⟩ | ⟨p, h, h1, h2, h3, h4⟩
  · left; exact ⟨e, hp, by rw [h]⟩
  · right
    refine ⟨p, ?_, h1, h2, h3, h4⟩
    rw [h]
    simp only
    cases hw : env.writeFails (resolve path) with
    | none => left; simp only; rw [writeHandle_after_set]
    | some n => right; exact ⟨n, rfl, by simp only; rw [writeHandle_after_set]⟩

theorem WriteFile_plain (env : Env) (path : GoString) (data : List UInt8) (perm : Nat)
    (fs : FS) : ∀ e, (ioutil.WriteFile env path data perm fs).1 = some e → e.plain := by
  intro e he
  rcases WriteFile_cases env path data perm fs with ⟨e1, hp, h⟩ | ⟨p, h | ⟨n, _, h⟩, _⟩
  · rw [h] at he; cases he; exact hp
  · rw [h] at he; cases he
  · rw [h] at he; cases he; decide

theorem render_ne_nil (r : Bool) (es : List GoString) : filepath.render r es ≠ [] := by
  unfold filepath.render
  simp only
  by_cases h : (if r = true then [sep] else []) ++ strings.Join es = []
  · rw [if_pos h]; simp
  · rw [if_neg h]; exact h

theorem Split_render (r : Bool) (e : GoString) (es : List GoString)
    (h : Canonical r (e :: es)) :
    strings.Split (filepath.render r (e :: es)) = (if r then [[]] else []) ++ e :: es := by
  have hsf : ∀ x ∈ e :: es, sep ∉ x := fun x hx => (Canonical_sep_free r _ h x hx).1
  cases r with
  | true =>
    have := Split_append_sep [] (strings.Join (e :: es))
    simp only [List.nil_append] at this
    rw [render_true, this, Split_Join _ (by simp) hsf]
    simp [strings.Split]
  | false =>
    rw [render_cons_false _ _ (Canonical_sep_free false _ h e (by simp)).2,
      Split_Join _ (by simp) hsf]
    simp

theorem Descending_of (pre ns : List GoString) (hpre : ∀ e ∈ pre, ¬ isName e)
    (hns : ∀ n ∈ ns, n ≠ [dot, dot]) : Descending (pre ++ ns) := by
  induction pre with
  | nil =>
    unfold Descending
    simp only [List.nil_append, List.all_eq_true]
    intro x hx
    simpa using hns x (List.dropWhile_subset _ hx)
  | cons e pre ih =>
    unfold Descending
    have hn := hpre e (by simp)
    simp only [List.cons_append, List.dropWhile, hn, not_false_eq_true, decide_True]
    exact ih (fun x hx => hpre x (by simp [hx]))

/-- A cleaned path descends. -/
theorem descends_render (r : Bool) (es : List GoString) (h : Canonical r es) :
    descends (filepath.render r es) = true := by
  cases es with
  | nil => cases r <;> decide
  | cons e es =>
    show Descending _
    rw [Split_render r e es h]
    obtain ⟨k, ns, hes, hn, _⟩ := h
    rw [hes, ← List.append_assoc]
    apply Descending_of
    · intro x hx
      rcases List.mem_append.mp hx with h1 | h1
      · cases r
        · simp at h1
        · simp only [if_true, List.mem_singleton] at h1
          rw [h1]; decide
      · rw [List.eq_of_mem_replicate h1]; decide
    · intro n hn1
      exact (hn n hn1).2.2.2

/-- A path in clean form is written from its resolved elements. -/
theorem Clean_fixed (path : GoString) (hc : filepath.Clean path = path) :
    path = filepath.render (resolve path).rooted (resolve path).elems := by
  conv_lhs => rw [← hc]
  rfl

theorem descends_clean (path : GoString) (hc : filepath.Clean path = path) :
    descends path = true ∧ path ≠ [] := by
  rw [Clean_fixed path hc]
  exact ⟨descends_render _ _ (cleanElems_canonical path), render_ne_nil _ _⟩

/-- On a path in clean form `os.MkdirAll` makes the directories of the resolved
path. -/
theorem MkdirAll_clean (env : Env) (path : GoString) (perm : Nat) (fs : FS)
    (hc : filepath.Clean path = path) :
    os.MkdirAll env path perm fs =
      os.mkdirAllAux env (resolve path).rooted perm (resolve path).elems.reverse fs :=
  MkdirAll_lexical env path perm fs (descends_clean path hc).2 (descends_clean path hc).1

/-- The last element of a path in clean form is a file name, unless the path
names a base directory. -/
theorem lastElement_clean (path : GoString) (hc : filepath.Clean path = path)
    (hb : (resolve path).isBase = false) : isName (filepath.lastElement path) := by
  obtain ⟨k, ns, hes, hn, _⟩ := cleanElems_canonical path
  have hres : (resolve path).elems = List.replicate k [dot, dot] ++ ns := hes
  rcases List.eq_nil_or_concat ns with h0 | ⟨ns1, f, h0⟩
  · exfalso
    subst h0
    simp only [Key.isBase, hres, List.append_nil, List.all_eq_false] at hb
    obtain ⟨x, hx, hx2⟩ := hb
    rw [List.eq_of_mem_replicate hx] at hx2
    simp at hx2
  · have hf : isName f := hn f (by rw [h0]; simp)
    have hpath := Clean_fixed path hc
    rw [hres, h0, List.concat_eq_append, ← List.append_assoc] at hpath
    rcases render_last (resolve path).rooted (List.replicate k [dot, dot] ++ ns1) f hf.1 with
      h | ⟨x, h⟩
    · rw [hpath, h, lastElement_of_no_sep f hf.2.1]; exact hf
    · rw [hpath, h, lastElement_append_sep x f hf.2.1]; exact hf

/-- On a path in clean form `os.OpenFile` opens the file at the resolved path. -/
theorem OpenFile_clean (env : Env) (path : GoString) (perm : Nat) (fs : FS)
    (hc : filepath.Clean path = path) :
    os.OpenFile env path perm fs = os.openAt env (resolve path) perm fs := by
  unfold os.OpenFile
  rw [lookup_descends fs path (descends_clean path hc).2 (descends_clean path hc).1]
  simp only
  by_cases hn : isName (filepath.lastElement path)
  · rw [if_pos hn]
  · rw [if_neg hn]
    have hb : (resolve path).isBase = true := by
      by_contra hb
      exact hn (lastElement_clean path hc (by simpa using hb))
    have hk := kind_base fs _ hb
    unfold os.openAt
    rw [hk]
    simp

/-- On a path in clean form `ioutil.WriteFile` writes the file at the resolved
path. -/
theorem WriteFile_clean (env : Env) (path : GoString) (data : List UInt8) (perm : Nat)
    (fs : FS) (hc : filepath.Clean path = path) :
    ioutil.WriteFile env path data perm fs = os.writeFileAt env (resolve path) data perm fs := by
  unfold ioutil.WriteFile os.writeFileAt os.writeHandle
  rw [OpenFile_clean env path perm fs hc]

theorem Clean_Join_two (d rel : GoString) (h : rel ≠ []) :
    filepath.Clean (filepath.Join [d, rel]) = filepath.Join [d, rel] := by
  by_cases hd : d = []
  · subst hd
    simp only [filepath.Join, ne_eq, not_true_eq_false, if_false, h, not_false_eq_true, if_true]
    exact Clean_idem _
  · simp only [filepath.Join, ne_eq, hd, not_false_eq_true, if_true]
    exact Clean_idem _

theorem Clean_Dir (path : GoString) : filepath.Clean (filepath.Dir path) = filepath.Dir path :=
  Clean_idem _

/-! ## The two callbacks -/

theorem copyStaticFn_noSkip (env : Env) (src dstBase : GoString) :
    NoSkip (copyStaticFn env src dstBase) := by
  intro path info err w herr e he
  unfold copyStaticFn at he
  cases err with
  | some e0 =>
    simp only [Option.some.injEq] at he
    subst he
    exact herr _ rfl
  | none =>
    simp only at he
    cases hrel : filepath.Rel src path with
    | none => rw [hrel] at he; simp only [Option.some.injEq] at he; subst he; decide
    | some rel =>
      rw [hrel] at he
      simp only at he
      cases info with
      | none => simp only [Option.some.injEq] at he; subst he; decide
      | some info =>
        simp only at he
        cases hd : info.isDir with
        | true =>
          rw [hd] at he
          simp only [if_true] at he
          exact (MkdirAll_spec env _ _ _).2 e he
        | false =>
          rw [hd] at he
          simp only [Bool.false_eq_true, if_false] at he
          cases hc : info.content with
          | none => rw [hc] at he; simp only [Option.some.injEq] at he; subst he; decide
          | some data =>
            rw [hc] at he
            exact WriteFile_plain env _ _ _ _ e he

/-- What `generate` does: directories are added for the output path; then
either an error is returned, or the output file holds the bytes that the
template wrote, and the progress line is printed exactly when no error is
returned. -/
theorem generate_spec (env : Env) (tmpl : Template) (outPath rel : GoString)
    (buf : List UInt8) (w : World) :
    ∃ fs1, (os.MkdirAll env (filepath.Dir outPath) ModePerm w.fs).2 = fs1 ∧
      DirExt w.fs fs1 ∧
      ((∃ e, e.plain ∧ generate env tmpl outPath rel buf w = (some e, { w with fs := fs1 })) ∨
       (∃ p title, deriveTitle rel = some title ∧
          (resolve outPath).isBase = false ∧ fs1.kind (resolve outPath) ≠ Kind.dir ∧
          (p = applyUmask env.umask 438 ∨ ∃ d, fs1 (resolve outPath) = some (Entry.file p d)) ∧
          (fs1 (resolve outPath) = none → p = applyUmask env.umask 438) ∧
          ((tmpl.execute (str "base.html") ⟨title, buf⟩).2 = true ∧
            generate env tmpl outPath rel buf w =
              (some Err.execute, World.mk (fs1.set (resolve outPath)
                (Entry.file p (tmpl.execute (str "base.html") ⟨title, buf⟩).1)) w.out) ∨
           (tmpl.execute (str "base.html") ⟨title, buf⟩).2 = false ∧
            generate env tmpl outPath rel buf w =
              (none, World.mk (fs1.set (resolve outPath)
                  (Entry.file p (tmpl.execute (str "base.html") ⟨title, buf⟩).1))
                (w.out ++ [str "Generated " ++ outPath]))))) := by
  obtain ⟨hext, hplain⟩ := MkdirAll_spec env (filepath.Dir outPath) ModePerm w.fs
  refine ⟨_, rfl, hext, ?_⟩
  unfold generate
  rcases hm : os.MkdirAll env (filepath.Dir outPath) ModePerm w.fs with ⟨_ | e, fs1⟩
  · simp only
    cases ht : deriveTitle rel with
    | none => left; exact ⟨Err.panic, by decide, rfl⟩
    | some title =>
      simp only
      unfold os.Create
      rcases OpenFile_cases env outPath 438 fs1 with ⟨e1, hp, h⟩ | ⟨p, h, hb, hk, hperm, hnew⟩
      · left; rw [h]; exact ⟨e1, hp, rfl⟩
      · right
        rw [h]
        simp only [writeHandle_after_set]
        refine ⟨p, title, rfl, hb, hk, hperm, hnew, ?_⟩
        cases hx : (tmpl.execute (str "base.html") ⟨title, buf⟩).2 with
        | true => left; simp
        | false => right; simp
  · left
    exact ⟨e, hplain e (by rw [hm]), rfl⟩

theorem generate_noSkip (env : Env) (tmpl : Template) (outPath rel : GoString)
    (buf : List UInt8) (w : World) :
    ∀ e, (generate env tmpl outPath rel buf w).1 = some e → e.plain := by
  intro e he
  obtain ⟨fs1, _, _, h⟩ := generate_spec env tmpl outPath rel buf w
  rcases h with ⟨e1, hp, h⟩ | ⟨p, title, _, _, _, _, _, ⟨_, h⟩ | ⟨_, h⟩⟩
  · rw [h] at he; cases he; exact hp
  · rw [h] at he; cases he; decide
  · rw [h] at he; cases he

theorem set_file_kind_file (fs : FS) (k : Key) (p : Nat) (d : List UInt8)
    (hb : k.isBase = false) (x : Key) (hx : fs.kind x = Kind.file) :
    (fs.set k (Entry.file p d)).kind x = Kind.file := by
  by_cases h : x = k
  · subst h; exact kind_set_file fs x p d hb
  · rw [kind_set_ne fs k x _ h]; exact hx

/-- The effect of `generate` on the printed lines and on the files. -/
theorem generate_effect (env : Env) (tmpl : Template) (outPath rel : GoString)
    (buf : List UInt8) (w : World) :
    (∀ k, w.fs.kind k = Kind.file → (generate env tmpl outPath rel buf w).2.fs.kind k = Kind.file) ∧
    (∀ e, (generate env tmpl outPath rel buf w).1 = some e →
      (generate env tmpl outPath rel buf w).2.out = w.out) ∧
    ((generate env tmpl outPath rel buf w).1 = none →
      (generate env tmpl outPath rel buf w).2.out = w.out ++ [str "Generated " ++ outPath] ∧
      (generate env tmpl outPath rel buf w).2.fs.kind (resolve outPath) = Kind.file) := by
  obtain ⟨fs1, _, hext, h⟩ := generate_spec env tmpl outPath rel buf w
  rcases h with ⟨e1, hp, h⟩ | ⟨p, title, _, hb, _, _, _, ⟨_, h⟩ | ⟨_, h⟩⟩
  · rw [h]
    exact ⟨fun k hk => DirExt_kind_file _ _ hext k hk, fun _ _ => rfl, by simp⟩
  · rw [h]
    exact ⟨fun k hk => set_file_kind_file _ _ _ _ hb k (DirExt_kind_file _ _ hext k hk),
      fun _ _ => rfl, by simp⟩
  · rw [h]
    exact ⟨fun k hk => set_file_kind_file _ _ _ _ hb k (DirExt_kind_file _ _ hext k hk),
      by simp, fun _ => ⟨rfl, kind_set_file _ _ _ _ hb⟩⟩

theorem contentFn_noSkip (env : Env) (tmpl : Template) (contentDir outDir : GoString) :
    NoSkip (contentFn env tmpl contentDir outDir) := by
  intro path d err w herr e he
  unfold contentFn at he
  cases err with
  | some e0 =>
    simp only [Option.some.injEq] at he
    subst he
    exact herr _ rfl
  | none =>
    cases d with
    | none => simp only [Option.some.injEq] at he; subst he; decide
    | some d =>
      simp only at he
      split at he
      · cases he
      · split at he
        · cases he
        · split at he
          · cases he; decide
          · split at he
            · cases he; decide
            · split at he
              · cases he; decide
              · split at he
                · cases he; decide
                · exact generate_noSkip _ _ _ _ _ _ e he

/-- The effect of one call of the callback of the content walk: files stay
files, a failing call prints nothing, and a successful call prints the progress
line of its document, whose output file then exists. -/
theorem contentFn_effect (env : Env) (tmpl : Template) (contentDir outDir path : GoString)
    (d : Option FileInfo) (err : Option Err) (w : World) :
    (∀ k, w.fs.kind k = Kind.file →
      (contentFn env tmpl contentDir outDir path d err w).2.fs.kind k = Kind.file) ∧
    (∀ e, (contentFn env tmpl contentDir outDir path d err w).1 = some e →
      (contentFn env tmpl contentDir outDir path d err w).2.out = w.out) ∧
    ((contentFn env tmpl contentDir outDir path d err w).1 = none →
      (contentFn env tmpl contentDir outDir path d err w).2.out =
        w.out ++ docLine contentDir outDir ⟨path, d, err⟩ ∧
      ∀ p, docOutPath contentDir outDir ⟨path, d, err⟩ = some p →
        (contentFn env tmpl contentDir outDir path d err w).2.fs.kind (resolve p) = Kind.file) := by
  unfold contentFn docLine docOutPath
  cases err with
  | some e0 => simp
  | none =>
    cases d with
    | none => simp
    | some d =>
      simp only
      cases hdir : d.isDir with
      | true => simp
      | false =>
        simp only [Bool.false_eq_true, if_false]
        by_cases hext : filepath.Ext path ≠ str ".md"
        · simp [hext]
        · simp only [hext, if_false]
          cases hc : d.content with
          | none => simp
          | some input =>
            simp only
            cases hconv : env.convert input with
            | none => simp
            | some buf =>
              simp only
              cases hrel : filepath.Rel contentDir path with
              | none => simp
              | some rel =>
                simp only [Option.some_bind]
                cases hout : outPathOf outDir rel with
                | none => simp
                | some outPath =>
                  simp only
                  obtain ⟨h1, h2, h3⟩ := generate_effect env tmpl outPath rel buf w
                  refine ⟨h1, h2, fun hn => ?_⟩
                  obtain ⟨h4, h5⟩ := h3 hn
                  refine ⟨h4, fun p hp => ?_⟩
                  cases hp
                  exact h5

theorem runVisits_content_ok (env : Env) (tmpl : Template) (contentDir outDir : GoString)
    (vs : List Visit) (w : World)
    (h : (runVisits (contentFn env tmpl contentDir outDir) vs w).1 = none) :
    (runVisits (contentFn env tmpl contentDir outDir) vs w).2.out =
      w.out ++ vs.flatMap (docLine contentDir outDir) ∧
    (∀ k, w.fs.kind k = Kind.file →
      (runVisits (contentFn env tmpl contentDir outDir) vs w).2.fs.kind k = Kind.file) ∧
    (∀ u ∈ vs, ∀ p, docOutPath contentDir outDir u = some p →
      (runVisits (contentFn env tmpl contentDir outDir) vs w).2.fs.kind (resolve p) =
        Kind.file) := by
  induction vs generalizing w with
  | nil => simp [runVisits]
  | cons v vs ih =>
    obtain ⟨vp, vi, ve⟩ := v
    obtain ⟨e1, e2, e3⟩ := contentFn_effect env tmpl contentDir outDir vp vi ve w
    simp only [runVisits] at h ⊢
    rcases hv : contentFn env tmpl contentDir outDir vp vi ve w with ⟨_ | e, w1⟩
    · rw [hv] at h e1 e3
      simp only at h e1 e3 ⊢
      obtain ⟨i1, i2, i3⟩ := ih w1 h
      obtain ⟨e4, e5⟩ := e3 trivial
      refine ⟨?_, fun k hk => i2 k (e1 k hk), ?_⟩
      · rw [i1, e4]; simp
      · intro u hu p hp
        simp only [List.mem_cons] at hu
        rcases hu with rfl | hu
        · exact i2 _ (e5 p hp)
        · exact i3 u hu p hp
    · rw [hv] at h
      simp at h

/-- Claim C4: an error at any step of processing a document is returned by the
callback of the content walk and halts the whole traversal.  The callback returns
nil for a markup document only if reading, converting, the relative path, the
destination directory, the output file and the template all succeeded.  When the
calls before a failing call succeeded, the walk returns the error of the failing
call in the state that this call left: the lines printed are exactly the progress
lines of the documents visited before, whose output files exist, and no entry
after the failing one is visited. -/
theorem content_walk_halts_at_first_error (env : Env) (tmpl : Template)
    (contentDir outDir : GoString) (root : Option Node) (w : World)
    (pre post : List Visit) (v : Visit) (e : Err)
    (hsplit : visitsWalkDir contentDir root = pre ++ v :: post)
    (hpre : (runVisits (contentFn env tmpl contentDir outDir) pre w).1 = none)
    (hfail : (contentFn env tmpl contentDir outDir v.path v.info v.err
      (runVisits (contentFn env tmpl contentDir outDir) pre w).2).1 = some e) :
    filepath.WalkDir contentDir root (contentFn env tmpl contentDir outDir) w =
      (some e, (contentFn env tmpl contentDir outDir v.path v.info v.err
        (runVisits (contentFn env tmpl contentDir outDir) pre w).2).2) ∧
    (contentFn env tmpl contentDir outDir v.path v.info v.err
        (runVisits (contentFn env tmpl contentDir outDir) pre w).2).2.out =
      w.out ++ pre.flatMap (docLine contentDir outDir) ∧
    (∀ u ∈ pre, ∀ p, docOutPath contentDir outDir u = some p →
      (contentFn env tmpl contentDir outDir v.path v.info v.err
        (runVisits (contentFn env tmpl contentDir outDir) pre w).2).2.fs.kind (resolve p) =
          Kind.file) ∧
    (∀ (path : GoString) (d : FileInfo) (w0 : World), d.isDir = false →
      filepath.Ext path = str ".md" →
      (contentFn env tmpl contentDir outDir path (some d) none w0).1 = none →
      ∃ input buf rel outPath title, d.content = some input ∧ env.convert input = some buf ∧
        filepath.Rel contentDir path = some rel ∧ outPathOf outDir rel = some outPath ∧
        (os.MkdirAll env (filepath.Dir outPath) ModePerm w0.fs).1 = none ∧
        deriveTitle rel = some title ∧
        (os.Create env outPath (os.MkdirAll env (filepath.Dir outPath) ModePerm w0.fs).2).1 =
          none ∧
        (tmpl.execute (str "base.html") ⟨title, buf⟩).2 = false) := by
  have hrun := WalkDir_eq_run (contentFn env tmpl contentDir outDir)
    (contentFn_noSkip env tmpl contentDir outDir) contentDir root w
  obtain ⟨p1, p2, p3⟩ := runVisits_content_ok env tmpl contentDir outDir pre w hpre
  obtain ⟨vp, vi, ve⟩ := v
  simp only at hfail ⊢
  obtain ⟨e1, e2, _⟩ := contentFn_effect env tmpl contentDir outDir vp vi ve
    (runVisits (contentFn env tmpl contentDir outDir) pre w).2
  refine ⟨?_, ?_, ?_, ?_⟩
  · rw [hrun, hsplit, runVisits_ok_append _ pre (_ :: post) w _ (Prod.ext hpre rfl)]
    simp only [runVisits]
    rcases hv : contentFn env tmpl contentDir outDir vp vi ve
      (runVisits (contentFn env tmpl contentDir outDir) pre w).2 with ⟨_ | e0, w2⟩
    · rw [hv] at hfail; cases hfail
    · rw [hv] at hfail
      simp only [Option.some.injEq] at hfail
      subst hfail
      rfl
  · rw [e2 e hfail, p1]
  · intro u hu p hp
    exact e1 _ (p3 u hu p hp)
  · intro path d w0 hd hext hok
    unfold contentFn at hok
    simp only [hd, Bool.false_eq_true, if_false, hext, ne_eq, not_true_eq_false] at hok
    cases hc : d.content with
    | none => rw [hc] at hok; cases hok
    | some input =>
      rw [hc] at hok
      simp only at hok
      cases hconv : env.convert input with
      | none => rw [hconv] at hok; cases hok
      | some buf =>
        rw [hconv] at hok
        simp only at hok
        cases hrel : filepath.Rel contentDir path with
        | none => rw [hrel] at hok; cases hok
        | some rel =>
          rw [hrel] at hok
          simp only at hok
          cases hout : outPathOf outDir rel with
          | none => rw [hout] at hok; cases hok
          | some outPath =>
            rw [hout] at hok
            simp only at hok
            unfold generate at hok
            rcases hm : os.MkdirAll env (filepath.Dir outPath) ModePerm w0.fs with ⟨_ | em, fs1⟩
            · rw [hm] at hok
              simp only at hok
              cases ht : deriveTitle rel with
              | none => rw [ht] at hok; cases hok
              | some title =>
                rw [ht] at hok
                simp only at hok
                rcases hcr : os.Create env outPath fs1 with ⟨_ | ec, fs2⟩
                · rw [hcr] at hok
                  simp only at hok
                  cases hx : (tmpl.execute (str "base.html") ⟨title, buf⟩).2 with
                  | true => rw [hx] at hok; simp at hok
                  | false =>
                    exact ⟨input, buf, rel, outPath, title, rfl, hconv, rfl, hout,
                      by rw [hm], ht, by rw [hm, hcr], hx⟩
                · rw [hcr] at hok; cases hok
            · rw [hm] at hok; cases hok

/-- Witness of claim C4: in `brokenContent` the document `b.md` cannot be read;
`a.html` is generated, the walk returns the read error, and `c.html` is not
generated. -/
theorem content_walk_halts_at_first_error_witness :
    (visitsWalkDir (str "content") (some brokenContent) =
      brokenContentBefore ++ brokenContentVisit :: brokenContentAfter) ∧
    (runVisits (contentFn demoEnv demoTemplate (str "content") (str "public"))
      brokenContentBefore emptyWorld).1 = none ∧
    (contentFn demoEnv demoTemplate (str "content") (str "public") brokenContentVisit.path
      brokenContentVisit.info brokenContentVisit.err
      (runVisits (contentFn demoEnv demoTemplate (str "content") (str "public"))
        brokenContentBefore emptyWorld).2).1 = some Err.readFile ∧
    filepath.WalkDir (str "content") (some brokenContent)
        (contentFn demoEnv demoTemplate (str "content") (str "public")) emptyWorld =
      (some Err.readFile,
        (contentFn demoEnv demoTemplate (str "content") (str "public") brokenContentVisit.path
          brokenContentVisit.info brokenContentVisit.err
          (runVisits (contentFn demoEnv demoTemplate (str "content") (str "public"))
            brokenContentBefore emptyWorld).2).2) ∧
    (filepath.WalkDir (str "content") (some brokenContent)
        (contentFn demoEnv demoTemplate (str "content") (str "public")) emptyWorld).2.out =
      [str "Generated public/a.html"] ∧
    (filepath.WalkDir (str "content") (some brokenContent)
        (contentFn demoEnv demoTemplate (str "content") (str "public")) emptyWorld).2.fs
      (resolve (str "public/a.html")) = some (Entry.file 420 (str "a:<h1>A</h1>")) ∧
    (filepath.WalkDir (str "content") (some brokenContent)
        (contentFn demoEnv demoTemplate (str "content") (str "public")) emptyWorld).2.fs
      (resolve (str "public/c.html")) = none :=
  ⟨by decide, by decide, by decide,
    (content_walk_halts_at_first_error demoEnv demoTemplate (str "content") (str "public")
      (some brokenContent) emptyWorld brokenContentBefore brokenContentAfter
      brokenContentVisit Err.readFile (by decide) (by decide) (by decide)).1,
    by decide, by decide, by decide⟩

theorem runVisits_copy_fail (env : Env) (src dstBase : GoString) (vs : List Visit) (w : World)
    (e : Err) (h : (runVisits (copyStaticFn env src dstBase) vs w).1 = some e) :
    ∃ pre v post, vs = pre ++ v :: post ∧
      (runVisits (copyStaticFn env src dstBase) pre w).1 = none ∧
      (copyStaticFn env src dstBase v.path v.info v.err
        (runVisits (copyStaticFn env src dstBase) pre w).2).1 = some e := by
  induction vs generalizing w with
  | nil => simp [runVisits] at h
  | cons u vs ih =>
    simp only [runVisits] at h
    rcases hu : copyStaticFn env src dstBase u.path u.info u.err w with ⟨_ | e1, w1⟩
    · rw [hu] at h
      simp only at h
      obtain ⟨pre, v, post, h1, h2, h3⟩ := ih w1 h
      refine ⟨u :: pre, v, post, by rw [h1]; rfl, ?_, ?_⟩
      · simp only [runVisits, hu]; exact h2
      · simp only [runVisits, hu]; exact h3
    · rw [hu] at h
      simp only [Option.some.injEq] at h
      subst h
      exact ⟨[], u, vs, rfl, rfl, by simp only [runVisits]; rw [hu]⟩

/-- Counterexample to claim C6 as stated: in `brokenStatic` the read of `a/x`
fails; the file `b` lies outside the directory `a`, yet it is not copied (it is
copied when `a/x` can be read), while the directory `a` that was made before the
error stays. -/
theorem copyStatic_error_not_confined_to_subtree :
    (filepath.Walk (str "static") (some brokenStatic)
      (copyStaticFn demoEnv (str "static") (str "out")) emptyWorld).1 = some Err.readFile ∧
    (copyStatic demoEnv (str "static") (str "out") (some brokenStatic) emptyWorld).fs
      (resolve (str "out/a")) = some (Entry.dir 493) ∧
    (copyStatic demoEnv (str "static") (str "out") (some brokenStatic) emptyWorld).fs
      (resolve (str "out/b")) = none ∧
    (copyStatic demoEnv (str "static") (str "out") (some repairedStatic) emptyWorld).fs
      (resolve (str "out/b")) = some (Entry.file 420 (str "B")) := by
  decide

/-- Claim C7: in `main` the build steps are unreachable.  The listener is called
first; whether the call never returns or returns a non-nil error (on which `main`
panics), `main` ends blocked or panicked, the file system is the one it started
with, only the banner was printed, and the result does not depend on the flags
or on the content and static directories. -/
theorem main_never_builds (env : Env) (flags : Flags) (content static : Option Node)
    (w : World)
    (h : env.serve = ServeOutcome.blocks ∨ ∃ e, env.serve = ServeOutcome.returns (some e)) :
    (main env flags content static w).2.fs = w.fs ∧
    (main env flags content static w).2.out =
      w.out ++ [str "Serving site at http://localhost:8080"] ∧
    ((main env flags content static w).1 = Exit.blocked ∨
      (main env flags content static w).1 = Exit.panicked) ∧
    (env.serve = ServeOutcome.blocks → (main env flags content static w).1 = Exit.blocked) ∧
    ((∃ e, env.serve = ServeOutcome.returns (some e)) →
      (main env flags content static w).1 = Exit.panicked) ∧
    (∀ (flags2 : Flags) (content2 static2 : Option Node),
      main env flags2 content2 static2 w = main env flags content static w) := by
  unfold main
  rcases h with h | ⟨e, h⟩
  · rw [h]
    simp
  · rw [h]
    simp

/-- Witness of claim C7: a listener that never returns, the default flags and a
site that the build steps would generate; nothing is written. -/
theorem main_never_builds_witness :
    (servingEnv.serve = ServeOutcome.blocks ∨
      ∃ e, servingEnv.serve = ServeOutcome.returns (some e)) ∧
    (main servingEnv Flags.default (some demoContent) (some demoStatic) emptyWorld).2.fs =
      emptyWorld.fs ∧
    (main servingEnv Flags.default (some demoContent) (some demoStatic) emptyWorld).1 =
      Exit.blocked ∧
    (build servingEnv Flags.default (some demoContent) (some demoStatic) emptyWorld).2.fs
      (resolve (str "public/hello.html")) = some (Entry.file 420 (str "hello:<h1>Hi</h1>")) :=
  ⟨Or.inl rfl,
    (main_never_builds servingEnv Flags.default (some demoContent) (some demoStatic)
      emptyWorld (Or.inl rfl)).1,
    by decide, by decide⟩

/-! ## The asset mirror on the entries of the tree -/

theorem resolve_Join_names (base : GoString) (ns : List GoString) (hne : ns ≠ [])
    (hn : ∀ n ∈ ns, isName n) :
    resolve (filepath.Join [base, strings.Join ns]) = keyAt base ns := by
  rw [Join_dir_names base ns hne hn, resolve_render _ _ (Canonical_root_names base ns hn)]
  rfl

theorem resolve_Join_dot (base : GoString) :
    resolve (filepath.Join [base, [dot]]) = keyAt base [] := by
  by_cases hd : base = []
  · subst hd; decide
  · simp only [filepath.Join, ne_eq, hd, not_false_eq_true, if_true, Join_cons_cons,
      Join_singleton]
    rw [resolve_Clean]
    unfold resolve keyAt
    rw [isRooted_append base _ hd, cleanElems_append_dot base hd, List.append_nil]

theorem relOf_ne_nil (ns : List GoString) (hn : ∀ n ∈ ns, isName n) : relOf ns ≠ [] := by
  unfold relOf
  split
  · simp
  · rename_i h; exact Join_names_ne_nil ns h hn

/-- The path that `copyStatic` writes for an entry resolves to the names of the
entry below the destination. -/
theorem resolve_target (base : GoString) (ns : List GoString) (hn : ∀ n ∈ ns, isName n) :
    resolve (filepath.Join [base, relOf ns]) = keyAt base ns := by
  unfold relOf
  split
  · rename_i h; subst h; exact resolve_Join_dot base
  · rename_i h; exact resolve_Join_names base ns h hn

theorem keyAt_inj (base : GoString) (a b : List GoString) (h : keyAt base a = keyAt base b) :
    a = b := by
  unfold keyAt at h
  simp only [Key.mk.injEq, true_and] at h
  exact List.append_cancel_left h

/-- The callback of `copyStatic` on an entry of a tree of file names. -/
theorem copyStaticFn_entry (env : Env) (src dstBase : GoString) (e : List GoString × Node)
    (hn : ∀ n ∈ e.1, isName n) (w : World) :
    copyStaticFn env src dstBase (walkVisit src e).path (walkVisit src e).info
        (walkVisit src e).err w =
      ((copyEntry env dstBase e w.fs).1, { w with fs := (copyEntry env dstBase e w.fs).2 }) := by
  obtain ⟨ns, nd⟩ := e
  simp only at hn
  have hrel := Rel_pathOf src ns hn
  have htarget := resolve_target dstBase ns hn
  unfold copyStaticFn copyEntry walkVisit
  cases nd with
  | file mode content =>
    simp only [Node.unreadable, Bool.false_eq_true, if_false, hrel, Node.info]
    cases content with
    | none => rfl
    | some data =>
      simp only
      rw [WriteFile_clean env _ data mode w.fs (Clean_Join_two dstBase _ (relOf_ne_nil ns hn)),
        htarget]
  | dir mode readable es =>
    cases readable with
    | false => simp [Node.unreadable]
    | true =>
      simp only [Node.unreadable, Bool.false_eq_true, if_false, hrel, Node.info, if_true]
      rw [MkdirAll_clean env _ ModePerm w.fs (Clean_Join_two dstBase _ (relOf_ne_nil ns hn)),
        htarget]

theorem runVisits_copy_entries (env : Env) (src dstBase : GoString)
    (L : List (List GoString × Node)) (hn : ∀ e ∈ L, ∀ n ∈ e.1, isName n) (w : World) :
    runVisits (copyStaticFn env src dstBase) (L.map (walkVisit src)) w =
      ((runEntries (copyEntry env dstBase) L w.fs).1,
        { w with fs := (runEntries (copyEntry env dstBase) L w.fs).2 }) := by
  induction L generalizing w with
  | nil => rfl
  | cons e L ih =>
    simp only [List.map_cons, runVisits, runEntries]
    rw [copyStaticFn_entry env src dstBase e (hn e (by simp)) w]
    rcases h : copyEntry env dstBase e w.fs with ⟨_ | err, fs1⟩
    · simp only
      rw [ih (fun x hx => hn x (by simp [hx]))]
    · rfl

theorem runEntries_frame {α : Type} (key : α → Key) (step : α → FS → Option Err × FS)
    (hstep : StepFrame key step) (L : List α) (fs : FS) (k : Key)
    (hk : ∀ a ∈ L, key a ≠ k) :
    (runEntries step L fs).2 k = fs k ∨
      (fs.kind k = Kind.absent ∧ ∃ p, (runEntries step L fs).2 k = some (Entry.dir p)) := by
  induction L generalizing fs with
  | nil => left; rfl
  | cons a L ih =>
    have h1 : (step a fs).2 k = fs k ∨
        (fs.kind k = Kind.absent ∧ ∃ p, (step a fs).2 k = some (Entry.dir p)) := by
      rcases hstep a fs k with h | h | h
      · exact Or.inl h
      · exact Or.inr h
      · exact absurd h.symm (hk a (by simp))
    simp only [runEntries]
    rcases hs : step a fs with ⟨_ | e, fs1⟩
    · rw [hs] at h1
      simp only at h1 ⊢
      rcases ih fs1 (fun b hb => hk b (by simp [hb])) with h2 | ⟨h2, p, h3⟩
      · rcases h1 with h1 | ⟨h1, p, h4⟩
        · left; rw [h2, h1]
        · right; exact ⟨h1, p, by rw [h2, h4]⟩
      · rcases h1 with h1 | ⟨h1, p1, h4⟩
        · right; exact ⟨by rw [← kind_eq_of_eq fs fs1 k h1]; exact h2, p, h3⟩
        · exfalso
          rw [kind_absent_iff] at h2
          rw [h4] at h2
          simp at h2
    · rw [hs] at h1
      exact h1

theorem runEntries_keeps_dir {α : Type} (step : α → FS → Option Err × FS)
    (hstep : StepKeepsDir step) (L : List α) (fs : FS) (k : Key)
    (hk : fs.kind k = Kind.dir) : (runEntries step L fs).2.kind k = Kind.dir := by
  induction L generalizing fs with
  | nil => exact hk
  | cons a L ih =>
    have h1 := hstep a fs k hk
    simp only [runEntries]
    rcases hs : step a fs with ⟨_ | e, fs1⟩
    · rw [hs] at h1; exact ih fs1 h1
    · rw [hs] at h1; exact h1

theorem copyEntry_frame (env : Env) (dstBase : GoString) :
    StepFrame (fun e => keyAt dstBase e.1) (copyEntry env dstBase) := by
  intro e fs k
  obtain ⟨ns, nd⟩ := e
  unfold copyEntry
  cases nd with
  | file mode content =>
    cases content with
    | none => left; rfl
    | some data =>
      simp only
      rcases writeFileAt_effect env (keyAt dstBase ns) data mode fs with
        ⟨e1, _, h⟩ | ⟨p, d, r, h, _⟩
      · left; rw [h]
      · rw [h]
        by_cases hk : k = keyAt dstBase ns
        · right; right; exact hk
        · left; simp [FS.set, hk]
  | dir mode readable es =>
    cases readable with
    | false => left; rfl
    | true =>
      simp only
      rcases (mkdirAllAux_spec env _ ModePerm _ fs).1 k with h | h
      · exact Or.inl h
      · exact Or.inr (Or.inl h)

theorem copyEntry_keeps_dir (env : Env) (dstBase : GoString) :
    StepKeepsDir (copyEntry env dstBase) := by
  intro e fs k hk
  obtain ⟨ns, nd⟩ := e
  unfold copyEntry
  cases nd with
  | file mode content =>
    cases content with
    | none => exact hk
    | some data =>
      simp only
      rcases writeFileAt_effect env (keyAt dstBase ns) data mode fs with
        ⟨e1, _, h⟩ | ⟨p, d, r, h, _, _, _, h2, _⟩
      · rw [h]; exact hk
      · rw [h]
        have hne : k ≠ keyAt dstBase ns := by
          intro heq; subst heq; exact h2 hk
        rw [kind_set_ne _ _ _ _ hne]
        exact hk
  | dir mode readable es =>
    cases readable with
    | false => exact hk
    | true => exact DirExt_kind_dir _ _ (mkdirAllAux_spec env _ ModePerm _ fs).1 k hk

theorem permAfter_of_write (env : Env) (fs : FS) (k : Key) (mode p : Nat)
    (h1 : p = applyUmask env.umask mode ∨ ∃ d, fs k = some (Entry.file p d))
    (h2 : ∀ p0 d0, fs k = some (Entry.file p0 d0) → p = p0) :
    p = permAfter env fs k mode := by
  unfold permAfter
  rcases hk : fs k with _ | ⟨p0, d0⟩ | p0
  · rcases h1 with h1 | ⟨d, h1⟩
    · exact h1
    · rw [hk] at h1; cases h1
  · exact h2 p0 d0 hk
  · rcases h1 with h1 | ⟨d, h1⟩
    · exact h1
    · rw [hk] at h1; cases h1

theorem permAfter_congr (env : Env) (fs fs1 : FS) (k : Key) (mode : Nat)
    (h : fs1 k = fs k ∨ (fs.kind k = Kind.absent ∧ ∃ p, fs1 k = some (Entry.dir p))) :
    permAfter env fs1 k mode = permAfter env fs k mode := by
  unfold permAfter
  rcases h with h | ⟨h1, p, h2⟩
  · rw [h]
  · rw [h2, ((kind_absent_iff _ _).mp h1).2]

/-- When `copyStatic` succeeds on a list of entries with different names, every
file of the list is at its destination with its bytes, every directory of the
list is readable and exists at its destination. -/
theorem runEntries_copy_ok (env : Env) (dstBase : GoString) (L : List (List GoString × Node))
    (hnodup : (L.map Prod.fst).Nodup) (fs : FS)
    (hok : (runEntries (copyEntry env dstBase) L fs).1 = none) :
    (∀ ns mode content, (ns, Node.file mode content) ∈ L →
      ∃ data, content = some data ∧
        (runEntries (copyEntry env dstBase) L fs).2 (keyAt dstBase ns) =
          some (Entry.file (permAfter env fs (keyAt dstBase ns) mode) data)) ∧
    (∀ ns mode readable es, (ns, Node.dir mode readable es) ∈ L →
      readable = true ∧
        (runEntries (copyEntry env dstBase) L fs).2.kind (keyAt dstBase ns) = Kind.dir) := by
  induction L generalizing fs with
  | nil => simp
  | cons e L ih =>
    obtain ⟨ns0, nd0⟩ := e
    simp only [List.map_cons, List.nodup_cons] at hnodup
    obtain ⟨hnot, hnodup2⟩ := hnodup
    have hkeys : ∀ a ∈ L, keyAt dstBase a.1 ≠ keyAt dstBase ns0 := by
      intro a ha heq
      exact hnot (List.mem_map.mpr ⟨a, ha, keyAt_inj dstBase _ _ heq⟩)
    have hframe := copyEntry_frame env dstBase (ns0, nd0) fs
    simp only [runEntries] at hok ⊢
    rcases hs : copyEntry env dstBase (ns0, nd0) fs with ⟨_ | err, fs1⟩
    · rw [hs] at hok hframe
      simp only at hok hframe ⊢
      obtain ⟨ih1, ih2⟩ := ih hnodup2 fs1 hok
      refine ⟨?_, ?_⟩
      · intro ns mode content hmem
        simp only [List.mem_cons, Prod.mk.injEq] at hmem
        rcases hmem with ⟨rfl, rfl⟩ | hmem
        · -- the file copied by this step
          unfold copyEntry at hs
          cases content with
          | none => simp at hs
          | some data =>
            simp only at hs
            rcases writeFileAt_effect env (keyAt dstBase ns) data mode fs with
              ⟨e1, _, h⟩ | ⟨p, d, r, h, hd, _, hb, _, h4, _, h6⟩
            · rw [h] at hs; cases hs
            · rw [h] at hs
              simp only [Prod.mk.injEq] at hs
              obtain ⟨hr, hs⟩ := hs
              rw [hd hr] at hs
              refine ⟨data, rfl, ?_⟩
              have hp := permAfter_of_write env fs _ mode p h4 h6
              have hfs1 : fs1 (keyAt dstBase ns) = some (Entry.file p data) := by
                rw [← hs]; simp [FS.set]
              rcases runEntries_frame _ _ (copyEntry_frame env dstBase) L fs1
                (keyAt dstBase ns) hkeys with h7 | ⟨h7, _⟩
              · rw [h7, hfs1, hp]
              · rw [kind_absent_iff, hfs1] at h7
                simp at h7
        · obtain ⟨data, hd, hfin⟩ := ih1 ns mode content hmem
          refine ⟨data, hd, ?_⟩
          rw [hfin]
          have hne : keyAt dstBase ns ≠ keyAt dstBase ns0 := hkeys _ hmem
          have := permAfter_congr env fs fs1 (keyAt dstBase ns) mode (by
            rcases hframe (keyAt dstBase ns) with h | h | h
            · exact Or.inl h
            · exact Or.inr h
            · exact absurd h hne)
          rw [this]
      · intro ns mode readable es hmem
        simp only [List.mem_cons, Prod.mk.injEq] at hmem
        rcases hmem with ⟨rfl, rfl⟩ | hmem
        · unfold copyEntry at hs
          cases readable with
          | false => simp at hs
          | true =>
            simp only at hs
            have h1 := mkdirAllAux_success_dir env (keyAt dstBase ns).rooted ModePerm
              (keyAt dstBase ns).elems.reverse fs (by rw [hs])
            rw [hs] at h1
            simp only [List.reverse_reverse] at h1
            exact ⟨rfl, runEntries_keeps_dir _ (copyEntry_keeps_dir env dstBase) L fs1 _ h1⟩
        · exact ih2 ns mode readable es hmem
    · rw [hs] at hok
      cases hok

/-- Counterexample to claim C5 as stated: the static file `css/site.css` has
mode 0666; under the umask 022 `copyStatic` runs without error and the copy has
the same bytes but mode 0644. -/
theorem copyStatic_umask_changes_permissions :
    (filepath.Walk (str "static") (some demoStatic)
      (copyStaticFn demoEnv (str "static") (str "out")) emptyWorld).1 = none ∧
    ([str "css", str "site.css"], Node.file 438 (some (str "body"))) ∈ listing [] demoStatic ∧
    (copyStatic demoEnv (str "static") (str "out") (some demoStatic) emptyWorld).fs
      (resolve (str "out/css/site.css")) = some (Entry.file 420 (str "body")) ∧
    (copyStatic demoEnv (str "static") (str "out") (some demoStatic) emptyWorld).fs
      (resolve (str "out/css/site.css")) ≠ some (Entry.file 438 (str "body")) := by
  refine ⟨by decide, ?_, by decide, by decide⟩
  simp [listing, listingEntries, demoStatic]

/-- Claim C5, amended: when `copyStatic` runs without error on a tree of file
names, every directory of the tree is readable and exists below the destination
at its relative path, and every file of the tree is at `dstBase/r` with exactly
the bytes of the source file; its permission bits are those of the source file
without the bits of the umask when the copy created the file, and the bits that
the destination file had when it existed before. -/
theorem copyStatic_preserves_bytes (env : Env) (src dstBase : GoString) (tree : Node)
    (w : World) (hnames : tree.namesOk = true)
    (hok : (filepath.Walk src (some tree) (copyStaticFn env src dstBase) w).1 = none) :
    (∀ ns mode content, (ns, Node.file mode content) ∈ listing [] tree →
      ∃ data, content = some data ∧
        (copyStatic env src dstBase (some tree) w).fs
            (resolve (filepath.Join [dstBase, relOf ns])) =
          some (Entry.file
            (permAfter env w.fs (resolve (filepath.Join [dstBase, relOf ns])) mode) data)) ∧
    (∀ ns mode readable es, (ns, Node.dir mode readable es) ∈ listing [] tree →
      readable = true ∧
        (copyStatic env src dstBase (some tree) w).fs.kind
          (resolve (filepath.Join [dstBase, relOf ns])) = Kind.dir) ∧
    (∀ k mode, w.fs k = none → permAfter env w.fs k mode = applyUmask env.umask mode) ∧
    (∀ k mode p d, w.fs k = some (Entry.file p d) → permAfter env w.fs k mode = p) ∧
    (∀ mode, mode < 512 → applyUmask 0 mode = mode) := by
  have hrun := Walk_eq_run (copyStaticFn env src dstBase) (copyStaticFn_noSkip env src dstBase)
    src (some tree) w
  have hnm := listing_names [] tree (by simp) hnames
  have hrun2 := runVisits_copy_entries env src dstBase (listing [] tree)
    (fun e he => (hnm e he).1) w
  rw [visitsWalkRoot_listing src tree hnames, hrun2] at hrun
  have hfs : (copyStatic env src dstBase (some tree) w).fs =
      (runEntries (copyEntry env dstBase) (listing [] tree) w.fs).2 := by
    unfold copyStatic; rw [hrun]
  rw [hrun] at hok
  simp only at hok
  obtain ⟨h1, h2⟩ := runEntries_copy_ok env dstBase (listing [] tree)
    (listing_nodup [] tree (by simp) hnames) w.fs hok
  refine ⟨?_, ?_, ?_, ?_, ?_⟩
  · intro ns mode content hmem
    have hkey := resolve_target dstBase ns (hnm _ hmem).1
    rw [hkey, hfs]
    exact h1 ns mode content hmem
  · intro ns mode readable es hmem
    have hkey := resolve_target dstBase ns (hnm _ hmem).1
    rw [hkey, hfs]
    exact h2 ns mode readable es hmem
  · intro k mode hk
    simp [permAfter, hk]
  · intro k mode p d hk
    simp [permAfter, hk]
  · intro mode hm
    simp [applyUmask, Nat.mod_eq_of_lt hm]

/-- Witness of claim C5, amended: `demoStatic` copied into an empty file system
under the umask 022. -/
theorem copyStatic_preserves_bytes_witness :
    demoStatic.namesOk = true ∧
    (filepath.Walk (str "static") (some demoStatic)
      (copyStaticFn demoEnv (str "static") (str "out")) emptyWorld).1 = none ∧
    (∀ ns mode content, (ns, Node.file mode content) ∈ listing [] demoStatic →
      ∃ data, content = some data ∧
        (copyStatic demoEnv (str "static") (str "out") (some demoStatic) emptyWorld).fs
            (resolve (filepath.Join [str "out", relOf ns])) =
          some (Entry.file
            (permAfter demoEnv emptyWorld.fs (resolve (filepath.Join [str "out", relOf ns]))
              mode) data)) ∧
    (copyStatic demoEnv (str "static") (str "out") (some demoStatic) emptyWorld).fs
      (resolve (str "out/css/site.css")) = some (Entry.file 420 (str "body")) ∧
    (copyStatic demoEnv (str "static") (str "out") (some demoStatic) emptyWorld).fs
      (resolve (str "out/css")) = some (Entry.dir 493) :=
  ⟨by decide, by decide,
    (copyStatic_preserves_bytes demoEnv (str "static") (str "out") demoStatic emptyWorld
      (by decide) (by decide)).1,
    by decide, by decide⟩

/-- Claim C6, amended: in `copyStatic` a read, write or directory-creation error
aborts the whole remaining traversal, and nothing is rolled back.  The walk calls
the callback on the entries in order; when the calls before a failing call
succeeded, the walk returns the error of the failing call, `copyStatic` ends in
the state that this call left, and no later entry is visited.  On a tree of file
names every file and directory copied before the error is still at its
destination as it was copied: the failing call left it unchanged, a directory is
a directory and a file holds the bytes of its source. -/
theorem copyStatic_error_aborts_walk (env : Env) (src dstBase : GoString)
    (root : Option Node) (w : World) (pre post : List Visit) (v : Visit) (e : Err)
    (hsplit : visitsWalkRoot src root = pre ++ v :: post)
    (hpre : (runVisits (copyStaticFn env src dstBase) pre w).1 = none)
    (hfail : (copyStaticFn env src dstBase v.path v.info v.err
      (runVisits (copyStaticFn env src dstBase) pre w).2).1 = some e) :
    filepath.Walk src root (copyStaticFn env src dstBase) w =
      (some e, (copyStaticFn env src dstBase v.path v.info v.err
        (runVisits (copyStaticFn env src dstBase) pre w).2).2) ∧
    copyStatic env src dstBase root w =
      (copyStaticFn env src dstBase v.path v.info v.err
        (runVisits (copyStaticFn env src dstBase) pre w).2).2 ∧
    (treeOk root = true → ∀ u ∈ pre, ∀ info rel, u.info = some info →
      filepath.Rel src u.path = some rel →
      (copyStatic env src dstBase root w).fs (resolve (filepath.Join [dstBase, rel])) =
        (runVisits (copyStaticFn env src dstBase) pre w).2.fs
          (resolve (filepath.Join [dstBase, rel])) ∧
      (info.isDir = true →
        (copyStatic env src dstBase root w).fs.kind (resolve (filepath.Join [dstBase, rel])) =
          Kind.dir) ∧
      (info.isDir = false → ∃ data p, info.content = some data ∧
        (copyStatic env src dstBase root w).fs (resolve (filepath.Join [dstBase, rel])) =
          some (Entry.file p data))) ∧
    (∀ e1, (filepath.Walk src root (copyStaticFn env src dstBase) w).1 = some e1 →
      ∃ pre1 v1 post1, visitsWalkRoot src root = pre1 ++ v1 :: post1 ∧
        (runVisits (copyStaticFn env src dstBase) pre1 w).1 = none ∧
        (copyStaticFn env src dstBase v1.path v1.info v1.err
          (runVisits (copyStaticFn env src dstBase) pre1 w).2).1 = some e1) := by
  have hrun := Walk_eq_run (copyStaticFn env src dstBase) (copyStaticFn_noSkip env src dstBase)
    src root w
  have hwalk : filepath.Walk src root (copyStaticFn env src dstBase) w =
      (some e, (copyStaticFn env src dstBase v.path v.info v.err
        (runVisits (copyStaticFn env src dstBase) pre w).2).2) := by
    rw [hrun, hsplit, runVisits_ok_append _ pre (v :: post) w _ (Prod.ext hpre rfl)]
    simp only [runVisits]
    rcases hv : copyStaticFn env src dstBase v.path v.info v.err
      (runVisits (copyStaticFn env src dstBase) pre w).2 with ⟨_ | e0, w2⟩
    · rw [hv] at hfail; cases hfail
    · rw [hv] at hfail
      simp only [Option.some.injEq] at hfail
      subst hfail
      rfl
  have hcopy : copyStatic env src dstBase root w =
      (copyStaticFn env src dstBase v.path v.info v.err
        (runVisits (copyStaticFn env src dstBase) pre w).2).2 := by
    unfold copyStatic
    rw [hwalk]
  refine ⟨hwalk, hcopy, ?_, ?_⟩
  · intro hok u hu info rel hinfo hrel
    cases root with
    | none =>
      exfalso
      simp only [visitsWalkRoot] at hsplit
      cases pre with
      | nil => cases hu
      | cons a pre => simp at hsplit
    | some tree =>
      have hnames : tree.namesOk = true := hok
      rw [visitsWalkRoot_listing src tree hnames] at hsplit
      obtain ⟨L1, R, hL, hmap1, hmapR⟩ := List.map_eq_append_iff.mp hsplit
      obtain ⟨e0, L2, hR, hv, _⟩ := List.map_eq_cons_iff.mp hmapR
      subst hR
      have hnm := listing_names [] tree (by simp) hnames
      have hnodup := listing_nodup [] tree (by simp) hnames
      rw [hL] at hnm hnodup
      have hn1 : ∀ x ∈ L1, ∀ n ∈ x.1, isName n := fun x hx => (hnm x (by simp [hx])).1
      have hn0 : ∀ n ∈ e0.1, isName n := (hnm e0 (by simp)).1
      simp only [List.map_append, List.map_cons] at hnodup
      have hnd1 : (L1.map Prod.fst).Nodup := (List.nodup_append.mp hnodup).1
      have hdisj : ∀ x ∈ L1, x.1 ≠ e0.1 := by
        intro x hx heq
        exact (List.nodup_append.mp hnodup).2.2 (List.mem_map.mpr ⟨x, hx, rfl⟩)
          (by rw [heq]; simp)
      -- the state when the failing call began, and the state that it left
      have hrunpre := runVisits_copy_entries env src dstBase L1 hn1 w
      rw [hmap1] at hrunpre
      rw [hrunpre] at hpre hfail hcopy
      rw [hcopy, hrunpre]
      simp only at hpre hfail ⊢
      rw [← hv, copyStaticFn_entry env src dstBase e0 hn0] at hfail ⊢
      simp only at hfail ⊢
      obtain ⟨hfiles, hdirs⟩ := runEntries_copy_ok env dstBase L1 hnd1 w.fs hpre
      -- the entry of the visit
      rw [← hmap1] at hu
      obtain ⟨⟨ns, nd⟩, hmem, hu2⟩ := List.mem_map.mp hu
      subst hu2
      simp only [walkVisit, Option.some.injEq] at hinfo hrel
      rw [Rel_pathOf src ns (hn1 _ hmem)] at hrel
      simp only [Option.some.injEq] at hrel
      subst hrel hinfo
      rw [resolve_target dstBase ns (hn1 _ hmem)]
      have hne : keyAt dstBase ns ≠ keyAt dstBase e0.1 := by
        intro heq
        exact hdisj _ hmem (keyAt_inj dstBase _ _ heq)
      have hframe := copyEntry_frame env dstBase e0
        (runEntries (copyEntry env dstBase) L1 w.fs).2 (keyAt dstBase ns)
      cases nd with
      | file mode content =>
        obtain ⟨data, hcontent, hfile⟩ := hfiles ns mode content hmem
        have hsame : (copyEntry env dstBase e0 (runEntries (copyEntry env dstBase) L1 w.fs).2).2
            (keyAt dstBase ns) =
            (runEntries (copyEntry env dstBase) L1 w.fs).2 (keyAt dstBase ns) := by
          rcases hframe with h | ⟨h, _⟩ | h
          · exact h
          · rw [kind_absent_iff, hfile] at h
            simp at h
          · exact absurd h hne
        refine ⟨hsame, ?_, ?_⟩
        · intro hd; simp [Node.info] at hd
        · intro _
          exact ⟨data, _, by simpa [Node.info] using hcontent, by rw [hsame, hfile]⟩
      | dir mode readable es =>
        obtain ⟨_, hdir⟩ := hdirs ns mode readable es hmem
        have hsame : (copyEntry env dstBase e0 (runEntries (copyEntry env dstBase) L1 w.fs).2).2
            (keyAt dstBase ns) =
            (runEntries (copyEntry env dstBase) L1 w.fs).2 (keyAt dstBase ns) := by
          rcases hframe with h | ⟨h, _⟩ | h
          · exact h
          · rw [hdir] at h; cases h
          · exact absurd h hne
        refine ⟨hsame, ?_, ?_⟩
        · intro _
          rw [kind_eq_of_eq _ _ _ hsame]
          exact hdir
        · intro hd; simp [Node.info] at hd
  · intro e1 h1
    rw [hrun] at h1
    exact runVisits_copy_fail env src dstBase _ w e1 h1

/-- Witness of claim C6, amended: the write of `out/b` fails after one byte.  The
file `out/a`, copied before, is left as it was copied; the file `out/b`, which
existed with other bytes, is left truncated to the byte that was written. -/
theorem copyStatic_error_aborts_walk_witness :
    (visitsWalkRoot (str "static") (some twoAssets) =
      twoAssetsBefore ++ twoAssetsVisit :: []) ∧
    (runVisits (copyStaticFn shortWriteEnv (str "static") (str "out"))
      twoAssetsBefore staleAssets).1 = none ∧
    (copyStaticFn shortWriteEnv (str "static") (str "out") twoAssetsVisit.path
      twoAssetsVisit.info twoAssetsVisit.err
      (runVisits (copyStaticFn shortWriteEnv (str "static") (str "out"))
        twoAssetsBefore staleAssets).2).1 = some Err.write ∧
    copyStatic shortWriteEnv (str "static") (str "out") (some twoAssets) staleAssets =
      (copyStaticFn shortWriteEnv (str "static") (str "out") twoAssetsVisit.path
        twoAssetsVisit.info twoAssetsVisit.err
        (runVisits (copyStaticFn shortWriteEnv (str "static") (str "out"))
          twoAssetsBefore staleAssets).2).2 ∧
    (copyStatic shortWriteEnv (str "static") (str "out") (some twoAssets) staleAssets).fs
      (resolve (str "out/a")) = some (Entry.file 420 (str "A")) ∧
    staleAssets.fs (resolve (str "out/b")) = some (Entry.file 384 (str "old")) ∧
    (copyStatic shortWriteEnv (str "static") (str "out") (some twoAssets) staleAssets).fs
      (resolve (str "out/b")) = some (Entry.file 384 (str "n")) :=
  ⟨by decide, by decide, by decide,
    (copyStatic_error_aborts_walk shortWriteEnv (str "static") (str "out") (some twoAssets)
      staleAssets twoAssetsBefore [] twoAssetsVisit Err.write
      (by decide) (by decide) (by decide)).2.1,
    by decide, by decide, by decide⟩

/-! ## The content walk on the entries of the tree -/

theorem take_stem (a e : GoString) : (a ++ e).take ((a ++ e).length - e.length) = a := by
  simp

theorem slug_eq (rel : GoString) : slug rel = some (replaceExt rel) := by
  obtain ⟨t, ht, hte⟩ := slicePrefix_ext rel
  unfold slug replaceExt
  rw [ht]
  have : rel.take (rel.length - (filepath.Ext rel).length) = t := by
    have h := take_stem t (filepath.Ext rel)
    rw [hte] at h
    exact h
  rw [this]
  rfl

theorem outPathOf_eq (outDir rel : GoString) :
    outPathOf outDir rel = some (filepath.Join [outDir, replaceExt rel]) := by
  simp [outPathOf, slug_eq]

theorem replaceExt_eq (f : GoString) :
    ∃ t, t ++ filepath.Ext f = f ∧ replaceExt f = t ++ str ".html" := by
  obtain ⟨t, ht⟩ := Ext_suffix f
  refine ⟨t, ht.symm, ?_⟩
  unfold replaceExt
  have h := take_stem t (filepath.Ext f)
  rw [← ht] at h
  rw [h]

theorem replaceExt_isName (f : GoString) (hf : sep ∉ f) : isName (replaceExt f) := by
  obtain ⟨t, ht, hr⟩ := replaceExt_eq f
  have hsep : sep ∉ t := by
    intro h; apply hf; rw [← ht]; simp [h]
  rw [hr]
  refine ⟨by simp [str], ?_, ?_, ?_⟩
  · simp only [List.mem_append, not_or]
    exact ⟨hsep, by decide⟩
  · intro h
    have := congrArg List.length h
    simp [str] at this
  · intro h
    have := congrArg List.length h
    simp [str] at this

theorem replaceExt_md (f : GoString) (h : filepath.Ext f = str ".md") :
    ∃ t, f = t ++ str ".md" ∧ replaceExt f = t ++ str ".html" := by
  obtain ⟨t, ht, hr⟩ := replaceExt_eq f
  rw [h] at ht
  exact ⟨t, ht.symm, hr⟩

theorem replaceExt_md_inj (f g : GoString) (hf : filepath.Ext f = str ".md")
    (hg : filepath.Ext g = str ".md") (h : replaceExt f = replaceExt g) : f = g := by
  obtain ⟨t, ht, hr⟩ := replaceExt_md f hf
  obtain ⟨u, hu, hs⟩ := replaceExt_md g hg
  rw [hr, hs] at h
  rw [ht, hu, List.append_cancel_right h]

theorem Join_last_cases (ns : List GoString) (f : GoString) :
    strings.Join (ns ++ [f]) = f ∨ ∃ x, strings.Join (ns ++ [f]) = x ++ sep :: f := by
  by_cases he : ns = []
  · left; subst he; simp [Join_singleton]
  · right; exact ⟨strings.Join ns, Join_append_singleton ns f he⟩

theorem Ext_Join_last (ns : List GoString) (f : GoString) :
    filepath.Ext (strings.Join (ns ++ [f])) = filepath.Ext f := by
  rcases Join_last_cases ns f with h | ⟨x, h⟩
  · rw [h]
  · rw [h, Ext_append_sep]

theorem replaceExt_Join (ns : List GoString) (f : GoString) :
    replaceExt (strings.Join (ns ++ [f])) = strings.Join (ns ++ [replaceExt f]) := by
  by_cases he : ns = []
  · subst he; simp [Join_singleton]
  · obtain ⟨t, ht, hr⟩ := replaceExt_eq f
    unfold replaceExt
    rw [Ext_Join_last, Join_append_singleton ns f he]
    have hr2 : List.take (f.length - (filepath.Ext f).length) f ++ str ".html" =
        t ++ str ".html" := hr
    rw [Join_append_singleton ns _ he, hr2]
    have h := take_stem (strings.Join ns ++ sep :: t) (filepath.Ext f)
    have h2 : strings.Join ns ++ sep :: t ++ filepath.Ext f = strings.Join ns ++ sep :: f := by
      rw [List.append_assoc, List.cons_append, ht]
    rw [h2] at h
    rw [h]
    simp

theorem Ext_pathOf (root : GoString) (ns : List GoString) (f : GoString)
    (hf : f ≠ []) :
    filepath.Ext (pathOf root (ns ++ [f])) = filepath.Ext f := by
  have : pathOf root (ns ++ [f]) =
      filepath.render (filepath.isRooted root) ((filepath.cleanElems root ++ ns) ++ [f]) := by
    simp [pathOf]
  rw [this]
  rcases render_last (filepath.isRooted root) (filepath.cleanElems root ++ ns) f hf with
    h | ⟨x, h⟩
  · rw [h]
  · rw [h, Ext_append_sep]

theorem relOf_snoc (ns : List GoString) (f : GoString) :
    relOf (ns ++ [f]) = strings.Join (ns ++ [f]) := by
  simp [relOf]

/-- The output path of the entry at the names `ns ++ [f]` resolves to the same
names below the output directory, with the extension of `f` replaced. -/
theorem resolve_output (outDir : GoString) (ns : List GoString) (f : GoString)
    (hn : ∀ n ∈ ns ++ [f], isName n) :
    resolve (filepath.Join [outDir, replaceExt (relOf (ns ++ [f]))]) =
      keyAt outDir (ns ++ [replaceExt f]) := by
  have hf := hn f (by simp)
  rw [relOf_snoc, replaceExt_Join]
  apply resolve_Join_names outDir _ (by simp)
  intro n hmem
  simp only [List.mem_append, List.mem_singleton] at hmem
  rcases hmem with h | rfl
  · exact hn n (by simp [h])
  · exact replaceExt_isName f hf.2.1

theorem flatMap_ite_singleton {α β : Type} (l : List α) (p : α → Bool) (f : α → β) :
    l.flatMap (fun a => if p a = true then [f a] else []) = (l.filter p).map f := by
  induction l with
  | nil => rfl
  | cons a l ih =>
    cases h : p a <;> simp [List.flatMap_cons, List.filter_cons, h, ih]

/-- The progress lines of the calls of the content walk on an entry: one line
for a markup document, none for another entry. -/
theorem docLine_entry (contentDir outDir : GoString) (e : List GoString × Node)
    (hn : ∀ n ∈ e.1, isName n) (hfile : e.2.info.isDir = false → e.1 ≠ []) :
    (dirVisits contentDir e).flatMap (docLine contentDir outDir) =
      if isMarkup e = true then [str "Generated " ++ outputOf outDir e] else [] := by
  obtain ⟨ns, nd⟩ := e
  simp only at hn hfile
  cases nd with
  | dir mode readable es =>
    cases readable <;>
      simp [dirVisits, docLine, docOutPath, Node.info, Node.unreadable, isMarkup]
  | file mode content =>
    have hne := hfile (by simp [Node.info])
    obtain ⟨ns0, f, rfl⟩ : ∃ ns0 f, ns = ns0 ++ [f] :=
      ⟨ns.dropLast, ns.getLast hne, (List.dropLast_append_getLast hne).symm⟩
    have hf := hn f (by simp)
    have hext := Ext_pathOf contentDir ns0 f hf.1
    have hrel := Rel_pathOf contentDir (ns0 ++ [f]) hn
    simp only [dirVisits, Node.unreadable, Bool.false_eq_true, if_false, List.flatMap_cons,
      List.flatMap_nil, List.append_nil, docLine, docOutPath, Node.info, hext, hrel,
      Option.some_bind, outPathOf_eq, isMarkup, relOf_snoc, Ext_Join_last, Bool.not_false,
      Bool.true_and, beq_iff_eq, outputOf]
    by_cases hmd : filepath.Ext f = str ".md"
    · simp [hmd]
    · simp [hmd]

theorem generate_frame (env : Env) (tmpl : Template) (outPath rel : GoString)
    (buf : List UInt8) (w : World) (k : Key) :
    (generate env tmpl outPath rel buf w).2.fs k = w.fs k ∨
    (w.fs.kind k = Kind.absent ∧
      ∃ p, (generate env tmpl outPath rel buf w).2.fs k = some (Entry.dir p)) ∨
    k = resolve outPath := by
  obtain ⟨fs1, _, hext, h⟩ := generate_spec env tmpl outPath rel buf w
  have hk : fs1 k = w.fs k ∨ (w.fs.kind k = Kind.absent ∧ ∃ p, fs1 k = some (Entry.dir p)) :=
    hext k
  rcases h with ⟨e1, _, h⟩ | ⟨p, title, _, _, _, _, _, ⟨_, h⟩ | ⟨_, h⟩⟩
  · rw [h]
    rcases hk with hk | hk
    · exact Or.inl hk
    · exact Or.inr (Or.inl hk)
  all_goals
    rw [h]
    by_cases hx : k = resolve outPath
    · exact Or.inr (Or.inr hx)
    · simp only [FS.set, hx, if_false]
      rcases hk with hk | hk
      · exact Or.inl hk
      · exact Or.inr (Or.inl hk)

theorem contentFn_frame (env : Env) (tmpl : Template) (contentDir outDir path : GoString)
    (d : Option FileInfo) (err : Option Err) (w : World) (k : Key) :
    (contentFn env tmpl contentDir outDir path d err w).2.fs k = w.fs k ∨
    (w.fs.kind k = Kind.absent ∧
      ∃ p, (contentFn env tmpl contentDir outDir path d err w).2.fs k = some (Entry.dir p)) ∨
    (∃ p, docOutPath contentDir outDir ⟨path, d, err⟩ = some p ∧ k = resolve p) := by
  unfold contentFn docOutPath
  cases err with
  | some e0 => left; rfl
  | none =>
    cases d with
    | none => left; rfl
    | some d =>
      simp only
      cases hdir : d.isDir with
      | true => left; rfl
      | false =>
        simp only [Bool.false_eq_true, if_false]
        by_cases hext : filepath.Ext path ≠ str ".md"
        · left; simp [hext]
        · simp only [hext, if_false]
          cases hc : d.content with
          | none => left; rfl
          | some input =>
            simp only
            cases hconv : env.convert input with
            | none => left; rfl
            | some buf =>
              simp only
              cases hrel : filepath.Rel contentDir path with
              | none => left; rfl
              | some rel =>
                simp only [Option.some_bind]
                cases hout : outPathOf outDir rel with
                | none => left; rfl
                | some outPath =>
                  simp only
                  rcases generate_frame env tmpl outPath rel buf w k with h | h | h
                  · exact Or.inl h
                  · exact Or.inr (Or.inl h)
                  · exact Or.inr (Or.inr ⟨outPath, rfl, h⟩)

/-- The content walk changes the file system only by adding directories where
nothing existed and by writing the output files of the documents it visits. -/
theorem runVisits_content_frame (env : Env) (tmpl : Template) (contentDir outDir : GoString)
    (vs : List Visit) (w : World) (k : Key) :
    (runVisits (contentFn env tmpl contentDir outDir) vs w).2.fs k = w.fs k ∨
    (w.fs.kind k = Kind.absent ∧
      ∃ p, (runVisits (contentFn env tmpl contentDir outDir) vs w).2.fs k =
        some (Entry.dir p)) ∨
    (∃ v ∈ vs, ∃ p, docOutPath contentDir outDir v = some p ∧ k = resolve p) := by
  induction vs generalizing w with
  | nil => left; rfl
  | cons v vs ih =>
    obtain ⟨vp, vi, ve⟩ := v
    have h1 := contentFn_frame env tmpl contentDir outDir vp vi ve w k
    simp only [runVisits]
    rcases hs : contentFn env tmpl contentDir outDir vp vi ve w with ⟨_ | e, w1⟩
    · rw [hs] at h1
      simp only at h1 ⊢
      rcases ih w1 with h2 | ⟨h2, p, h3⟩ | ⟨v, hv, p, h4, h5⟩
      · rcases h1 with h1 | ⟨h1, p, h4⟩ | ⟨p, h4, h5⟩
        · left; rw [h2, h1]
        · right; left; exact ⟨h1, p, by rw [h2, h4]⟩
        · right; right; exact ⟨_, by simp, p, h4, h5⟩
      · rcases h1 with h1 | ⟨h1, p1, h4⟩ | ⟨p1, h4, h5⟩
        · right; left
          exact ⟨by rw [← kind_eq_of_eq w.fs w1.fs k h1]; exact h2, p, h3⟩
        · exfalso
          rw [kind_absent_iff] at h2
          rw [h4] at h2
          simp at h2
        · right; right; exact ⟨_, by simp, p1, h4, h5⟩
      · right; right; exact ⟨v, by simp [hv], p, h4, h5⟩
    · rw [hs] at h1
      simp only at h1 ⊢
      rcases h1 with h1 | h1 | ⟨p, h4, h5⟩
      · exact Or.inl h1
      · exact Or.inr (Or.inl h1)
      · right; right; exact ⟨_, by simp, p, h4, h5⟩

/-- A call of the content walk on an entry has an output path exactly when the
entry is a markup document, and the path is then the output path of the entry. -/
theorem docOutPath_entry (contentDir outDir : GoString) (e : List GoString × Node)
    (hn : ∀ n ∈ e.1, isName n) (hfile : e.2.info.isDir = false → e.1 ≠ []) :
    (∀ v ∈ dirVisits contentDir e, ∀ p, docOutPath contentDir outDir v = some p →
      isMarkup e = true ∧ p = outputOf outDir e) ∧
    (isMarkup e = true → ∃ v ∈ dirVisits contentDir e,
      docOutPath contentDir outDir v = some (outputOf outDir e)) := by
  obtain ⟨ns, nd⟩ := e
  simp only at hn hfile
  cases nd with
  | dir mode readable es =>
    cases readable <;>
      simp [dirVisits, docOutPath, Node.info, Node.unreadable, isMarkup]
  | file mode content =>
    have hne := hfile (by simp [Node.info])
    obtain ⟨ns0, f, rfl⟩ : ∃ ns0 f, ns = ns0 ++ [f] :=
      ⟨ns.dropLast, ns.getLast hne, (List.dropLast_append_getLast hne).symm⟩
    have hf := hn f (by simp)
    have hext := Ext_pathOf contentDir ns0 f hf.1
    have hrel := Rel_pathOf contentDir (ns0 ++ [f]) hn
    simp only [dirVisits, Node.unreadable, Bool.false_eq_true, if_false, List.mem_singleton,
      forall_eq, exists_eq_left, docOutPath, Node.info, hext, hrel,
      Option.some_bind, outPathOf_eq, isMarkup, relOf_snoc, Ext_Join_last, Bool.not_false,
      Bool.true_and, beq_iff_eq, outputOf]
    by_cases hmd : filepath.Ext f = str ".md"
    · simp [hmd]
    · simp [hmd]

theorem listing_file_names (tree : Node) (hdir : tree.info.isDir = true)
    (hnames : tree.namesOk = true) :
    ∀ e ∈ listing [] tree, (∀ n ∈ e.1, isName n) ∧ (e.2.info.isDir = false → e.1 ≠ []) := by
  intro e he
  refine ⟨(listing_names [] tree (by simp) hnames e he).1, ?_⟩
  cases tree with
  | file mode content => simp [Node.info] at hdir
  | dir mode readable es =>
    simp only [listing, List.mem_cons] at he
    rcases he with rfl | he
    · simp [Node.info]
    · intro _
      cases readable with
      | false => simp at he
      | true =>
        simp only [if_true] at he
        obtain ⟨_, name, _, hp⟩ := listingEntries_names [] es (by simp)
          (by simpa [Node.namesOk] using hnames) e he
        intro hnil
        rw [hnil] at hp
        have := hp.length_le
        simp at this

/-- The output paths of two markup documents resolve to the same entry only if
the documents have the same names. -/
theorem output_key_inj (outDir : GoString) (a b : List GoString × Node)
    (ha : ∀ n ∈ a.1, isName n) (hb : ∀ n ∈ b.1, isName n)
    (hma : isMarkup a = true) (hmb : isMarkup b = true) (hane : a.1 ≠ []) (hbne : b.1 ≠ [])
    (h : resolve (outputOf outDir a) = resolve (outputOf outDir b)) : a.1 = b.1 := by
  obtain ⟨na, nda⟩ := a
  obtain ⟨nb, ndb⟩ := b
  simp only at ha hb hane hbne ⊢
  obtain ⟨a0, f, rfl⟩ : ∃ a0 f, na = a0 ++ [f] :=
    ⟨na.dropLast, na.getLast hane, (List.dropLast_append_getLast hane).symm⟩
  obtain ⟨b0, g, rfl⟩ : ∃ b0 g, nb = b0 ++ [g] :=
    ⟨nb.dropLast, nb.getLast hbne, (List.dropLast_append_getLast hbne).symm⟩
  simp only [isMarkup, relOf_snoc, Ext_Join_last, Bool.and_eq_true, beq_iff_eq] at hma hmb
  unfold outputOf at h
  simp only at h
  rw [resolve_output outDir a0 f ha, resolve_output outDir b0 g hb] at h
  have h2 := keyAt_inj outDir _ _ h
  have h3 := List.append_inj_left' h2 (by simp)
  have h4 := List.append_inj_right' h2 (by simp)
  simp only [List.cons.injEq, and_true] at h4
  rw [h3, replaceExt_md_inj f g hma.2 hmb.2 h4]

theorem flatMap_congr_mem {α β : Type} (l : List α) (f g : α → List β)
    (h : ∀ a ∈ l, f a = g a) : l.flatMap f = l.flatMap g := by
  induction l with
  | nil => rfl
  | cons a l ih =>
    simp only [List.flatMap_cons]
    rw [h a (by simp), ih (fun b hb => h b (by simp [hb]))]

theorem flatMap_flatMap {α β γ : Type} (l : List α) (f : α → List β) (g : β → List γ) :
    (l.flatMap f).flatMap g = l.flatMap (fun a => (f a).flatMap g) := by
  induction l with
  | nil => rfl
  | cons a l ih => simp only [List.flatMap_cons, List.flatMap_append, ih]

/-- Counterexample to claim C3 as stated: in `collidingContent` every file can be
read, the converter and the template never fail and no path is denied, so
reading, converting and rendering succeed for every document; the tree has the
two markup documents `a.html/b.md` and `a.md`, but the walk generates only the
first: the output path of `a.md` is the directory made for the first, creating
the output file fails, and the walk returns that error. -/
theorem content_walk_output_collides_with_directory :
    ((listing [] collidingContent).filter isMarkup).map Prod.fst =
      [[str "a.html", str "b.md"], [str "a.md"]] ∧
    (∀ e ∈ listing [] collidingContent, ∀ mode, e.2 ≠ Node.file mode none) ∧
    (∀ input, demoEnv.convert input ≠ none) ∧
    (∀ name page, (demoTemplate.execute name page).2 = false) ∧
    (∀ k, demoEnv.denied k = false) ∧
    (filepath.WalkDir (str "content") (some collidingContent)
      (contentFn demoEnv demoTemplate (str "content") (str "public")) emptyWorld).1 =
        some Err.isDir ∧
    (filepath.WalkDir (str "content") (some collidingContent)
      (contentFn demoEnv demoTemplate (str "content") (str "public")) emptyWorld).2.out =
        [str "Generated public/a.html/b.html"] ∧
    outputOf (str "public") ([str "a.md"], Node.file 420 (some (str "A"))) =
      str "public/a.html" ∧
    (filepath.WalkDir (str "content") (some collidingContent)
      (contentFn demoEnv demoTemplate (str "content") (str "public")) emptyWorld).2.fs
        (resolve (str "public/a.html")) = some (Entry.dir 493) := by
  refine ⟨by decide, ?_, ?_, ?_, ?_, by decide, by decide, by decide, by decide⟩
  · intro e he mode
    simp only [listing, listingEntries, collidingContent, if_true, List.nil_append,
      List.mem_cons, List.mem_append, List.mem_singleton, List.not_mem_nil, or_false] at he
    rcases he with rfl | (rfl | rfl) | rfl <;> simp
  · intro input; simp [demoEnv]
  · intro name page; rfl
  · intro k; rfl

/-- Claim C3, amended: when the content walk over a directory tree of file names
returns no error (every step succeeds for every entry, also creating the
destination directory and the output file), it generates exactly one output file
per markup document and nothing for the other entries.  The progress lines are those of the markup documents,
one per document in the order of the walk; the output file of every document
exists; different documents have different output files (the map from documents
to output paths is injective); and apart from directories made where nothing
existed, the file system changes only at the output paths of the documents. -/
theorem content_walk_one_output_per_document (env : Env) (tmpl : Template)
    (contentDir outDir : GoString) (tree : Node) (w : World)
    (hdir : tree.info.isDir = true) (hnames : tree.namesOk = true)
    (hok : (filepath.WalkDir contentDir (some tree)
      (contentFn env tmpl contentDir outDir) w).1 = none) :
    (filepath.WalkDir contentDir (some tree) (contentFn env tmpl contentDir outDir) w).2.out =
      w.out ++ ((listing [] tree).filter isMarkup).map
        (fun e => str "Generated " ++ outputOf outDir e) ∧
    (∀ e ∈ (listing [] tree).filter isMarkup,
      (filepath.WalkDir contentDir (some tree)
        (contentFn env tmpl contentDir outDir) w).2.fs.kind (resolve (outputOf outDir e)) =
          Kind.file) ∧
    (((listing [] tree).filter isMarkup).map (fun e => resolve (outputOf outDir e))).Nodup ∧
    (∀ a ∈ (listing [] tree).filter isMarkup, ∀ b ∈ (listing [] tree).filter isMarkup,
      outputOf outDir a = outputOf outDir b → a = b) ∧
    (∀ k, (filepath.WalkDir contentDir (some tree)
          (contentFn env tmpl contentDir outDir) w).2.fs k = w.fs k ∨
      (w.fs.kind k = Kind.absent ∧ ∃ p, (filepath.WalkDir contentDir (some tree)
          (contentFn env tmpl contentDir outDir) w).2.fs k = some (Entry.dir p)) ∨
      ∃ e ∈ (listing [] tree).filter isMarkup, k = resolve (outputOf outDir e)) := by
  have hrun := WalkDir_eq_run (contentFn env tmpl contentDir outDir)
    (contentFn_noSkip env tmpl contentDir outDir) contentDir (some tree) w
  rw [visitsWalkDir_listing contentDir tree hnames] at hrun
  rw [hrun] at hok ⊢
  have hent := listing_file_names tree hdir hnames
  obtain ⟨p1, _, p3⟩ := runVisits_content_ok env tmpl contentDir outDir _ w hok
  have hinj : ∀ a ∈ (listing [] tree).filter isMarkup, ∀ b ∈ (listing [] tree).filter isMarkup,
      resolve (outputOf outDir a) = resolve (outputOf outDir b) → a.1 = b.1 := by
    intro a ha b hb h
    obtain ⟨ha1, ha2⟩ := List.mem_filter.mp ha
    obtain ⟨hb1, hb2⟩ := List.mem_filter.mp hb
    have hfa : a.2.info.isDir = false := by
      simp only [isMarkup, Bool.and_eq_true, Bool.not_eq_eq_eq_not, Bool.not_true] at ha2
      exact ha2.1
    have hfb : b.2.info.isDir = false := by
      simp only [isMarkup, Bool.and_eq_true, Bool.not_eq_eq_eq_not, Bool.not_true] at hb2
      exact hb2.1
    exact output_key_inj outDir a b (hent a ha1).1 (hent b hb1).1 ha2 hb2
      ((hent a ha1).2 hfa) ((hent b hb1).2 hfb) h
  have hnd : (((listing [] tree).filter isMarkup).map Prod.fst).Nodup :=
    (listing_nodup [] tree (by simp) hnames).sublist
      ((List.filter_sublist _).map Prod.fst)
  refine ⟨?_, ?_, ?_, ?_, ?_⟩
  · rw [p1, flatMap_flatMap,
      flatMap_congr_mem _ _ _ (fun e he =>
        docLine_entry contentDir outDir e (hent e he).1 (hent e he).2),
      flatMap_ite_singleton]
  · intro e he
    obtain ⟨he1, he2⟩ := List.mem_filter.mp he
    obtain ⟨v, hv, hp⟩ :=
      (docOutPath_entry contentDir outDir e (hent e he1).1 (hent e he1).2).2 he2
    exact p3 v (List.mem_flatMap.mpr ⟨e, he1, hv⟩) _ hp
  · apply List.Nodup.map_on _ (hnd.of_map _)
    intro a ha b hb h
    exact List.inj_on_of_nodup_map hnd ha hb (hinj a ha b hb h)
  · intro a ha b hb h
    exact List.inj_on_of_nodup_map hnd ha hb (hinj a ha b hb (by rw [h]))
  · intro k
    rcases runVisits_content_frame env tmpl contentDir outDir _ w k with
      h | h | ⟨v, hv, p, hp, hk⟩
    · exact Or.inl h
    · exact Or.inr (Or.inl h)
    · right; right
      obtain ⟨e, he, hve⟩ := List.mem_flatMap.mp hv
      obtain ⟨hm, hpe⟩ :=
        (docOutPath_entry contentDir outDir e (hent e he).1 (hent e he).2).1 v hve p hp
      exact ⟨e, List.mem_filter.mpr ⟨he, hm⟩, by rw [hk, hpe]⟩

/-- Witness of claim C3: `demoContent`, with the documents `hello.md` and
`posts/a.md`, the file `notes.txt` and the directory `posts`. -/
theorem content_walk_one_output_per_document_witness :
    demoContent.info.isDir = true ∧ demoContent.namesOk = true ∧
    (filepath.WalkDir (str "content") (some demoContent)
      (contentFn demoEnv demoTemplate (str "content") (str "public")) emptyWorld).1 = none ∧
    (filepath.WalkDir (str "content") (some demoContent)
      (contentFn demoEnv demoTemplate (str "content") (str "public")) emptyWorld).2.out =
      emptyWorld.out ++ ((listing [] demoContent).filter isMarkup).map
        (fun e => str "Generated " ++ outputOf (str "public") e) ∧
    (filepath.WalkDir (str "content") (some demoContent)
      (contentFn demoEnv demoTemplate (str "content") (str "public")) emptyWorld).2.out =
      [str "Generated public/hello.html", str "Generated public/posts/a.html"] ∧
    (filepath.WalkDir (str "content") (some demoContent)
      (contentFn demoEnv demoTemplate (str "content") (str "public")) emptyWorld).2.fs
        (resolve (str "public/notes.html")) = none ∧
    (filepath.WalkDir (str "content") (some demoContent)
      (contentFn demoEnv demoTemplate (str "content") (str "public")) emptyWorld).2.fs
        (resolve (str "public/notes.txt")) = none :=
  ⟨by decide, by decide, by decide,
    (content_walk_one_output_per_document demoEnv demoTemplate (str "content") (str "public")
      demoContent emptyWorld (by decide) (by decide) (by decide)).1,
    by decide, by decide, by decide⟩

/-! ## Running the build steps twice -/

theorem Confined_refl (K : Key) (fs : FS) : Confined K fs fs := fun _ _ => rfl

theorem Confined_trans (K : Key) (a b c : FS) (h1 : Confined K a b) (h2 : Confined K b c) :
    Confined K a c := fun x hx => by rw [h2 x hx, h1 x hx]

theorem Confined_kind (K : Key) (a b : FS) (h : Confined K a b) : b.kind K = a.kind K :=
  kind_eq_of_eq a b K (h K (fun hx => hx.2 rfl))

theorem Confined_set (K k : Key) (fs : FS) (e : Entry) (hk : K.within k = true) (hne : k ≠ K) :
    Confined K fs (fs.set k e) := by
  intro x hx
  have : x ≠ k := fun h => hx (h ▸ ⟨hk, hne⟩)
  simp [FS.set, this]

theorem within_append (r : Bool) (ke ns : List GoString) :
    Key.within ⟨r, ke⟩ ⟨r, ke ++ ns⟩ = true := by
  simp [Key.within, List.isPrefixOf_iff_prefix]

theorem key_append_ne (r : Bool) (ke ns : List GoString) (hne : ns ≠ []) :
    (⟨r, ke ++ ns⟩ : Key) ≠ ⟨r, ke⟩ := by
  intro h
  simp only [Key.mk.injEq, true_and] at h
  have := congrArg List.length h
  simp only [List.length_append] at this
  have : ns.length = 0 := by omega
  exact hne (List.length_eq_zero.mp this)

/-- Making a directory below an existing directory `K` with all its parents
changes the file system only strictly below `K`. -/
theorem mkdirAllAux_confined (env : Env) (r : Bool) (perm : Nat) (ke rn : List GoString)
    (fs : FS) (hK : fs.kind ⟨r, ke⟩ = Kind.dir) :
    Confined ⟨r, ke⟩ fs (os.mkdirAllAux env r perm (rn ++ ke.reverse) fs).2 := by
  induction rn generalizing fs with
  | nil =>
    simp only [List.nil_append]
    cases hre : ke.reverse with
    | nil => exact Confined_refl _ _
    | cons e re =>
      have hke : (e :: re).reverse = ke := by rw [← hre, List.reverse_reverse]
      unfold os.mkdirAllAux
      rw [hke, hK]
      exact Confined_refl _ _
  | cons n rn ih =>
    have hkey : (n :: (rn ++ ke.reverse)).reverse = ke ++ (rn.reverse ++ [n]) := by simp
    simp only [List.cons_append]
    unfold os.mkdirAllAux
    rw [hkey]
    rcases hk : fs.kind ⟨r, ke ++ (rn.reverse ++ [n])⟩ with _ | _ | _
    · simp only
      have ih1 := ih fs hK
      rcases hr : os.mkdirAllAux env r perm (rn ++ ke.reverse) fs with ⟨_ | err, fs1⟩
      · rw [hr] at ih1
        simp only at ih1 ⊢
        rcases Mkdir_cases env ⟨r, ke ++ (rn.reverse ++ [n])⟩ perm fs1 with
          ⟨e1, _, h⟩ | ⟨h, _, _, _⟩
        · rw [h]; exact ih1
        · rw [h]
          exact Confined_trans _ _ _ _ ih1
            (Confined_set _ _ _ _ (within_append r ke _) (key_append_ne r ke _ (by simp)))
      · rw [hr] at ih1
        exact ih1
    · exact Confined_refl _ _
    · exact Confined_refl _ _

/-- Running `MkdirAll` again in the state that it left gives the same result. -/
theorem mkdirAllAux_idem (env : Env) (r : Bool) (perm : Nat) (re : List GoString) (fs : FS) :
    os.mkdirAllAux env r perm re (os.mkdirAllAux env r perm re fs).2 =
      os.mkdirAllAux env r perm re fs := by
  induction re generalizing fs with
  | nil => rfl
  | cons e re ih =>
    have hchild := mkdirAllAux_keeps_child env r perm e re fs
    have ih1 := ih fs
    rcases hk : fs.kind ⟨r, (e :: re).reverse⟩ with _ | _ | _
    · have hk1 : (os.mkdirAllAux env r perm re fs).2.kind ⟨r, (e :: re).reverse⟩ =
          Kind.absent := by rw [kind_eq_of_eq _ _ _ hchild]; exact hk
      rw [mkdirAllAux_cons_absent env r perm e re fs hk]
      rcases hr : os.mkdirAllAux env r perm re fs with ⟨_ | err, fs1⟩
      · rw [hr] at ih1 hk1
        simp only at ih1 hk1 ⊢
        rcases Mkdir_cases env ⟨r, (e :: re).reverse⟩ perm fs1 with
          ⟨e1, _, h1⟩ | ⟨h1, ha, _, _⟩
        · rw [h1]
          simp only
          rw [mkdirAllAux_cons_absent env r perm e re fs1 hk1, ih1]
          simp only [h1]
        · rw [h1]
          simp only
          exact mkdirAllAux_cons_dir env r perm e re _
            (kind_set_dir _ _ _ ((kind_absent_iff _ _).mp ha).1)
      · rw [hr] at ih1 hk1
        simp only at ih1 hk1 ⊢
        rw [mkdirAllAux_cons_absent env r perm e re fs1 hk1, ih1]
    · rw [mkdirAllAux_cons_file env r perm e re fs hk]
      exact mkdirAllAux_cons_file env r perm e re fs hk
    · rw [mkdirAllAux_cons_dir env r perm e re fs hk]
      exact mkdirAllAux_cons_dir env r perm e re fs hk

theorem without_of_none (fs : FS) (K : Key) (h : ∀ x, K.within x = true → fs x = none) :
    fs.without K = fs := by
  funext x
  unfold FS.without
  by_cases hx : K.within x = true
  · rw [if_pos hx, h x hx]
  · rw [if_neg hx]

theorem without_within (fs : FS) (K x : Key) (h : K.within x = true) :
    fs.without K x = none := by
  simp [FS.without, h]

theorem within_self (K : Key) : K.within K = true := by
  simp [Key.within, List.isPrefixOf_iff_prefix]

theorem ancestor_not_within (r : Bool) (e : GoString) (re l : List GoString)
    (hl : l <:+ re) : Key.within ⟨r, (e :: re).reverse⟩ ⟨r, l.reverse⟩ = false := by
  cases h : Key.within ⟨r, (e :: re).reverse⟩ ⟨r, l.reverse⟩ with
  | false => rfl
  | true =>
    exfalso
    simp only [Key.within, beq_self_eq_true, Bool.true_and,
      List.isPrefixOf_iff_prefix] at h
    have h1 := h.length_le
    have h2 := hl.length_le
    simp at h1
    omega

/-- Preparing the output directory again, in the state that the first
preparation left, gives the same result. -/
theorem prep_stable (env : Env) (K : Key) (perm : Nat) (fs : FS)
    (hnone : ∀ x, K.within x = true → fs x = none) :
    os.mkdirAllAux env K.rooted perm K.elems.reverse
        ((os.mkdirAllAux env K.rooted perm K.elems.reverse fs).2.without K) =
      os.mkdirAllAux env K.rooted perm K.elems.reverse fs := by
  obtain ⟨r, ke⟩ := K
  simp only
  cases hre : ke.reverse with
  | nil =>
    simp only [os.mkdirAllAux]
    rw [without_of_none fs _ hnone]
  | cons e re =>
    have hke : (e :: re).reverse = ke := by rw [← hre, List.reverse_reverse]
    have hKnone : fs ⟨r, (e :: re).reverse⟩ = none := by
      rw [hke]; exact hnone _ (within_self _)
    have hstay : ∀ fs2 : FS, (∀ x, fs2 x ≠ fs x → ∃ l, l ≠ [] ∧ l <:+ re ∧ x = ⟨r, l.reverse⟩) →
        ∀ x, Key.within ⟨r, ke⟩ x = true → fs2 x = none := by
      intro fs2 h2 x hx
      by_contra hne
      have hne2 : fs2 x ≠ fs x := by rw [hnone x hx]; exact hne
      obtain ⟨l, _, hl, rfl⟩ := h2 x hne2
      have := ancestor_not_within r e re l hl
      rw [hke] at this
      rw [this] at hx
      cases hx
    rcases hk : fs.kind ⟨r, (e :: re).reverse⟩ with _ | _ | _
    · rw [mkdirAllAux_cons_absent env r perm e re fs hk]
      have hpar := hstay (os.mkdirAllAux env r perm re fs).2
        (fun x hx => mkdirAllAux_changes env r perm re fs x hx)
      have hidem := mkdirAllAux_idem env r perm re fs
      rcases hr : os.mkdirAllAux env r perm re fs with ⟨_ | err, fs1⟩
      · rw [hr] at hpar hidem
        simp only at hpar hidem ⊢
        have hk1 : fs1.kind ⟨r, (e :: re).reverse⟩ = Kind.absent := by
          rw [kind_absent_iff]
          exact ⟨((kind_absent_iff _ _).mp hk).1, by rw [hke]; exact hpar _ (within_self _)⟩
        rcases Mkdir_cases env ⟨r, (e :: re).reverse⟩ perm fs1 with
          ⟨e1, _, h1⟩ | ⟨h1, _, _, _⟩
        · rw [h1]
          simp only
          rw [without_of_none fs1 _ hpar, mkdirAllAux_cons_absent env r perm e re fs1 hk1,
            hidem]
          simp only [h1]
        · rw [h1]
          simp only
          have hw : (fs1.set ⟨r, (e :: re).reverse⟩
              (Entry.dir (applyUmask env.umask perm))).without ⟨r, ke⟩ = fs1 := by
            funext x
            unfold FS.without
            by_cases hx : Key.within ⟨r, ke⟩ x = true
            · rw [if_pos hx, hpar x hx]
            · rw [if_neg hx]
              have : x ≠ ⟨r, (e :: re).reverse⟩ := by
                intro h; apply hx; rw [h, hke]; exact within_self _
              unfold FS.set
              rw [if_neg this]
          rw [hw, mkdirAllAux_cons_absent env r perm e re fs1 hk1, hidem]
          simp only [h1]
      · rw [hr] at hpar hidem
        simp only at hpar hidem ⊢
        have hk1 : fs1.kind ⟨r, (e :: re).reverse⟩ = Kind.absent := by
          rw [kind_absent_iff]
          exact ⟨((kind_absent_iff _ _).mp hk).1, by rw [hke]; exact hpar _ (within_self _)⟩
        rw [without_of_none fs1 _ hpar, mkdirAllAux_cons_absent env r perm e re fs1 hk1,
          hidem]
    · exfalso
      obtain ⟨_, p, d, hf⟩ := (kind_file_iff _ _).mp hk
      rw [hKnone] at hf
      cases hf
    · rw [mkdirAllAux_cons_dir env r perm e re fs hk]
      simp only
      rw [without_of_none fs _ hnone]
      exact mkdirAllAux_cons_dir env r perm e re fs hk

/-! ## Both walks write only below the output directory -/

theorem keyAt_nil (base : GoString) :
    keyAt base [] = ⟨filepath.isRooted base, filepath.cleanElems base⟩ := by
  simp [keyAt]

theorem copyEntry_confined (env : Env) (dstBase : GoString) (e : List GoString × Node)
    (fs : FS) (hK : fs.kind (keyAt dstBase []) = Kind.dir) :
    Confined (keyAt dstBase []) fs (copyEntry env dstBase e fs).2 := by
  obtain ⟨ns, nd⟩ := e
  rw [keyAt_nil] at hK ⊢
  unfold copyEntry
  cases nd with
  | file mode content =>
    cases content with
    | none => exact Confined_refl _ _
    | some data =>
      simp only
      rcases writeFileAt_effect env (keyAt dstBase ns) data mode fs with
        ⟨e1, _, h⟩ | ⟨p, d, r, h, _, _, _, hk, _⟩
      · rw [h]; exact Confined_refl _ _
      · rw [h]
        have hne : ns ≠ [] := by
          intro h0; subst h0; rw [keyAt_nil] at hk; exact hk hK
        exact Confined_set _ _ _ _ (within_append _ _ ns) (key_append_ne _ _ ns hne)
  | dir mode readable es =>
    cases readable with
    | false => exact Confined_refl _ _
    | true =>
      simp only [keyAt, List.reverse_append]
      exact mkdirAllAux_confined env _ ModePerm _ ns.reverse fs hK

theorem runVisits_confined (K : Key) (fn : WalkFn World) (vs : List Visit)
    (hstep : ∀ v ∈ vs, ∀ w : World, w.fs.kind K = Kind.dir →
      Confined K w.fs (fn v.path v.info v.err w).2.fs)
    (w : World) (hK : w.fs.kind K = Kind.dir) :
    Confined K w.fs (runVisits fn vs w).2.fs := by
  induction vs generalizing w with
  | nil => exact Confined_refl _ _
  | cons v vs ih =>
    have h1 := hstep v (by simp) w hK
    simp only [runVisits]
    rcases hv : fn v.path v.info v.err w with ⟨_ | e, w1⟩
    · rw [hv] at h1
      simp only at h1 ⊢
      have hK1 : w1.fs.kind K = Kind.dir := by rw [Confined_kind K _ _ h1]; exact hK
      exact Confined_trans _ _ _ _ h1 (ih (fun u hu => hstep u (by simp [hu])) w1 hK1)
    · rw [hv] at h1
      exact h1

/-- The asset mirror changes the file system only strictly below the
destination directory, when that directory exists. -/
theorem copyStatic_confined (env : Env) (src dstBase : GoString) (tree : Option Node)
    (hok : treeOk tree = true) (w : World) (hK : w.fs.kind (keyAt dstBase []) = Kind.dir) :
    Confined (keyAt dstBase []) w.fs (copyStatic env src dstBase tree w).fs := by
  unfold copyStatic
  rw [Walk_eq_run _ (copyStaticFn_noSkip env src dstBase)]
  apply runVisits_confined _ _ _ _ w hK
  intro v hv w0 hK0
  cases tree with
  | none =>
    simp only [visitsWalkRoot, List.mem_singleton] at hv
    subst hv
    exact Confined_refl _ _
  | some n =>
    have hn : n.namesOk = true := hok
    rw [visitsWalkRoot_listing src n hn] at hv
    obtain ⟨e, he, rfl⟩ := List.mem_map.mp hv
    rw [copyStaticFn_entry env src dstBase e (listing_names [] n (by simp) hn e he).1 w0]
    exact copyEntry_confined env dstBase e w0.fs hK0

theorem resolve_append_sep (X : GoString) (hX : X ≠ []) : resolve (X ++ [sep]) = resolve X := by
  unfold resolve filepath.cleanElems
  rw [isRooted_append X _ hX, Split_append_sep, List.foldl_append]
  simp [strings.Split, filepath.cleanStep]

theorem render_snoc (r : Bool) (E : List GoString) (g : GoString) (hE : E ≠ [])
    (hc : Canonical r E) :
    filepath.render r (E ++ [g]) = filepath.render r E ++ sep :: g := by
  cases r with
  | true => simp [render_true, Join_append_singleton E g hE]
  | false =>
    obtain ⟨e, E2, rfl⟩ := List.exists_cons_of_ne_nil hE
    have he := (Canonical_sep_free false _ hc e (by simp)).2
    rw [List.cons_append, render_cons_false e _ he, render_cons_false e _ he]
    exact Join_append_singleton (e :: E2) g (by simp)

/-- The directory of a cleaned path that ends in a file name resolves to the
elements before the name. -/
theorem resolve_Dir_render (r : Bool) (E : List GoString) (g : GoString)
    (hc : Canonical r E) (hg : isName g) :
    resolve (filepath.Dir (filepath.render r (E ++ [g]))) = ⟨r, E⟩ := by
  unfold filepath.Dir
  rw [resolve_Clean]
  by_cases hE : E = []
  · subst hE
    cases r with
    | true =>
      have hp : filepath.render true ([] ++ [g]) = [sep] ++ g := by
        simp [render_true, Join_singleton]
      have hl : filepath.lastElement ([sep] ++ g) = g := by
        have := lastElement_append_sep [] g hg.2.1
        simpa using this
      rw [hp, hl, take_stem]
      decide
    | false =>
      have hp : filepath.render false ([] ++ [g]) = g := by
        simp [render_cons_false g [] hg.1, Join_singleton]
      rw [hp, lastElement_of_no_sep g hg.2.1]
      simp only [Nat.sub_self, List.take_zero]
      decide
  · have hp := render_snoc r E g hE hc
    have hp2 : filepath.render r E ++ sep :: g = (filepath.render r E ++ [sep]) ++ g := by simp
    have hl : filepath.lastElement (filepath.render r E ++ sep :: g) = g :=
      lastElement_append_sep _ g hg.2.1
    rw [hp, hl]
    conv_lhs => rw [hp2, take_stem]
    rw [resolve_append_sep _ (render_ne_nil r E), resolve_render r E hc]

theorem generate_confined (env : Env) (tmpl : Template) (outDir : GoString)
    (names : List GoString) (rel : GoString) (buf : List UInt8) (w : World)
    (hne : names ≠ []) (hn : ∀ n ∈ names, isName n)
    (hK : w.fs.kind (keyAt outDir []) = Kind.dir) :
    Confined (keyAt outDir []) w.fs
      (generate env tmpl (filepath.Join [outDir, strings.Join names]) rel buf w).2.fs := by
  obtain ⟨n0, g, rfl⟩ : ∃ n0 g, names = n0 ++ [g] :=
    ⟨names.dropLast, names.getLast hne, (List.dropLast_append_getLast hne).symm⟩
  have hg := hn g (by simp)
  have hn0 : ∀ n ∈ n0, isName n := fun n h => hn n (by simp [h])
  have hout := Join_dir_names outDir (n0 ++ [g]) hne hn
  have hkey := resolve_Join_names outDir (n0 ++ [g]) hne hn
  have hdir : resolve (filepath.Dir (filepath.Join [outDir, strings.Join (n0 ++ [g])])) =
      ⟨filepath.isRooted outDir, filepath.cleanElems outDir ++ n0⟩ := by
    rw [hout, ← List.append_assoc]
    exact resolve_Dir_render _ _ g (Canonical_root_names outDir n0 hn0) hg
  rw [keyAt_nil] at hK ⊢
  obtain ⟨fs1, hfs1, _, h⟩ := generate_spec env tmpl
    (filepath.Join [outDir, strings.Join (n0 ++ [g])]) rel buf w
  have hc1 : Confined ⟨filepath.isRooted outDir, filepath.cleanElems outDir⟩ w.fs fs1 := by
    rw [← hfs1]
    rw [MkdirAll_clean env _ ModePerm w.fs (Clean_Dir _), hdir]
    simp only [List.reverse_append]
    exact mkdirAllAux_confined env _ ModePerm _ n0.reverse w.fs hK
  have hset : ∀ e : Entry, Confined ⟨filepath.isRooted outDir, filepath.cleanElems outDir⟩ w.fs
      (fs1.set (resolve (filepath.Join [outDir, strings.Join (n0 ++ [g])])) e) := by
    intro e
    rw [hkey]
    exact Confined_trans _ _ _ _ hc1
      (Confined_set _ _ _ _ (within_append _ _ _) (key_append_ne _ _ _ hne))
  rcases h with ⟨e1, _, h⟩ | ⟨p, title, _, _, _, _, _, ⟨_, h⟩ | ⟨_, h⟩⟩
  · rw [h]; exact hc1
  · rw [h]; exact hset _
  · rw [h]; exact hset _

theorem replaceExt_relOf (ns : List GoString) (hn : ∀ n ∈ ns, isName n) :
    ∃ names, names ≠ [] ∧ (∀ n ∈ names, isName n) ∧
      replaceExt (relOf ns) = strings.Join names := by
  by_cases hns : ns = []
  · subst hns
    refine ⟨[str ".html"], by simp, ?_, ?_⟩
    · intro n h
      simp only [List.mem_singleton] at h
      subst h
      decide
    · rw [Join_singleton]; decide
  · obtain ⟨n0, f, rfl⟩ : ∃ n0 f, ns = n0 ++ [f] :=
      ⟨ns.dropLast, ns.getLast hns, (List.dropLast_append_getLast hns).symm⟩
    refine ⟨n0 ++ [replaceExt f], by simp, ?_, ?_⟩
    · intro n h
      simp only [List.mem_append, List.mem_singleton] at h
      rcases h with h | rfl
      · exact hn n (by simp [h])
      · exact replaceExt_isName f (hn f (by simp)).2.1
    · rw [relOf_snoc, replaceExt_Join]

theorem contentFn_confined (env : Env) (tmpl : Template) (contentDir outDir : GoString)
    (e : List GoString × Node) (hn : ∀ n ∈ e.1, isName n) (v : Visit)
    (hv : v ∈ dirVisits contentDir e) (w : World)
    (hK : w.fs.kind (keyAt outDir []) = Kind.dir) :
    Confined (keyAt outDir []) w.fs
      (contentFn env tmpl contentDir outDir v.path v.info v.err w).2.fs := by
  obtain ⟨ns, nd⟩ := e
  simp only at hn
  have hrel := Rel_pathOf contentDir ns hn
  obtain ⟨names, hne, hnames, hrep⟩ := replaceExt_relOf ns hn
  have hgen : ∀ buf, Confined (keyAt outDir []) w.fs
      (generate env tmpl (filepath.Join [outDir, replaceExt (relOf ns)]) (relOf ns) buf w).2.fs := by
    intro buf
    rw [hrep]
    exact generate_confined env tmpl outDir names _ buf w hne hnames hK
  have hmain : Confined (keyAt outDir []) w.fs
      (contentFn env tmpl contentDir outDir (pathOf contentDir ns) (some nd.info) none w).2.fs := by
    unfold contentFn
    simp only [hrel, outPathOf_eq]
    split
    · exact Confined_refl _ _
    · split
      · exact Confined_refl _ _
      · split
        · exact Confined_refl _ _
        · split
          · exact Confined_refl _ _
          · exact hgen _
  simp only [dirVisits, List.mem_cons] at hv
  rcases hv with rfl | hv
  · exact hmain
  · split at hv
    · simp only [List.mem_singleton] at hv
      subst hv
      exact Confined_refl _ _
    · simp at hv

/-- The content walk changes the file system only strictly below the output
directory, when that directory exists. -/
theorem contentWalk_confined (env : Env) (tmpl : Template) (contentDir outDir : GoString)
    (tree : Option Node) (hok : treeOk tree = true) (w : World)
    (hK : w.fs.kind (keyAt outDir []) = Kind.dir) :
    Confined (keyAt outDir []) w.fs
      (filepath.WalkDir contentDir tree (contentFn env tmpl contentDir outDir) w).2.fs := by
  rw [WalkDir_eq_run _ (contentFn_noSkip env tmpl contentDir outDir)]
  apply runVisits_confined _ _ _ _ w hK
  intro v hv w0 hK0
  cases tree with
  | none =>
    simp only [visitsWalkDir, List.mem_singleton] at hv
    subst hv
    exact Confined_refl _ _
  | some n =>
    have hn : n.namesOk = true := hok
    rw [visitsWalkDir_listing contentDir n hn] at hv
    obtain ⟨e, he, hve⟩ := List.mem_flatMap.mp hv
    exact contentFn_confined env tmpl contentDir outDir e
      (listing_names [] n (by simp) hn e he).1 v hve w0 hK0

/-! ## The printed lines do not influence the file system -/

theorem runVisits_fs_irrel (fn : WalkFn World)
    (hfn : ∀ p d e (w w2 : World), w.fs = w2.fs →
      (fn p d e w).1 = (fn p d e w2).1 ∧ (fn p d e w).2.fs = (fn p d e w2).2.fs)
    (vs : List Visit) (w w2 : World) (h : w.fs = w2.fs) :
    (runVisits fn vs w).1 = (runVisits fn vs w2).1 ∧
      (runVisits fn vs w).2.fs = (runVisits fn vs w2).2.fs := by
  induction vs generalizing w w2 with
  | nil => exact ⟨rfl, h⟩
  | cons v vs ih =>
    obtain ⟨h1, h2⟩ := hfn v.path v.info v.err w w2 h
    simp only [runVisits]
    rcases ha : fn v.path v.info v.err w with ⟨_ | e, wa⟩ <;>
      rcases hb : fn v.path v.info v.err w2 with ⟨_ | e2, wb⟩ <;>
      rw [ha, hb] at h1 h2 <;> simp only at h1 h2 ⊢
    · exact ih wa wb h2
    · cases h1
    · cases h1
    · exact ⟨h1, h2⟩

theorem copyStaticFn_fs_irrel (env : Env) (src dstBase : GoString) (p : GoString)
    (d : Option FileInfo) (e : Option Err) (w w2 : World) (h : w.fs = w2.fs) :
    (copyStaticFn env src dstBase p d e w).1 = (copyStaticFn env src dstBase p d e w2).1 ∧
      (copyStaticFn env src dstBase p d e w).2.fs =
        (copyStaticFn env src dstBase p d e w2).2.fs := by
  unfold copyStaticFn
  cases e with
  | some e0 => exact ⟨rfl, h⟩
  | none =>
    simp only
    cases filepath.Rel src p with
    | none => exact ⟨rfl, h⟩
    | some rel =>
      simp only
      cases d with
      | none => exact ⟨rfl, h⟩
      | some info =>
        simp only
        cases info.isDir with
        | true => simp only [if_true, h, and_self]
        | false =>
          simp only [Bool.false_eq_true, if_false]
          cases info.content with
          | none => exact ⟨rfl, h⟩
          | some data => simp only [h, and_self]

theorem generate_fs_irrel (env : Env) (tmpl : Template) (outPath rel : GoString)
    (buf : List UInt8) (w w2 : World) (h : w.fs = w2.fs) :
    (generate env tmpl outPath rel buf w).1 = (generate env tmpl outPath rel buf w2).1 ∧
      (generate env tmpl outPath rel buf w).2.fs =
        (generate env tmpl outPath rel buf w2).2.fs := by
  unfold generate
  rw [h]
  rcases os.MkdirAll env (filepath.Dir outPath) ModePerm w2.fs with ⟨_ | e, fs1⟩
  · simp only
    cases deriveTitle rel with
    | none => exact ⟨rfl, rfl⟩
    | some title =>
      simp only
      rcases os.Create env outPath fs1 with ⟨_ | e, fs2⟩
      · simp only
        cases (tmpl.execute (str "base.html") ⟨title, buf⟩).2 with
        | true => exact ⟨rfl, rfl⟩
        | false => exact ⟨rfl, rfl⟩
      · exact ⟨rfl, rfl⟩
  · exact ⟨rfl, rfl⟩

theorem contentFn_fs_irrel (env : Env) (tmpl : Template) (contentDir outDir : GoString)
    (p : GoString) (d : Option FileInfo) (e : Option Err) (w w2 : World) (h : w.fs = w2.fs) :
    (contentFn env tmpl contentDir outDir p d e w).1 =
        (contentFn env tmpl contentDir outDir p d e w2).1 ∧
      (contentFn env tmpl contentDir outDir p d e w).2.fs =
        (contentFn env tmpl contentDir outDir p d e w2).2.fs := by
  unfold contentFn
  cases e with
  | some e0 => exact ⟨rfl, h⟩
  | none =>
    cases d with
    | none => exact ⟨rfl, h⟩
    | some d =>
      simp only
      split
      · exact ⟨rfl, h⟩
      · split
        · exact ⟨rfl, h⟩
        · split
          · exact ⟨rfl, h⟩
          · split
            · exact ⟨rfl, h⟩
            · split
              · exact ⟨rfl, h⟩
              · split
                · exact ⟨rfl, h⟩
                · exact generate_fs_irrel env tmpl _ _ _ w w2 h

/-- The result of generating the site depends on the file system only, not on
the lines printed before. -/
theorem generateAll_fs_irrel (env : Env) (flags : Flags) (content static : Option Node)
    (w w2 : World) (h : w.fs = w2.fs) :
    (generateAll env flags content static w).1 = (generateAll env flags content static w2).1 ∧
      (generateAll env flags content static w).2.fs =
        (generateAll env flags content static w2).2.fs := by
  have hcopy : (copyStatic env flags.static flags.out static w).fs =
      (copyStatic env flags.static flags.out static w2).fs := by
    unfold copyStatic
    rw [Walk_eq_run _ (copyStaticFn_noSkip env _ _), Walk_eq_run _ (copyStaticFn_noSkip env _ _)]
    exact (runVisits_fs_irrel _ (copyStaticFn_fs_irrel env _ _) _ w w2 h).2
  unfold generateAll
  simp only
  cases env.parseGlob (filepath.Join [flags.templates, str "*.html"]) with
  | none => exact ⟨rfl, hcopy⟩
  | some tmpl =>
    simp only
    rw [WalkDir_eq_run _ (contentFn_noSkip env tmpl _ _),
      WalkDir_eq_run _ (contentFn_noSkip env tmpl _ _)]
    obtain ⟨h1, h2⟩ := runVisits_fs_irrel _ (contentFn_fs_irrel env tmpl _ _) 
      (visitsWalkDir flags.content content) _ _ hcopy
    rw [h1]
    exact ⟨rfl, h2⟩

/-- Generating the site changes the file system only strictly below the output
directory, when that directory exists. -/
theorem generateAll_confined (env : Env) (flags : Flags) (content static : Option Node)
    (hc : treeOk content = true) (hs : treeOk static = true) (w : World)
    (hK : w.fs.kind (keyAt flags.out []) = Kind.dir) :
    Confined (keyAt flags.out []) w.fs (generateAll env flags content static w).2.fs := by
  have h1 := copyStatic_confined env flags.static flags.out static hs w hK
  have hK1 : (copyStatic env flags.static flags.out static w).fs.kind (keyAt flags.out []) =
      Kind.dir := by rw [Confined_kind _ _ _ h1]; exact hK
  unfold generateAll
  simp only
  cases env.parseGlob (filepath.Join [flags.templates, str "*.html"]) with
  | none => exact h1
  | some tmpl =>
    exact Confined_trans _ _ _ _ h1
      (contentWalk_confined env tmpl flags.content flags.out content hc _ hK1)

theorem MkdirAll_nil (env : Env) (perm : Nat) (fs : FS) :
    os.MkdirAll env [] perm fs = (some Err.notExist, fs) := by
  rfl

theorem any_congr_mem {α : Type} (l : List α) (f g : α → Bool) (h : ∀ a ∈ l, f a = g a) :
    l.any f = l.any g := by
  induction l with
  | nil => rfl
  | cons a l ih =>
    simp only [List.any_cons]
    rw [h a (by simp), ih (fun p hp => h p (by simp [hp]))]

/-- Whether a resolved path is blocked depends on the files outside of it. -/
theorem blocked_eq (fs fs2 : FS) (K : Key)
    (h : ∀ x, K.within x = false → (fs2.kind x = Kind.file ↔ fs.kind x = Kind.file)) :
    fs2.blocked K = fs.blocked K := by
  unfold FS.blocked
  have hp : ∀ p ∈ K.elems.dropLast.inits,
      (fs2.kind ⟨K.rooted, p⟩ == Kind.file) = (fs.kind ⟨K.rooted, p⟩ == Kind.file) := by
    intro p hp
    rw [List.mem_inits] at hp
    by_cases h0 : K.elems = []
    · have hp0 : p = [] := by
        rw [h0] at hp
        simpa using hp
      have hb : (⟨K.rooted, p⟩ : Key).isBase = true := by simp [Key.isBase, hp0]
      rw [kind_base fs2 _ hb, kind_base fs _ hb]
    · have hlen : p.length < K.elems.length := by
        have h1 := hp.length_le
        have h2 : 0 < K.elems.length := List.length_pos.mpr h0
        rw [List.length_dropLast] at h1
        omega
      have hw : K.within ⟨K.rooted, p⟩ = false := by
        simp only [Key.within, beq_self_eq_true, Bool.true_and]
        by_contra hc
        have hpre : K.elems <+: p := List.isPrefixOf_iff_prefix.mp (by simpa using hc)
        have := hpre.length_le
        omega
      have := h _ hw
      by_cases h1 : fs.kind ⟨K.rooted, p⟩ = Kind.file
      · rw [h1, this.mpr h1]
      · have h2 : ¬ fs2.kind ⟨K.rooted, p⟩ = Kind.file := fun hc => h1 (this.mp hc)
        simp [h1, h2]
  exact any_congr_mem _ _ _ hp

theorem blocked_without (fs : FS) (K : Key) : (fs.without K).blocked K = fs.blocked K := by
  apply blocked_eq
  intro x hx
  have : (fs.without K) x = fs x := by simp [FS.without, hx]
  rw [kind_eq_of_eq _ _ _ this]

theorem blocked_erase (fs : FS) (stays : Key → Bool) (K : Key) :
    (fs.erase stays K).blocked K = fs.blocked K := by
  apply blocked_eq
  intro x hx
  have : (fs.erase stays K) x = fs x := by simp [FS.erase, hx]
  rw [kind_eq_of_eq _ _ _ this]

theorem erase_erase (fs : FS) (stays : Key → Bool) (K : Key) :
    (fs.erase stays K).erase stays K = fs.erase stays K := by
  funext x
  unfold FS.erase
  by_cases hx : (K.within x && !stays x) = true
  · rw [if_pos hx, if_pos hx]
  · rw [if_neg hx]

theorem blocked_DirExt (a b : FS) (K : Key) (h : DirExt a b) : b.blocked K = a.blocked K := by
  apply blocked_eq
  intro x _
  constructor
  · intro hb
    rcases h x with h0 | ⟨_, p, h1⟩
    · rw [← kind_eq_of_eq _ _ _ h0]; exact hb
    · rw [kind_file_iff] at hb
      obtain ⟨_, p0, d0, h2⟩ := hb
      rw [h1] at h2
      cases h2
  · exact DirExt_kind_file a b h x

theorem blocked_Confined (a b : FS) (K : Key) (h : Confined K a b) :
    b.blocked K = a.blocked K := by
  apply blocked_eq
  intro x hx
  have : b x = a x := h x (fun hh => by rw [hx] at hh; cases hh.1)
  rw [kind_eq_of_eq _ _ _ this]

/-- The function `os.RemoveAll` on a descending path that does not end in a `.`
element: the call fails without effect when a file is in the way or the removal
fails; otherwise everything at and below the resolved path is removed, and
removing the entries of a base directory ends in an error. -/
theorem RemoveAll_descends (env : Env) (path : GoString) (hd : descends path = true)
    (hne : path ≠ []) (hdot : ¬ os.endsWithDot path = true) (fs : FS) :
    os.RemoveAll env path fs =
      if fs.blocked (resolve path) then (some Err.notDir, fs)
      else if env.removeFails (resolve path) then
        (some Err.permission, fs.erase env.removeFails (resolve path))
      else if (resolve path).isBase then
        (some Err.invalid, fs.erase env.removeFails (resolve path))
      else (none, fs.without (resolve path)) := by
  unfold os.RemoveAll
  rw [if_neg hne, if_neg hdot, lookup_descends fs path hne hd]

theorem without_congr (K : Key) (a b : FS) (h : Confined K a b) :
    b.without K = a.without K := by
  funext x
  unfold FS.without
  by_cases hx : K.within x = true
  · rw [if_pos hx, if_pos hx]
  · rw [if_neg hx, if_neg hx]
    exact h x (fun hh => hx hh.1)

/-- Running the build steps again, from any state with the file system that the
first run left, ends in the same file system and in the same way. -/
theorem build_again (env : Env) (flags : Flags) (content static : Option Node)
    (hout : descends flags.out = true)
    (hc : treeOk content = true) (hs : treeOk static = true) (w w2 : World)
    (h2 : w2.fs = (build env flags content static w).2.fs) :
    (build env flags content static w2).2.fs = (build env flags content static w).2.fs ∧
    (build env flags content static w2).1 = (build env flags content static w).1 := by
  by_cases h0 : flags.out = []
  · -- the empty output path: `MkdirAll` fails
    have hb : ∀ u : World, build env flags content static u = (Exit.panicked, u) := by
      intro u
      unfold build
      simp only [h0, os.RemoveAll, if_true, MkdirAll_nil]
    rw [hb w] at h2 ⊢
    rw [hb w2]
    exact ⟨h2, rfl⟩
  by_cases hdot : os.endsWithDot flags.out = true
  · have hb : ∀ u : World, build env flags content static u = (Exit.panicked, u) := by
      intro u
      unfold build
      simp only [os.RemoveAll, if_neg h0, hdot, if_true]
    rw [hb w] at h2 ⊢
    rw [hb w2]
    exact ⟨h2, rfl⟩
  have hrm := RemoveAll_descends env flags.out hout h0 hdot
  by_cases hbl : w.fs.blocked (resolve flags.out) = true
  · -- a file is in the way: the run panics without effect
    have hb : ∀ u : World, u.fs = w.fs → build env flags content static u =
        (Exit.panicked, u) := by
      intro u hu
      unfold build
      rw [hrm, hu, if_pos hbl, ← hu]
    rw [hb w rfl] at h2 ⊢
    rw [hb w2 h2]
    exact ⟨h2, rfl⟩
  by_cases hrf : env.removeFails (resolve flags.out) = true
  · -- the output directory cannot be removed: what can be removed is removed
    have hb : ∀ u : World, u.fs.blocked (resolve flags.out) = false →
        build env flags content static u =
          (Exit.panicked, { u with fs := u.fs.erase env.removeFails (resolve flags.out) }) := by
      intro u hu
      unfold build
      rw [hrm, hu]
      simp only [Bool.false_eq_true, if_false, hrf, if_true]
    rw [hb w (by simpa using hbl)] at h2 ⊢
    rw [hb w2 (by rw [h2]; simp only; rw [blocked_erase]; simpa using hbl)]
    simp only at h2 ⊢
    refine ⟨?_, trivial⟩
    rw [h2]
    exact erase_erase _ _ _
  by_cases hbase : (resolve flags.out).isBase = true
  · -- a base directory: its entries are removed and the run panics
    have hb : ∀ u : World, u.fs.blocked (resolve flags.out) = false →
        build env flags content static u =
          (Exit.panicked, { u with fs := u.fs.erase env.removeFails (resolve flags.out) }) := by
      intro u hu
      unfold build
      rw [hrm, hu]
      simp only [Bool.false_eq_true, if_false, hrf, hbase, if_true]
    rw [hb w (by simpa using hbl)] at h2 ⊢
    rw [hb w2 (by rw [h2]; simp only; rw [blocked_erase]; simpa using hbl)]
    simp only at h2 ⊢
    refine ⟨?_, trivial⟩
    rw [h2]
    exact erase_erase _ _ _
  · have hmk : ∀ fs, os.MkdirAll env flags.out ModePerm fs =
        os.mkdirAllAux env (resolve flags.out).rooted ModePerm
          (resolve flags.out).elems.reverse fs :=
      fun fs => MkdirAll_lexical env flags.out ModePerm fs h0 hout
    have hb : ∀ u : World, u.fs.blocked (resolve flags.out) = false →
        build env flags content static u =
        match os.mkdirAllAux env (resolve flags.out).rooted ModePerm
            (resolve flags.out).elems.reverse (u.fs.without (resolve flags.out)) with
        | (some _, fs2) => (Exit.panicked, { u with fs := fs2 })
        | (none, fs2) => generateAll env flags content static { u with fs := fs2 } := by
      intro u hu
      unfold build
      rw [hrm, hu]
      simp only [Bool.false_eq_true, if_false, hrf, hbase, hmk]
      try rfl
    have hstable := prep_stable env (resolve flags.out) ModePerm
      (w.fs.without (resolve flags.out)) (fun x hx => without_within _ _ _ hx)
    have hKkey : keyAt flags.out [] = resolve flags.out := by rw [keyAt_nil]; rfl
    have hblw : w.fs.blocked (resolve flags.out) = false := by simpa using hbl
    have hext := (mkdirAllAux_spec env (resolve flags.out).rooted ModePerm
      (resolve flags.out).elems.reverse (w.fs.without (resolve flags.out))).1
    rw [hb w hblw] at h2
    rw [hb w hblw]
    rcases hr : os.mkdirAllAux env (resolve flags.out).rooted ModePerm
      (resolve flags.out).elems.reverse (w.fs.without (resolve flags.out)) with ⟨_ | e, fsB⟩
    · -- the output directory was prepared: the site is generated
      rw [hr] at h2 hstable hext
      simp only at h2 hstable hext ⊢
      have hKdir : fsB.kind (keyAt flags.out []) = Kind.dir := by
        have := mkdirAllAux_success_dir env (resolve flags.out).rooted ModePerm
          (resolve flags.out).elems.reverse (w.fs.without (resolve flags.out)) (by rw [hr])
        rw [hr, List.reverse_reverse] at this
        rw [hKkey]
        exact this
      have hconf := generateAll_confined env flags content static hc hs
        { w with fs := fsB } hKdir
      rw [hKkey] at hconf
      have hbl2 : w2.fs.blocked (resolve flags.out) = false := by
        rw [h2, blocked_Confined _ _ _ hconf]
        simp only
        rw [blocked_DirExt _ _ _ hext, blocked_without]
        exact hblw
      have hw : w2.fs.without (resolve flags.out) = fsB.without (resolve flags.out) := by
        rw [h2]; exact without_congr _ _ _ hconf
      rw [hb w2 hbl2, hw, hstable]
      simp only
      obtain ⟨g1, g2⟩ := generateAll_fs_irrel env flags content static
        { w2 with fs := fsB } { w with fs := fsB } rfl
      exact ⟨g2, g1⟩
    · rw [hr] at h2 hstable hext
      simp only at h2 hstable hext ⊢
      have hbl2 : w2.fs.blocked (resolve flags.out) = false := by
        rw [h2, blocked_DirExt _ _ _ hext, blocked_without]
        exact hblw
      rw [hb w2 hbl2, h2, hstable]
      exact ⟨rfl, rfl⟩

theorem build_fs_irrel (env : Env) (flags : Flags) (content static : Option Node)
    (w w2 : World) (h : w.fs = w2.fs) :
    (build env flags content static w).1 = (build env flags content static w2).1 ∧
      (build env flags content static w).2.fs = (build env flags content static w2).2.fs := by
  unfold build
  rw [h]
  rcases os.RemoveAll env flags.out w2.fs with ⟨_ | e, fs1⟩
  · simp only
    rcases os.MkdirAll env flags.out ModePerm fs1 with ⟨_ | e, fs2⟩
    · exact generateAll_fs_irrel env flags content static _ _ rfl
    · exact ⟨rfl, rfl⟩
  · exact ⟨rfl, rfl⟩

/-- Counterexample to claim C9 as stated: the output path `p/../q`, where the
directory `p` does not exist and `q` holds the file `stale.html`.  The first run
cannot follow the path through `p`, removes nothing, makes `p` and generates the
site in `q` next to `stale.html`; the second run, with the same inputs, follows
the path through `p` and removes `q` with `stale.html` before it generates the
site: the output tree of the second run differs from that of the first. -/
theorem build_twice_differs_behind_missing_directory :
    (build demoEnv backFlags (some demoContent) (some demoStatic) staleOutput).1 = Exit.done ∧
    (build demoEnv backFlags (some demoContent) (some demoStatic)
      (build demoEnv backFlags (some demoContent) (some demoStatic) staleOutput).2).1 =
        Exit.done ∧
    staleOutput.fs (resolve (str "p")) = none ∧
    (build demoEnv backFlags (some demoContent) (some demoStatic) staleOutput).2.fs
      (resolve (str "p")) = some (Entry.dir 493) ∧
    (build demoEnv backFlags (some demoContent) (some demoStatic) staleOutput).2.fs
      (resolve (str "q/hello.html")) = some (Entry.file 420 (str "hello:<h1>Hi</h1>")) ∧
    (build demoEnv backFlags (some demoContent) (some demoStatic) staleOutput).2.fs
      (resolve (str "q/stale.html")) = some (Entry.file 420 (str "old")) ∧
    (build demoEnv backFlags (some demoContent) (some demoStatic)
      (build demoEnv backFlags (some demoContent) (some demoStatic) staleOutput).2).2.fs
      (resolve (str "q/stale.html")) = none ∧
    (build demoEnv backFlags (some demoContent) (some demoStatic)
      (build demoEnv backFlags (some demoContent) (some demoStatic) staleOutput).2).2.fs ≠
      (build demoEnv backFlags (some demoContent) (some demoStatic) staleOutput).2.fs := by
  have h1 : (build demoEnv backFlags (some demoContent) (some demoStatic) staleOutput).2.fs
      (resolve (str "q/stale.html")) = some (Entry.file 420 (str "old")) := by decide
  have h2 : (build demoEnv backFlags (some demoContent) (some demoStatic)
      (build demoEnv backFlags (some demoContent) (some demoStatic) staleOutput).2).2.fs
      (resolve (str "q/stale.html")) = none := by decide
  refine ⟨by decide, by decide, by decide, by decide, by decide, h1, h2, ?_⟩
  intro h
  rw [h, h1] at h2
  cases h2

/-- Claim C9, amended: for an output path in which no `..` element follows a
file name, the build steps (clear the output directory, mirror the static
assets, convert and render every document) are deterministic and idempotent on
source trees of file names.  A second run that starts from the file system left
by the first run, with the same inputs, leaves exactly that file system again
and ends in the same way; the file system that a run leaves and the way the run
ends depend only on the inputs and on the file system at the start. -/
theorem build_idempotent (env : Env) (flags : Flags) (content static : Option Node)
    (w : World) (hout : descends flags.out = true)
    (hc : treeOk content = true) (hs : treeOk static = true) :
    (build env flags content static (build env flags content static w).2).2.fs =
      (build env flags content static w).2.fs ∧
    (build env flags content static (build env flags content static w).2).1 =
      (build env flags content static w).1 ∧
    (∀ w2 : World, w2.fs = (build env flags content static w).2.fs →
      (build env flags content static w2).2.fs = (build env flags content static w).2.fs ∧
      (build env flags content static w2).1 = (build env flags content static w).1) ∧
    (∀ w1 w2 : World, w1.fs = w2.fs →
      (build env flags content static w1).1 = (build env flags content static w2).1 ∧
      (build env flags content static w1).2.fs = (build env flags content static w2).2.fs) :=
  ⟨(build_again env flags content static hout hc hs w _ rfl).1,
    (build_again env flags content static hout hc hs w _ rfl).2,
    fun w2 h2 => build_again env flags content static hout hc hs w w2 h2,
    fun w1 w2 h => build_fs_irrel env flags content static w1 w2 h⟩

/-- Witness of claim C9, amended: the sample site built twice with the default
flags; the second run leaves the pages and the asset of the first run. -/
theorem build_idempotent_witness :
    descends Flags.default.out = true ∧
    treeOk (some demoContent) = true ∧ treeOk (some demoStatic) = true ∧
    (build demoEnv Flags.default (some demoContent) (some demoStatic)
        (build demoEnv Flags.default (some demoContent) (some demoStatic) emptyWorld).2).2.fs =
      (build demoEnv Flags.default (some demoContent) (some demoStatic) emptyWorld).2.fs ∧
    (build demoEnv Flags.default (some demoContent) (some demoStatic) emptyWorld).1 =
      Exit.done ∧
    (build demoEnv Flags.default (some demoContent) (some demoStatic) emptyWorld).2.fs
      (resolve (str "public/posts/a.html")) = some (Entry.file 420 (str "a:<h1>A</h1>")) ∧
    (build demoEnv Flags.default (some demoContent) (some demoStatic)
        (build demoEnv Flags.default (some demoContent) (some demoStatic) emptyWorld).2).2.fs
      (resolve (str "public/css/site.css")) = some (Entry.file 420 (str "body")) ∧
    descends (str "./public/") = true ∧ descends (str "../site") = true ∧
    descends (str "p/../q") = false :=
  ⟨by decide, by decide, by decide,
    (build_idempotent demoEnv Flags.default (some demoContent) (some demoStatic) emptyWorld
      (by decide) (by decide) (by decide)).1,
    by decide, by decide, by decide, by decide, by decide, by decide⟩

/-- Claim C1: for every path, `deriveTitle` returns the last path element
(`filepath.Base`) with its extension (`filepath.Ext` of that element) removed and
no other byte changed: the title followed by the extension is the base name, and
the title is the part of the base name before its last dot (the whole base name
when it has no dot); `my-post.md` gives `my-post` and `hello.md` gives `hello`. -/
theorem deriveTitle_base_without_ext :
    (∀ p : GoString, ∃ t, deriveTitle p = some t ∧
      t ++ filepath.Ext (filepath.Base p) = filepath.Base p ∧
      t = beforeLastDot (filepath.Base p) ∧
      (dot ∈ filepath.Base p → ∃ e, filepath.Base p = t ++ dot :: e ∧ dot ∉ e) ∧
      (dot ∉ filepath.Base p → t = filepath.Base p)) ∧
    deriveTitle (str "my-post.md") = some (str "my-post") ∧
    deriveTitle (str "hello.md") = some (str "hello") ∧
    deriveTitle (str "posts/2024/my-post.md") = some (str "my-post") := by
  refine ⟨fun p => ?_, by decide, by decide, by decide⟩
  obtain ⟨h1, h2⟩ := deriveTitle_eq p
  refine ⟨_, h1, h2, rfl, ?_, ?_⟩
  · intro hd
    rcases Ext_cases (filepath.Base p) with h | ⟨t2, e, hb, hde, _, he⟩
    · exfalso
      rcases Base_cases p with hb | hb
      · rw [hb] at hd; revert hd; decide
      · exact Ext_nil_no_sep _ hb h hd
    · refine ⟨e, ?_, hde⟩
      rw [he] at h2
      exact h2.symm
  · intro hd
    unfold beforeLastDot
    rw [if_neg hd]

/-- Claim C10: the two slice expressions that strip an extension stay in range:
for every string the extension is no longer than the string, also for the base
name, so `deriveTitle` and the slug computation return a value and never panic;
the empty string, `.`, `/`, a name that starts with a dot and a name without a
dot are spelled out. -/
theorem ext_slices_in_range :
    (∀ s : GoString, (filepath.Ext s).length ≤ s.length ∧
      (filepath.Ext (filepath.Base s)).length ≤ (filepath.Base s).length ∧
      (∃ t, deriveTitle s = some t) ∧ (∃ g, slug s = some g)) ∧
    deriveTitle [] = some [] ∧ slug [] = some (str ".html") ∧
    deriveTitle (str ".") = some [] ∧ slug (str ".") = some (str ".html") ∧
    deriveTitle (str "/") = some (str "/") ∧ slug (str "/") = some (str "/.html") ∧
    deriveTitle (str ".bashrc") = some [] ∧ slug (str ".bashrc") = some (str ".html") ∧
    deriveTitle (str "README") = some (str "README") ∧
    slug (str "README") = some (str "README.html") := by
  refine ⟨fun s => ⟨Ext_length_le s, Ext_length_le _, ⟨_, (deriveTitle_eq s).1⟩, ?_⟩,
    by decide, by decide, by decide, by decide, by decide, by decide, by decide, by decide,
    by decide, by decide⟩
  obtain ⟨t, ht, _⟩ := slicePrefix_ext s
  exact ⟨t ++ str ".html", by simp [slug, ht]⟩

/-- The function `filepath.Join` cleans the elements `.` and `..` away: the
title of `Join("a/b", "..")` is the title of the directory `a`, while the title
of the path `a/b/..` is that of its last element `..`. -/
theorem deriveTitle_Join_dot_elements :
    deriveTitle (filepath.Join [str "a/b", str ".."]) = some (str "a") ∧
    deriveTitle (str "a/b/..") = some (str ".") ∧
    deriveTitle (str "..") = some (str ".") ∧
    deriveTitle (filepath.Join [str "a", str "."]) = some (str "a") ∧
    deriveTitle (str ".") = some [] := by
  decide

/-- Claim C8: the title depends on the base file name only.  For all paths `p` and
`q` the titles are equal exactly when the base names with their extensions
stripped are equal, so two paths with the same base name have the same title;
and a directory prefix does not change the title of a non-empty name `f` without
separator: `deriveTitle(d/f) = deriveTitle(f)`, which also holds for
`filepath.Join(d, f)` when `f` is a file name (not `.` or `..`). -/
theorem deriveTitle_ignores_directory :
    (∀ p q : GoString, deriveTitle p = deriveTitle q ↔
      beforeLastDot (filepath.Base p) = beforeLastDot (filepath.Base q)) ∧
    (∀ p q : GoString, filepath.Base p = filepath.Base q → deriveTitle p = deriveTitle q) ∧
    (∀ d f : GoString, f ≠ [] ∧ sep ∉ f → deriveTitle (d ++ sep :: f) = deriveTitle f) ∧
    (∀ d f : GoString, isName f → deriveTitle (filepath.Join [d, f]) = deriveTitle f) := by
  refine ⟨fun p q => ?_, fun p q h => ?_, fun d f h => ?_, fun d f h => ?_⟩
  · rw [(deriveTitle_eq p).1, (deriveTitle_eq q).1]
    exact ⟨fun h => Option.some.inj h, fun h => by rw [h]⟩
  · rw [(deriveTitle_eq p).1, (deriveTitle_eq q).1, h]
  · rw [(deriveTitle_eq _).1, (deriveTitle_eq f).1, Base_prefix_name d f h.1 h.2,
      Base_of_name f h.1 h.2]
  · have hj := Join_dir_names d [f] (by simp) (by simpa using h)
    rw [Join_singleton] at hj
    rw [(deriveTitle_eq _).1, (deriveTitle_eq f).1, hj, Base_of_name f h.1 h.2.1]
    rcases render_last (filepath.isRooted d) (filepath.cleanElems d) f h.1 with h1 | ⟨x, h1⟩
    · rw [h1, Base_of_name f h.1 h.2.1]
    · rw [h1, Base_prefix_name x f h.1 h.2.1]

/-- Claim C2: for a relative path `rel` whose extension is `.md`, the output path
of the content walk is `filepath.Join(outDir, slug)` where the slug is `rel` with
the trailing `.md` replaced by `.html`: `rel` is a directory part followed by a
last element `t.md`, and the slug is the same directory part followed by
`t.html`. -/
theorem outPath_replaces_md (outDir rel : GoString) (h : filepath.Ext rel = str ".md") :
    ∃ dirPart t, rel = dirPart ++ t ++ str ".md" ∧
      (dirPart = [] ∨ ∃ d0, dirPart = d0 ++ [sep]) ∧ sep ∉ t ∧
      filepath.lastElement rel = t ++ str ".md" ∧
      slug rel = some (dirPart ++ t ++ str ".html") ∧
      filepath.lastElement (dirPart ++ t ++ str ".html") = t ++ str ".html" ∧
      outPathOf outDir rel = some (filepath.Join [outDir, dirPart ++ t ++ str ".html"]) := by
  obtain ⟨stem, hs, hstem⟩ := slicePrefix_ext rel
  rw [h] at hstem
  obtain ⟨d, hd, hd2⟩ := lastElement_split stem
  have hsepfree := lastElement_no_sep stem
  have hlast : ∀ x : GoString, sep ∉ x →
      filepath.lastElement (d ++ filepath.lastElement stem ++ x) =
        filepath.lastElement stem ++ x := by
    intro x hx
    have hnx : sep ∉ filepath.lastElement stem ++ x := by
      simp only [List.mem_append, not_or]; exact ⟨hsepfree, hx⟩
    rcases hd2 with h0 | ⟨d0, h0⟩
    · rw [h0, List.nil_append]; exact lastElement_of_no_sep _ hnx
    · rw [h0]
      have := lastElement_append_sep d0 _ hnx
      simpa using this
  refine ⟨d, filepath.lastElement stem, ?_, hd2, hsepfree, ?_, ?_, ?_, ?_⟩
  · rw [← hd]; exact hstem.symm
  · rw [← hstem]
    conv_lhs => rw [hd]
    exact hlast _ (by decide)
  · rw [← hd]; simp [slug, hs]
  · exact hlast _ (by decide)
  · rw [← hd]; simp [outPathOf, slug, hs]

/-- Witness of claim C2: `posts/a.md` under the output directory `public`. -/
theorem outPath_replaces_md_witness :
    filepath.Ext (str "posts/a.md") = str ".md" ∧
    outPathOf (str "public") (str "posts/a.md") = some (str "public/posts/a.html") ∧
    outPathOf (str "public") (str "hello.md") = some (str "public/hello.html") ∧
    ∃ dirPart t, str "posts/a.md" = dirPart ++ t ++ str ".md" ∧
      (dirPart = [] ∨ ∃ d0, dirPart = d0 ++ [sep]) ∧ sep ∉ t ∧
      filepath.lastElement (str "posts/a.md") = t ++ str ".md" ∧
      slug (str "posts/a.md") = some (dirPart ++ t ++ str ".html") ∧
      filepath.lastElement (dirPart ++ t ++ str ".html") = t ++ str ".html" ∧
      outPathOf (str "public") (str "posts/a.md") =
        some (filepath.Join [str "public", dirPart ++ t ++ str ".html"]) :=
  ⟨by decide, by decide, by decide,
    outPath_replaces_md (str "public") (str "posts/a.md") (by decide)⟩

end StaticSite
